import Mathlib

/-!
# A doubly-linked list of byte payloads (`linkedlist.c`)

Shallow embedding of the C module `linkedlist.c` / `linkedlist.h`.

## Memory model

* A node pointer `struct listNode*` is an `Option Nat`: `none` is `NULL`,
  `some a` is the address `a`.
* The node heap is a finite table `Heap := List (Option listNode)`.  Cell `a` holds
  `some n` when a live `struct listNode` with contents `n` is stored at address `a`,
  and `none` when the address has been freed.  Addresses `≥ h.length` have never
  been handed out.
* `malloc(sizeof(struct listNode))` always succeeds and returns the first address
  that was never handed out (`h.length`).
* A data pointer (`void*`) is modelled by the bytes it points to: `none` is `NULL`,
  `some bytes` is a pointer to a block holding `bytes`.  The block `node->data` is
  owned by its node, so it is stored inside the node cell and is released with it.
  `memcpy(dst, object, size)` copies the first `size` bytes of `object`.
* A `struct linkedList*` handle is an `Option linkedList` (`none` is `NULL`); every
  operation returns the updated structure next to the updated heap.
* Dereferencing `NULL` or an address that holds no live node is a memory fault.
  Every operation that follows a node pointer returns `Option _`; `none` is such a
  fault, `some r` is a normal return with outcome `r`.
* `uint32_t` values are natural numbers; the only arithmetic that can wrap is
  `size + 1`, written with an explicit `% 2 ^ 32`.

## Contents

The operations `ll_init`, `ll_add`, `ll_addIndex`, `ll_remove`, `ll_get`, `ll_size`,
`ll_getIterator`, `ll_hasNext` and `ll_next` follow the C functions statement by
statement.  `IsList h l ps` relates a list structure to the sequence `ps` of its node
addresses; the theorems at the end state what each operation does to that sequence and
to the payloads stored in it.
-/

namespace LinkedList

/-- The C `struct listNode`. -/
structure listNode where
  data : Option (List Nat)
  dataSize : Nat
  nextNode : Option Nat
  prevNode : Option Nat
deriving DecidableEq, Repr

/-- The C `struct linkedList`. -/
structure linkedList where
  head : Option Nat
  tail : Option Nat
  size : Nat
deriving DecidableEq, Repr

/-- The C `struct linkedListIterator`. -/
structure linkedListIterator where
  current : Option Nat
deriving DecidableEq, Repr

/-- The node heap. -/
abbrev Heap := List (Option listNode)

/-- Load the node stored at address `p`; `none` when no live node is there. -/
def Heap.read (h : Heap) (p : Nat) : Option listNode :=
  (h[p]?).join

/-- A store `p->field = v` through a node pointer: faults unless `p` is live. -/
def Heap.modify (h : Heap) (p : Nat) (f : listNode → listNode) : Option Heap :=
  match h.read p with
  | some n => some (h.set p (some (f n)))
  | none => none

/-- The call `free(p)` on a node (its data block goes with it): faults unless `p` is live. -/
def Heap.free (h : Heap) (p : Nat) : Option Heap :=
  match h.read p with
  | some _ => some (h.set p none)
  | none => none

/-- The guarded store `if (p != NULL) p->nextNode = v;`. -/
def storeNext (h : Heap) (p : Option Nat) (v : Option Nat) : Option Heap :=
  match p with
  | some a => h.modify a (fun n => { n with nextNode := v })
  | none => some h

/-- The guarded store `if (p != NULL) p->prevNode = v;`. -/
def storePrev (h : Heap) (p : Option Nat) (v : Option Nat) : Option Heap :=
  match p with
  | some a => h.modify a (fun n => { n with prevNode := v })
  | none => some h

/-- What an operation on a list leaves behind: its return value, the heap and the
(possibly absent) list structure behind the handle. -/
structure Outcome (α : Type) where
  ret : α
  heap : Heap
  list : Option linkedList
deriving DecidableEq, Repr

/-- `void ll_init(struct linkedList* list)`. -/
def ll_init (list : Option linkedList) : Option linkedList :=
  match list with
  | some l => some { l with head := none, tail := none, size := 0 }
  | none => none

/-- `bool ll_add(struct linkedList* list, const void* object, uint32_t size)`. -/
def ll_add (h : Heap) (list : Option linkedList) (object : Option (List Nat)) (size : Nat) :
    Option (Outcome Bool) :=
  match list, object with
  | some l, some obj =>
    if size ≠ 0 then do
      -- node = malloc(..); node->data = malloc(size); memcpy(node->data, object, size);
      -- node->dataSize = size; node->nextNode = NULL; node->prevNode = list->tail;
      let node : Nat := h.length
      let h := h ++ [some { data := some (obj.take size), dataSize := size,
                            nextNode := none, prevNode := l.tail }]
      -- if (list->tail != NULL) list->tail->nextNode = node;
      let h ← storeNext h l.tail (some node)
      -- list->tail = node;
      let l := { l with tail := some node }
      -- if (list->size == 0) list->head = node;
      let l := if l.size = 0 then { l with head := some node } else l
      -- list->size = list->size + 1;
      let l := { l with size := (l.size + 1) % 2 ^ 32 }
      pure ⟨true, h, some l⟩
    else pure ⟨false, h, list⟩
  | _, _ => pure ⟨false, h, list⟩

/-- `struct linkedListIterator* ll_getIterator(struct linkedList* list)`. -/
def ll_getIterator (list : Option linkedList) : Option linkedListIterator :=
  match list with
  | some l => some { current := l.head }
  | none => none

/-- `bool ll_hasNext(struct linkedListIterator* iter)`. -/
def ll_hasNext (iter : Option linkedListIterator) : Bool :=
  match iter with
  | some it => it.current.isSome
  | none => false

/-- `void* ll_next(struct linkedListIterator* iter)`: the returned data pointer and the
iterator afterwards. -/
def ll_next (h : Heap) (iter : Option linkedListIterator) :
    Option (Option (List Nat) × Option linkedListIterator) :=
  match iter with
  | some it =>
    match it.current with
    | some c => do
      -- data = iter->current->data; iter->current = iter->current->nextNode;
      let n ← h.read c
      pure (n.data, some { it with current := n.nextNode })
    | none => pure (none, iter)
  | none => pure (none, iter)

/-- The positioning loop `for (int i = 0; i < index; i++) ll_next(iter);`.  The `int`
counter is converted to unsigned for the comparison with `index` and its increment is
taken modulo `2 ^ 32` (two's complement), so the body runs exactly `index` times. -/
def advance (h : Heap) : Nat → Option linkedListIterator → Option (Option linkedListIterator)
  | 0, iter => some iter
  | k + 1, iter => do
    let r ← ll_next h iter
    advance h k r.2

/-- `bool ll_addIndex(struct linkedList* list, const void* object, uint32_t size,
uint32_t index)`. -/
def ll_addIndex (h : Heap) (list : Option linkedList) (object : Option (List Nat))
    (size index : Nat) : Option (Outcome Bool) :=
  match list with
  | none => pure ⟨false, h, list⟩
  | some l =>
    match object, decide (size ≠ 0 ∧ index < l.size) with
    | some obj, true => do
      -- node = malloc(..); node->data = malloc(size); memcpy(..); node->dataSize = size;
      let node : Nat := h.length
      let h := h ++ [some { data := some (obj.take size), dataSize := size,
                            nextNode := none, prevNode := none }]
      -- iter = ll_getIterator(list); for (i < index) ll_next(iter);
      let iter ← advance h index (ll_getIterator list)
      let it ← iter
      -- node->nextNode = iter->current;
      let h ← h.modify node (fun n => { n with nextNode := it.current })
      -- node->prevNode = iter->current->prevNode;
      let c ← it.current
      let cn ← h.read c
      let h ← h.modify node (fun n => { n with prevNode := cn.prevNode })
      -- if (node->prevNode != NULL) node->prevNode->nextNode = node;
      let nn ← h.read node
      let h ← storeNext h nn.prevNode (some node)
      -- iter->current->prevNode = node;
      let h ← h.modify c (fun n => { n with prevNode := some node })
      -- if (index == 0) list->head = node;
      let l := if index = 0 then { l with head := some node } else l
      -- list->size = list->size + 1;
      let l := { l with size := (l.size + 1) % 2 ^ 32 }
      pure ⟨true, h, some l⟩
    | _, _ =>
      -- else if ((list != NULL) && (index == list->size)) completed = ll_add(..);
      if index = l.size then ll_add h list object size
      else pure ⟨false, h, list⟩

/-- `bool ll_remove(struct linkedList* list, uint32_t index)`.  In the branch that
computes `list->size - 1` the size is positive, so the subtraction does not wrap. -/
def ll_remove (h : Heap) (list : Option linkedList) (index : Nat) : Option (Outcome Bool) :=
  match list with
  | some l =>
    if index < l.size then do
      -- iter = ll_getIterator(list); for (i < index) ll_next(iter);
      let iter ← advance h index (ll_getIterator list)
      let it ← iter
      let c ← it.current
      -- if (cur->nextNode != NULL) cur->nextNode->prevNode = cur->prevNode;
      let cn ← h.read c
      let h ← storePrev h cn.nextNode cn.prevNode
      -- if (cur->prevNode != NULL) cur->prevNode->nextNode = cur->nextNode;
      let cn ← h.read c
      let h ← storeNext h cn.prevNode cn.nextNode
      -- if (index == 0) list->head = cur->nextNode;
      -- else if (index == list->size - 1) list->tail = cur->prevNode;
      let cn ← h.read c
      let l := if index = 0 then { l with head := cn.nextNode }
               else if index = l.size - 1 then { l with tail := cn.prevNode }
               else l
      -- free(cur->data); free(cur); free(iter);
      let h ← h.free c
      -- list->size = list->size - 1;
      let l := { l with size := l.size - 1 }
      -- if (list->size == 0) ll_init(list);
      let list := if l.size = 0 then ll_init (some l) else some l
      pure ⟨true, h, list⟩
    else pure ⟨false, h, list⟩
  | none => pure ⟨false, h, list⟩

/-- `void* ll_get(struct linkedList* list, uint32_t index)`. -/
def ll_get (h : Heap) (list : Option linkedList) (index : Nat) :
    Option (Outcome (Option (List Nat))) :=
  match list with
  | some l =>
    if index < l.size then do
      -- iter = ll_getIterator(list); for (i < index) ll_next(iter);
      let iter ← advance h index (ll_getIterator list)
      let it ← iter
      -- result = iter->current->data;
      let c ← it.current
      let cn ← h.read c
      pure ⟨cn.data, h, list⟩
    else pure ⟨none, h, list⟩
  | none => pure ⟨none, h, list⟩

/-- `uint32_t ll_size(struct linkedList* list)`. -/
def ll_size (list : Option linkedList) : Nat :=
  match list with
  | some l => l.size
  | none => 0

/-- The loop of `ll_clear`:
`while (ll_hasNext(iter)) { temp = iter->current; ll_next(iter); free(temp->data); free(temp); }`.
It returns the heap and the iterator at loop exit.  `fuel` bounds the number of
iterations; `none` is a memory fault, or the bound being reached with the loop still
running. -/
def clearLoop : Nat → Heap → Option linkedListIterator →
    Option (Heap × Option linkedListIterator)
  | 0, h, iter => if ll_hasNext iter then none else some (h, iter)
  | fuel + 1, h, iter =>
    if ll_hasNext iter then do
      -- temp = iter->current;
      let it ← iter
      let temp ← it.current
      -- ll_next(iter);
      let r ← ll_next h iter
      -- free(temp->data); free(temp);
      let h ← h.free temp
      clearLoop fuel h r.2
    else some (h, iter)

/-- `void ll_clear(struct linkedList* list)`.  Every iteration of its loop frees a live
cell, so the loop runs at most `h.length` times: that bound is the fuel, and the loop
never stops for lack of it (`clearLoop_fuel_irrelevant`). -/
def ll_clear (h : Heap) (list : Option linkedList) : Option (Outcome Unit) :=
  match list with
  | some _ => do
    -- iter = ll_getIterator(list); while (ll_hasNext(iter)) { .. } free(iter);
    let r ← clearLoop h.length h (ll_getIterator list)
    -- ll_init(list);
    pure ⟨(), r.1, ll_init list⟩
  | none => pure ⟨(), h, list⟩

/-- A caller appending the buffers `objs` (bytes and length) one after the other with
`ll_add`; the result is true when every call returned true. -/
def ll_add_all (h : Heap) (list : Option linkedList) :
    List (List Nat × Nat) → Option (Outcome Bool)
  | [] => some ⟨true, h, list⟩
  | o :: rest => do
    let r ← ll_add h list (some o.1) o.2
    let r' ← ll_add_all r.heap r.list rest
    pure ⟨r.ret && r'.ret, r'.heap, r'.list⟩

/-- The number of live cells of a heap. -/
def liveCount (h : Heap) : Nat :=
  h.countP Option.isSome

/-! ## Well-formed lists

`Seg h prev ps nxt` says that the addresses `ps`, in this order, are live nodes of
`h` linked to each other in both directions: the first one points back to `prev`,
the last one points forward to `nxt`.  A list structure is well formed when its
nodes form such a segment from `NULL` to `NULL`, `head` and `tail` are its two ends
and `size` is its length. -/

/-- The forward link expected in a node followed by the nodes `ps`. -/
def nextOf (ps : List Nat) (nxt : Option Nat) : Option Nat :=
  match ps with
  | [] => nxt
  | q :: _ => some q

/-- The backward link expected in a node preceded by the nodes `ps`. -/
def prevOf (ps : List Nat) (prev : Option Nat) : Option Nat :=
  match ps.getLast? with
  | some q => some q
  | none => prev

/-- A doubly-linked segment of live nodes. -/
def Seg (h : Heap) : Option Nat → List Nat → Option Nat → Prop
  | _, [], _ => True
  | prev, p :: ps, nxt =>
    match h.read p with
    | some n => n.prevNode = prev ∧ n.nextNode = nextOf ps nxt ∧ Seg h (some p) ps nxt
    | none => False

/-- Head, tail and links of `l` are those of the node sequence `ps`. -/
structure Shape (h : Heap) (l : linkedList) (ps : List Nat) : Prop where
  chain : Seg h none ps none
  head_eq : l.head = ps.head?
  tail_eq : l.tail = ps.getLast?

/-- The list `l` is well formed in the heap `h`, and `ps` are its nodes from head to
tail.  This is the data model of the container: the nodes form one chain without a cycle
in which `prev` and `next` mirror each other and are `NULL` at the two ends, `head` is
the node with index `0`, `tail` the node with index `count - 1`, both are `NULL` exactly
when there is no node, and `size` is the number of nodes. -/
structure IsList (h : Heap) (l : linkedList) (ps : List Nat) : Prop where
  shape : Shape h l ps
  size_eq : l.size = ps.length

/-- The payload of the node at `p` (`NULL` when there is none). -/
def payload (h : Heap) (p : Nat) : Option (List Nat) :=
  match h.read p with
  | some n => n.data
  | none => none

/-- What the node at `p` stores: its data pointer and its `dataSize`. -/
def cargo (h : Heap) (p : Nat) : Option (Option (List Nat) × Nat) :=
  match h.read p with
  | some n => some (n.data, n.dataSize)
  | none => none

/-- The payloads of the nodes `ps`, in order. -/
def payloads (h : Heap) (ps : List Nat) : List (Option (List Nat)) :=
  ps.map (payload h)

/-! ## A long list

`chainHeap n` holds `n` one-byte nodes at the addresses `0, …, n - 1`, linked in this
order; `chainList n` is the list structure over them.  It is the state reached from an
initialised empty list by `n` calls `ll_add(list, "\0", 1)` in a fresh heap. -/

/-- The heap of the `n`-node chain. -/
def chainHeap (n : Nat) : Heap :=
  (List.range n).map fun a =>
    some ⟨some [0], 1, if a + 1 < n then some (a + 1) else none,
      if a = 0 then none else some (a - 1)⟩

/-- The list structure of the `n`-node chain. -/
def chainList (n : Nat) : linkedList :=
  ⟨if n = 0 then none else some 0, if n = 0 then none else some (n - 1), n⟩

/-! ## Small lists used to instantiate the theorems -/

/-- A two-element list used to instantiate the theorems: payloads `[1]` and `[2]`. -/
def demoHeap : Heap :=
  [some ⟨some [1], 1, some 1, none⟩, some ⟨some [2], 1, none, some 0⟩]

/-- The list structure over `demoHeap`. -/
def demoList : linkedList := ⟨some 0, some 1, 2⟩

/-- A one-element list: payload `[5]`. -/
def soloHeap : Heap := [some ⟨some [5], 1, none, none⟩]

/-- The list structure over `soloHeap`. -/
def soloList : linkedList := ⟨some 0, some 0, 1⟩

/-! ## Callers

A caller's `while (ll_hasNext(iter)) .. ll_next(iter)` loop, the walks along the links
that the structural checks of the test suite make, and sequences of calls of the public
operations on one list. -/

/-- Draining an iterator: `ll_next` is called as long as `ll_hasNext` is true and the
returned data pointers are collected.  `fuel` bounds the number of calls; `none` is a
memory fault, or the bound being reached with `ll_hasNext` still true. -/
def drain : Nat → Heap → Option linkedListIterator → Option (List (Option (List Nat)))
  | 0, _, iter => if ll_hasNext iter then none else some []
  | fuel + 1, h, iter =>
    if ll_hasNext iter then do
      let r ← ll_next h iter
      let rest ← drain fuel h r.2
      pure (r.1 :: rest)
    else some []

/-- The nodes met from `cur` along the `nextNode` links up to `NULL`; `none` is a memory
fault, or `fuel` nodes met without reaching `NULL`. -/
def walkNext (h : Heap) : Nat → Option Nat → Option (List Nat)
  | _, none => some []
  | 0, some _ => none
  | fuel + 1, some p => do
    let n ← h.read p
    let rest ← walkNext h fuel n.nextNode
    pure (p :: rest)

/-- The nodes met from `cur` along the `prevNode` links up to `NULL`; `none` is a memory
fault, or `fuel` nodes met without reaching `NULL`. -/
def walkPrev (h : Heap) : Nat → Option Nat → Option (List Nat)
  | _, none => some []
  | 0, some _ => none
  | fuel + 1, some p => do
    let n ← h.read p
    let rest ← walkPrev h fuel n.prevNode
    pure (p :: rest)

/-- A call of a public operation on the list, with its arguments. -/
inductive Call where
  | init
  | add (object : Option (List Nat)) (size : Nat)
  | addIndex (object : Option (List Nat)) (size index : Nat)
  | remove (index : Nat)
  | get (index : Nat)
  | clear
deriving DecidableEq, Repr

/-- The heap and list after one call; `none` when the call faults. -/
def step (h : Heap) (list : Option linkedList) : Call → Option (Heap × Option linkedList)
  | Call.init => some (h, ll_init list)
  | Call.add object size => (ll_add h list object size).map fun r => (r.heap, r.list)
  | Call.addIndex object size index =>
    (ll_addIndex h list object size index).map fun r => (r.heap, r.list)
  | Call.remove index => (ll_remove h list index).map fun r => (r.heap, r.list)
  | Call.get index => (ll_get h list index).map fun r => (r.heap, r.list)
  | Call.clear => (ll_clear h list).map fun r => (r.heap, r.list)

/-- The heap and list after a sequence of calls. -/
def run (h : Heap) (list : Option linkedList) : List Call → Option (Heap × Option linkedList)
  | [] => some (h, list)
  | c :: cs => (step h list c).bind fun s => run s.1 s.2 cs

/-- The calls that can add a node. -/
def Call.inserts : Call → Bool
  | Call.add _ _ => true
  | Call.addIndex _ _ _ => true
  | _ => false

/-- In the sequence of calls no `ll_add` or `ll_addIndex` is made while the size field
holds `2^32 - 1`, the largest `uint32_t`. -/
def NoWrap (h : Heap) (list : Option linkedList) : List Call → Prop
  | [] => True
  | c :: cs =>
    (c.inserts = true → ll_size list < 2 ^ 32 - 1) ∧
    match step h list c with
    | some s => NoWrap s.1 s.2 cs
    | none => True

/-- The nodes `ps` from head to tail of the list `l`, hanging from the node `prev`: the
chain is as in a well-formed list except that the head's `prevNode` is `prev`.  When
`prev` is a node it is live and not one of `ps`. -/
structure Rooted (h : Heap) (l : linkedList) (prev : Option Nat) (ps : List Nat) : Prop where
  chain : Seg h prev ps none
  head_eq : l.head = ps.head?
  tail_eq : l.tail = ps.getLast?
  root : ∀ t, prev = some t → (∃ n, h.read t = some n) ∧ t ∉ ps
  bare : ps = [] → prev = none

/-- The null-terminated bytes of a C string literal. -/
def cstr (s : String) : List Nat :=
  s.toList.map Char.toNat ++ [0]

/-- The nodes met on the walk from the head of a list along the `nextNode` links; the
number of cells of the heap bounds the length of a walk that ends. -/
def nodes (h : Heap) (l : linkedList) : List Nat :=
  (walkNext h h.length l.head).getD []

/-- The node at `p` has a payload and a positive `dataSize`. -/
def loaded (h : Heap) (p : Nat) : Bool :=
  match cargo h p with
  | some (some _, size) => decide (0 < size)
  | _ => false

/-- Both links of the node at `p` are mirrored: a previous node names `p` as its next
node, and a next node names `p` as its previous node. -/
def mirrored (h : Heap) (p : Nat) : Bool :=
  match h.read p with
  | none => false
  | some n =>
    (match n.prevNode with
      | none => true
      | some q => decide ((h.read q).map (fun m => m.nextNode) = some (some p))) &&
    (match n.nextNode with
      | none => true
      | some q => decide ((h.read q).map (fun m => m.prevNode) = some (some p)))

/-- How the nodes `ps'` of a list after the call `c` relate to the nodes `ps` before it:
a node is either an old one with its payload and `dataSize` untouched, or a new one
holding the bytes and the length that were handed to `ll_add` or `ll_addIndex`. -/
def Kept (h : Heap) (ps : List Nat) (c : Call) (h' : Heap) (ps' : List Nat) : Prop :=
  ∀ p ∈ ps', (p ∈ ps ∧ cargo h' p = cargo h p) ∨
    (p ∉ ps ∧ ∃ obj size index, (c = Call.add (some obj) size ∨
        c = Call.addIndex (some obj) size index) ∧ 0 < size ∧
      cargo h' p = some (some (obj.take size), size))

/-- What every state reached from `ll_init` satisfies, also after the size has wrapped:
the nodes `ps` from head to tail form a chain that may hang from a node `prev`, the size
field counts them modulo `2 ^ 32`, and every node is loaded. -/
structure Inv (h : Heap) (l : linkedList) (prev : Option Nat) (ps : List Nat) : Prop where
  rooted : Rooted h l prev ps
  size_eq : l.size = ps.length ∨ (l.size = 0 ∧ ps.length = 2 ^ 32)
  size_lt : l.size < 2 ^ 32
  valid : ∀ p ∈ ps, loaded h p = true

/-- The node a list hangs from, when there is one, names the head of the list as its
next node. -/
def Hung (h : Heap) (prev : Option Nat) (ps : List Nat) : Prop :=
  ∀ t, prev = some t → ∃ n, h.read t = some n ∧ n.nextNode = ps.head?

/-- One-byte appends, as many as `n`. -/
def appends (n : Nat) : List Call :=
  List.replicate n (Call.add (some [0]) 1)

/-- A caller calling `ll_next` `k` times on the same cursor: the returned data pointers
and the cursor afterwards. -/
def nexts (h : Heap) : Nat → Option linkedListIterator →
    Option (List (Option (List Nat)) × Option linkedListIterator)
  | 0, iter => some ([], iter)
  | k + 1, iter => do
    let r ← ll_next h iter
    let rest ← nexts h k r.2
    pure (r.1 :: rest.1, rest.2)

/-! ## The scenario of `setupBasicList` and `testRemove`

`setupBasicList` appends five string literals with their lengths.  The literal
`"Operating"` has ten bytes with its terminator and is appended with length 11, so the
copy takes one byte more, the byte `x` that follows the literal in memory. -/

/-- The buffers `setupBasicList` hands to `ll_add`, with the lengths it passes. -/
def scenarioBuffers (x : Nat) : List (List Nat × Nat) :=
  [(cstr "CS3841", 7), (cstr "Operating" ++ [x], 11), (cstr "Systems", 8), (cstr "Fall", 5),
    (cstr "Quarter", 8)]

/-- The list after `ll_init` and the five appends of `setupBasicList`. -/
def scenarioFilled (x : Nat) (l0 : linkedList) : Option (Outcome Bool) :=
  ll_add_all [] (ll_init (some l0)) (scenarioBuffers x)

/-- Then `ll_remove(&myList, 4)`. -/
def scenarioCut (x : Nat) (l0 : linkedList) : Option (Outcome Bool) :=
  (scenarioFilled x l0).bind fun r => ll_remove r.heap r.list 4

/-- Then `ll_remove(&myList, 0)`. -/
def scenarioEnd (x : Nat) (l0 : linkedList) : Option (Outcome Bool) :=
  (scenarioCut x l0).bind fun r => ll_remove r.heap r.list 0

/-- The payload of the head after a call: `myList.head->data`. -/
def headPayload (r : Outcome Bool) : Option (Option (List Nat)) :=
  r.list.bind fun l => l.head.map (payload r.heap)

/-- The payload of the tail after a call: `myList.tail->data`. -/
def tailPayload (r : Outcome Bool) : Option (Option (List Nat)) :=
  r.list.bind fun l => l.tail.map (payload r.heap)

/-- The heap after the five appends. -/
def heapFilled (x : Nat) : Heap :=
  [some ⟨some (cstr "CS3841"), 7, some 1, none⟩,
   some ⟨some (cstr "Operating" ++ [x]), 11, some 2, some 0⟩,
   some ⟨some (cstr "Systems"), 8, some 3, some 1⟩,
   some ⟨some (cstr "Fall"), 5, some 4, some 2⟩,
   some ⟨some (cstr "Quarter"), 8, none, some 3⟩]

/-- The heap after the removal of index 4. -/
def heapCut (x : Nat) : Heap :=
  [some ⟨some (cstr "CS3841"), 7, some 1, none⟩,
   some ⟨some (cstr "Operating" ++ [x]), 11, some 2, some 0⟩,
   some ⟨some (cstr "Systems"), 8, some 3, some 1⟩,
   some ⟨some (cstr "Fall"), 5, none, some 2⟩,
   none]

/-- The heap after the removal of index 0. -/
def heapEnd (x : Nat) : Heap :=
  [none,
   some ⟨some (cstr "Operating" ++ [x]), 11, some 2, none⟩,
   some ⟨some (cstr "Systems"), 8, some 3, some 1⟩,
   some ⟨some (cstr "Fall"), 5, none, some 2⟩,
   none]

/-- The positioning loop `for (int i = 0; i < index; i++) ll_next(iter);` with its
counter.  The `int` counter is held by its 32-bit two's-complement pattern `i`: the
comparison with the `uint32_t index` converts the counter to unsigned, which is the
pattern itself, and `i++` is taken modulo `2 ^ 32`.  The result is the number of
`ll_next` calls made and the iterator at loop exit; `fuel` bounds the number of
iterations, and `none` is a memory fault or the bound being reached with the loop still
running. -/
def positionLoop (h : Heap) (index : Nat) :
    Nat → Nat → Option linkedListIterator → Option (Nat × Option linkedListIterator)
  | 0, i, iter => if i < index then none else some (0, iter)
  | fuel + 1, i, iter =>
    if i < index then do
      let r ← ll_next h iter
      let s ← positionLoop h index fuel ((i + 1) % 2 ^ 32) r.2
      pure (s.1 + 1, s.2)
    else some (0, iter)

instance Seg.instDecidable (h : Heap) :
    (prev : Option Nat) → (ps : List Nat) → (nxt : Option Nat) → Decidable (Seg h prev ps nxt)
  | _, [], _ => isTrue trivial
  | prev, p :: ps, nxt =>
    match hr : h.read p with
    | some n =>
      have : Decidable (Seg h (some p) ps nxt) := Seg.instDecidable h (some p) ps nxt
      decidable_of_iff (n.prevNode = prev ∧ n.nextNode = nextOf ps nxt ∧ Seg h (some p) ps nxt)
        (by simp [Seg, hr])
    | none => isFalse (by simp [Seg, hr])

instance Shape.instDecidable (h : Heap) (l : linkedList) (ps : List Nat) :
    Decidable (Shape h l ps) :=
  decidable_of_iff (Seg h none ps none ∧ l.head = ps.head? ∧ l.tail = ps.getLast?)
    ⟨fun ⟨a, b, c⟩ => ⟨a, b, c⟩, fun ⟨a, b, c⟩ => ⟨a, b, c⟩⟩

instance IsList.instDecidable (h : Heap) (l : linkedList) (ps : List Nat) :
    Decidable (IsList h l ps) :=
  decidable_of_iff (Shape h l ps ∧ l.size = ps.length)
    ⟨fun ⟨a, b⟩ => ⟨a, b⟩, fun ⟨a, b⟩ => ⟨a, b⟩⟩

/-! ## Heap lemmas -/

theorem Heap.read_lt {h : Heap} {p : Nat} {n : listNode} (hr : h.read p = some n) :
    p < h.length := by
  by_contra hge
  have : h[p]? = none := List.getElem?_eq_none (by omega)
  simp [Heap.read, this] at hr

theorem Heap.read_append_of_lt (h t : Heap) {p : Nat} (hp : p < h.length) :
    Heap.read (h ++ t) p = h.read p := by
  simp [Heap.read, List.getElem?_append_left hp]

theorem Heap.read_append_of_read (h t : Heap) {p : Nat} {n : listNode}
    (hr : h.read p = some n) : Heap.read (h ++ t) p = some n := by
  rw [Heap.read_append_of_lt h t (Heap.read_lt hr), hr]

theorem Heap.read_append_length (h : Heap) (x : Option listNode) :
    Heap.read (h ++ [x]) h.length = x := by
  simp [Heap.read]

theorem Heap.read_set_self (h : Heap) {p : Nat} (x : Option listNode) (hp : p < h.length) :
    Heap.read (h.set p x) p = x := by
  simp [Heap.read, List.getElem?_set_self, hp]

theorem Heap.read_set_of_ne (h : Heap) {p q : Nat} (x : Option listNode) (hne : p ≠ q) :
    Heap.read (h.set p x) q = h.read q := by
  simp [Heap.read, List.getElem?_set_ne hne]

theorem Heap.modify_of_read {h : Heap} {p : Nat} {n : listNode} (f : listNode → listNode)
    (hr : h.read p = some n) : h.modify p f = some (h.set p (some (f n))) := by
  simp [Heap.modify, hr]

theorem Heap.free_of_read {h : Heap} {p : Nat} {n : listNode}
    (hr : h.read p = some n) : h.free p = some (h.set p none) := by
  simp [Heap.free, hr]

/-! ## Segment lemmas -/

@[simp] theorem nextOf_nil (nxt : Option Nat) : nextOf [] nxt = nxt := rfl

@[simp] theorem nextOf_cons (q : Nat) (ps : List Nat) (nxt : Option Nat) :
    nextOf (q :: ps) nxt = some q := rfl

@[simp] theorem prevOf_nil (prev : Option Nat) : prevOf [] prev = prev := rfl

theorem prevOf_cons (p : Nat) (ps : List Nat) (prev : Option Nat) :
    prevOf (p :: ps) prev = prevOf ps (some p) := by
  cases ps with
  | nil => rfl
  | cons q qs =>
    unfold prevOf
    rw [List.getLast?_cons_cons]
    cases hq : (q :: qs).getLast? with
    | some x => rfl
    | none => simp at hq

@[simp] theorem prevOf_singleton (p : Nat) (prev : Option Nat) : prevOf [p] prev = some p := rfl

theorem nextOf_append (xs ys : List Nat) (nxt : Option Nat) :
    nextOf (xs ++ ys) nxt = nextOf xs (nextOf ys nxt) := by
  cases xs <;> rfl

theorem prevOf_append (xs ys : List Nat) (prev : Option Nat) :
    prevOf (xs ++ ys) prev = prevOf ys (prevOf xs prev) := by
  induction xs generalizing prev with
  | nil => rfl
  | cons p xs ih => rw [List.cons_append, prevOf_cons, prevOf_cons, ih]

theorem nextOf_none (ps : List Nat) : nextOf ps none = ps.head? := by
  cases ps <;> rfl

theorem prevOf_none (ps : List Nat) : prevOf ps none = ps.getLast? := by
  unfold prevOf
  cases ps.getLast? <;> rfl

theorem Seg_cons {h : Heap} {prev nxt : Option Nat} {p : Nat} {ps : List Nat} :
    Seg h prev (p :: ps) nxt ↔
      ∃ n, h.read p = some n ∧ n.prevNode = prev ∧ n.nextNode = nextOf ps nxt ∧
        Seg h (some p) ps nxt := by
  cases hr : h.read p <;> simp [Seg, hr]

theorem Seg_singleton {h : Heap} {prev nxt : Option Nat} {p : Nat} :
    Seg h prev [p] nxt ↔ ∃ n, h.read p = some n ∧ n.prevNode = prev ∧ n.nextNode = nxt := by
  rw [Seg_cons]
  simp [Seg]

theorem Seg_append {h : Heap} {xs ys : List Nat} {prev nxt : Option Nat} :
    Seg h prev (xs ++ ys) nxt ↔
      Seg h prev xs (nextOf ys nxt) ∧ Seg h (prevOf xs prev) ys nxt := by
  induction xs generalizing prev with
  | nil => simp [Seg]
  | cons p xs ih =>
    rw [List.cons_append, Seg_cons, Seg_cons, ih, nextOf_append, prevOf_cons]
    constructor
    · rintro ⟨n, h1, h2, h3, h4, h5⟩
      exact ⟨⟨n, h1, h2, h3, h4⟩, h5⟩
    · rintro ⟨⟨n, h1, h2, h3, h4⟩, h5⟩
      exact ⟨n, h1, h2, h3, h4, h5⟩

theorem Seg.live {h : Heap} {ps : List Nat} {prev nxt : Option Nat}
    (hs : Seg h prev ps nxt) : ∀ p ∈ ps, ∃ n, h.read p = some n := by
  induction ps generalizing prev with
  | nil => simp
  | cons q qs ih =>
    obtain ⟨n, h1, -, -, h4⟩ := Seg_cons.mp hs
    intro p hp
    rcases List.mem_cons.mp hp with rfl | hp
    · exact ⟨n, h1⟩
    · exact ih h4 p hp

theorem Seg.lt_length {h : Heap} {ps : List Nat} {prev nxt : Option Nat}
    (hs : Seg h prev ps nxt) : ∀ p ∈ ps, p < h.length := by
  intro p hp
  obtain ⟨n, hn⟩ := hs.live p hp
  exact Heap.read_lt hn

theorem Seg.frame {h h' : Heap} {ps : List Nat} {prev nxt : Option Nat}
    (hs : Seg h prev ps nxt) (hf : ∀ p ∈ ps, h'.read p = h.read p) : Seg h' prev ps nxt := by
  induction ps generalizing prev with
  | nil => trivial
  | cons q qs ih =>
    obtain ⟨n, h1, h2, h3, h4⟩ := Seg_cons.mp hs
    refine Seg_cons.mpr ⟨n, ?_, h2, h3, ih h4 fun p hp => hf p (List.mem_cons_of_mem _ hp)⟩
    rw [hf q (List.mem_cons_self _ _), h1]

theorem Seg.tail_unique {h : Heap} {p : Nat} {ps ps' : List Nat} {prev prev' : Option Nat}
    (hs : Seg h prev (p :: ps) none) (hs' : Seg h prev' (p :: ps') none) : ps = ps' := by
  induction ps generalizing p ps' prev prev' with
  | nil =>
    obtain ⟨n, h1, -, h3, -⟩ := Seg_cons.mp hs
    obtain ⟨n', h1', -, h3', -⟩ := Seg_cons.mp hs'
    rw [h1] at h1'
    cases h1'
    cases ps' with
    | nil => rfl
    | cons q qs => simp [h3] at h3'
  | cons q qs ih =>
    obtain ⟨n, h1, -, h3, h4⟩ := Seg_cons.mp hs
    obtain ⟨n', h1', -, h3', h4'⟩ := Seg_cons.mp hs'
    rw [h1] at h1'
    cases h1'
    cases ps' with
    | nil => simp [h3] at h3'
    | cons q' qs' =>
      simp only [nextOf_cons, h3, Option.some.injEq] at h3'
      subst h3'
      rw [ih h4 h4']

/-- A segment that ends in `NULL` visits no node twice: the chain has no cycle. -/
theorem Seg.nodup {h : Heap} {ps : List Nat} {prev : Option Nat}
    (hs : Seg h prev ps none) : ps.Nodup := by
  induction ps generalizing prev with
  | nil => exact List.nodup_nil
  | cons p ps ih =>
    obtain ⟨n, -, -, -, h4⟩ := Seg_cons.mp hs
    refine List.nodup_cons.mpr ⟨?_, ih h4⟩
    intro hp
    obtain ⟨xs, zs, rfl⟩ := List.append_of_mem hp
    have h5 := (Seg_append.mp h4).2
    have := Seg.tail_unique hs h5
    have hlen := congrArg List.length this
    simp at hlen
    omega

/-- The node sequence of a list is determined by the heap and the head pointer. -/
theorem Seg.chain_unique {h : Heap} {ps ps' : List Nat} {prev prev' : Option Nat}
    (hs : Seg h prev ps none) (hs' : Seg h prev' ps' none) (hh : ps.head? = ps'.head?) :
    ps = ps' := by
  cases ps with
  | nil =>
    cases ps' with
    | nil => rfl
    | cons q qs => simp at hh
  | cons p ps =>
    cases ps' with
    | nil => simp at hh
    | cons q qs =>
      simp only [List.head?_cons, Option.some.injEq] at hh
      subst hh
      rw [Seg.tail_unique hs hs']

theorem IsList.nodes_unique {h : Heap} {l : linkedList} {ps ps' : List Nat}
    (hl : IsList h l ps) (hl' : IsList h l ps') : ps = ps' :=
  Seg.chain_unique hl.shape.chain hl'.shape.chain (by rw [← hl.shape.head_eq, ← hl'.shape.head_eq])

theorem payload_eq_of_cargo {h h' : Heap} {p : Nat} (hc : cargo h' p = cargo h p) :
    payload h' p = payload h p := by
  unfold cargo at hc
  unfold payload
  cases hr : h.read p <;> cases hr' : h'.read p <;> simp [hr, hr'] at hc ⊢
  exact hc.1

theorem payloads_eq_of_cargo {h h' : Heap} {ps : List Nat}
    (hc : ∀ p ∈ ps, cargo h' p = cargo h p) : payloads h' ps = payloads h ps :=
  List.map_congr_left fun p hp => payload_eq_of_cargo (hc p hp)

theorem payloads_append (h : Heap) (xs ys : List Nat) :
    payloads h (xs ++ ys) = payloads h xs ++ payloads h ys := by
  simp [payloads]

theorem cargo_of_read {h : Heap} {p : Nat} {n : listNode} (hr : h.read p = some n) :
    cargo h p = some (n.data, n.dataSize) := by
  simp [cargo, hr]

theorem payload_of_read {h : Heap} {p : Nat} {n : listNode} (hr : h.read p = some n) :
    payload h p = n.data := by
  simp [payload, hr]

/-! ## The positioning loop -/

theorem ll_next_of_read {h : Heap} {c : Nat} {n : listNode} (hr : h.read c = some n) :
    ll_next h (some ⟨some c⟩) = some (n.data, some ⟨n.nextNode⟩) := by
  simp [ll_next, hr]

/-- Walking `k ≤ |ps|` steps from the head of a list leaves the iterator on the node
with index `k` (on `NULL` when `k = |ps|`), without a fault. -/
theorem advance_seg {h : Heap} {ps : List Nat} {prev : Option Nat}
    (hs : Seg h prev ps none) (k : Nat) (hk : k ≤ ps.length) :
    advance h k (some ⟨nextOf ps none⟩) = some (some ⟨nextOf (ps.drop k) none⟩) := by
  induction k generalizing ps prev with
  | zero => simp [advance]
  | succ k ih =>
    cases ps with
    | nil => simp at hk
    | cons p ps =>
      obtain ⟨n, h1, -, h3, h4⟩ := Seg_cons.mp hs
      have hk' : k ≤ ps.length := by simpa using hk
      simp only [advance, nextOf_cons, ll_next_of_read h1, Option.bind_eq_bind,
        Option.some_bind, List.drop_succ_cons]
      rw [h3]
      exact ih h4 hk'

/-- A valid index splits the node sequence around the node it designates. -/
theorem split_at_index {ps : List Nat} {i : Nat} (hi : i < ps.length) :
    ∃ xs c ys, ps = xs ++ c :: ys ∧ xs.length = i ∧ ps.drop i = c :: ys ∧
      ps.take i = xs ∧ ps.eraseIdx i = xs ++ ys ∧ ps[i]? = some c := by
  refine ⟨ps.take i, ps[i], ps.drop (i + 1), ?_, ?_, ?_, rfl, ?_, ?_⟩
  · rw [← List.drop_eq_getElem_cons hi, List.take_append_drop]
  · simp [List.length_take]; omega
  · exact List.drop_eq_getElem_cons hi
  · exact List.eraseIdx_eq_take_drop_succ ps i
  · exact List.getElem?_eq_getElem hi

/-! ## Splicing lemmas -/

theorem Seg.append_frame {h : Heap} {ps : List Nat} {prev nxt : Option Nat}
    (hs : Seg h prev ps nxt) (t : Heap) : Seg (h ++ t) prev ps nxt :=
  hs.frame fun p hp => Heap.read_append_of_lt h t (hs.lt_length p hp)

theorem Seg.set_frame {h : Heap} {ps : List Nat} {prev nxt : Option Nat}
    (hs : Seg h prev ps nxt) {a : Nat} (ha : a ∉ ps) (x : Option listNode) :
    Seg (h.set a x) prev ps nxt :=
  hs.frame fun _ hp => Heap.read_set_of_ne h x fun hap => ha (hap ▸ hp)

theorem cargo_set_of_ne (h : Heap) {p q : Nat} (x : Option listNode) (hne : p ≠ q) :
    cargo (h.set p x) q = cargo h q := by
  unfold cargo
  rw [Heap.read_set_of_ne h x hne]

theorem cargo_set_of_read {h : Heap} {p : Nat} {n : listNode} (n' : listNode)
    (hr : h.read p = some n)
    (hd : n'.data = n.data) (hz : n'.dataSize = n.dataSize) (q : Nat) :
    cargo (h.set p (some n')) q = cargo h q := by
  by_cases hpq : p = q
  · subst hpq
    rw [cargo_of_read hr, cargo_of_read (Heap.read_set_self h _ (Heap.read_lt hr)), hd, hz]
  · exact cargo_set_of_ne h _ hpq

/-- The guarded store into the `nextNode` of the last node of a segment. -/
theorem storeNext_seg {h : Heap} {xs : List Nat} {prev old : Option Nat}
    (hs : Seg h prev xs old) (hnd : xs.Nodup) (new : Option Nat) :
    ∃ h1, storeNext h xs.getLast? new = some h1 ∧ Seg h1 prev xs new ∧
      h1.length = h.length ∧ (∀ q, some q ≠ xs.getLast? → h1.read q = h.read q) ∧
      (∀ q, cargo h1 q = cargo h q) := by
  rcases List.eq_nil_or_concat xs with rfl | ⟨init, t, hxs⟩
  · exact ⟨h, rfl, trivial, rfl, fun _ _ => rfl, fun _ => rfl⟩
  · rw [List.concat_eq_append] at hxs
    subst hxs
    have hsplit := Seg_append.mp hs
    obtain ⟨tn, ht1, ht2, -⟩ := Seg_singleton.mp hsplit.2
    have hninit : t ∉ init := fun hmem =>
      (List.nodup_append.mp hnd).2.2 hmem (List.mem_singleton_self t)
    refine ⟨h.set t (some { tn with nextNode := new }), ?_, ?_, ?_, ?_, ?_⟩
    · simp [storeNext, Heap.modify_of_read _ ht1]
    · rw [Seg_append]
      exact ⟨hsplit.1.set_frame hninit _,
        Seg_singleton.mpr ⟨_, Heap.read_set_self h _ (Heap.read_lt ht1), ht2, rfl⟩⟩
    · simp
    · intro q hq
      refine Heap.read_set_of_ne h _ fun htq => hq ?_
      simp [htq]
    · exact cargo_set_of_read _ ht1 rfl rfl

/-- The guarded store into the `prevNode` of the first node of a segment. -/
theorem storePrev_seg {h : Heap} {ys : List Nat} {old nxt : Option Nat}
    (hs : Seg h old ys nxt) (hnd : ys.Nodup) (new : Option Nat) :
    ∃ h1, storePrev h ys.head? new = some h1 ∧ Seg h1 new ys nxt ∧
      h1.length = h.length ∧ (∀ q, some q ≠ ys.head? → h1.read q = h.read q) ∧
      (∀ q, cargo h1 q = cargo h q) := by
  cases ys with
  | nil => exact ⟨h, rfl, trivial, rfl, fun _ _ => rfl, fun _ => rfl⟩
  | cons c ys =>
    obtain ⟨cn, hc1, -, hc3, hc4⟩ := Seg_cons.mp hs
    have hcys : c ∉ ys := (List.nodup_cons.mp hnd).1
    refine ⟨h.set c (some { cn with prevNode := new }), ?_, ?_, ?_, ?_, ?_⟩
    · simp [storePrev, Heap.modify_of_read _ hc1]
    · exact Seg_cons.mpr ⟨_, Heap.read_set_self h _ (Heap.read_lt hc1), rfl, hc3,
        hc4.set_frame hcys _⟩
    · simp
    · intro q hq
      refine Heap.read_set_of_ne h _ fun hcq => hq ?_
      simp [hcq]
    · exact cargo_set_of_read _ hc1 rfl rfl

theorem ll_add_ok {h : Heap} {l : linkedList} {ps : List Nat} (hl : IsList h l ps)
    (obj : List Nat) {size : Nat} (hsz : size ≠ 0) :
    ∃ h' l', ll_add h (some l) (some obj) size = some ⟨true, h', some l'⟩ ∧
      Shape h' l' (ps ++ [h.length]) ∧ l'.size = (l.size + 1) % 2 ^ 32 ∧
      h'.length = h.length + 1 ∧
      (∀ p, p < h.length → cargo h' p = cargo h p) ∧
      cargo h' h.length = some (some (obj.take size), size) ∧
      (∀ q, q < h.length → q ∉ ps → h'.read q = h.read q) := by
  obtain ⟨hd, tl, sz⟩ := l
  obtain ⟨⟨hch, hhd, htl⟩, hsize⟩ := hl
  simp only at hhd htl hsize
  subst htl
  have hnd := hch.nodup
  have hnew : ∀ q ∈ ps, q ≠ h.length := fun q hq => Nat.ne_of_lt (hch.lt_length q hq)
  obtain ⟨h1, e1, s1, len1, fr1, cg1⟩ :=
    storeNext_seg (hch.append_frame [some (listNode.mk (some (obj.take size)) size none
      ps.getLast?)]) hnd (some h.length)
  have hr : h1.read h.length = some (listNode.mk (some (obj.take size)) size none ps.getLast?) := by
    rw [fr1, Heap.read_append_length]
    intro hq
    exact hnew _ (List.mem_of_getLast?_eq_some hq.symm) rfl
  refine ⟨h1, ⟨if sz = 0 then some h.length else hd, some h.length, (sz + 1) % 2 ^ 32⟩,
    ?_, ⟨?_, ?_, ?_⟩, rfl, ?_, ?_, ?_, ?_⟩
  · by_cases h0 : sz = 0 <;> simp [ll_add, hsz, e1, h0]
  · rw [Seg_append]
    exact ⟨s1, Seg_singleton.mpr ⟨_, hr, (prevOf_none ps).symm, rfl⟩⟩
  · cases ps with
    | nil => simp at hsize; simp [hsize]
    | cons p ps => simp at hsize; simp [hsize, hhd]
  · simp
  · simpa using len1
  · intro p hp
    rw [cg1]
    unfold cargo
    rw [Heap.read_append_of_lt h _ hp]
  · exact cargo_of_read hr
  · intro q hq hqn
    rw [fr1, Heap.read_append_of_lt h _ hq]
    intro hq'
    exact hqn (List.mem_of_getLast?_eq_some hq'.symm)

theorem ll_getIterator_of_shape {h : Heap} {l : linkedList} {ps : List Nat}
    (hs : Shape h l ps) : ll_getIterator (some l) = some ⟨nextOf ps none⟩ := by
  simp [ll_getIterator, hs.head_eq, nextOf_none]

theorem ll_addIndex_ok {h : Heap} {l : linkedList} {ps : List Nat} (hl : IsList h l ps)
    (obj : List Nat) {size : Nat} (hsz : size ≠ 0) {index : Nat} (hi : index < ps.length) :
    ∃ h' l', ll_addIndex h (some l) (some obj) size index = some ⟨true, h', some l'⟩ ∧
      Shape h' l' (ps.take index ++ h.length :: ps.drop index) ∧
      l'.size = (l.size + 1) % 2 ^ 32 ∧
      h'.length = h.length + 1 ∧
      (∀ p, p < h.length → cargo h' p = cargo h p) ∧
      cargo h' h.length = some (some (obj.take size), size) ∧
      (∀ q, q < h.length → q ∉ ps → h'.read q = h.read q) := by
  have hiter := ll_getIterator_of_shape hl.shape
  obtain ⟨hd, tl, sz⟩ := l
  obtain ⟨⟨hch, hhd, htl⟩, hsize⟩ := hl
  simp only at hhd htl hsize
  have hnd := hch.nodup
  obtain ⟨xs, c, ys, hps, hxl, hdrop, htake, -, -⟩ := split_at_index hi
  rw [htake, hdrop]
  -- the pieces of the old chain
  have hsp := Seg_append.mp (hps ▸ hch)
  obtain ⟨cn, hc1, hc2, hc3, hys⟩ := Seg_cons.mp hsp.2
  have hxs := hsp.1
  rw [nextOf_cons] at hxs
  have hnd' : (xs ++ c :: ys).Nodup := hps ▸ hnd
  have hndx : xs.Nodup := (List.nodup_append.mp hnd').1
  have hcxs : c ∉ xs := fun hm =>
    (List.nodup_append.mp hnd').2.2 hm (List.mem_cons_self c ys)
  have hcys : c ∉ ys := (List.nodup_cons.mp (List.nodup_append.mp hnd').2.1).1
  have hlt : ∀ q ∈ ps, q < h.length := hch.lt_length
  have hnx : h.length ∉ xs := fun hm => by
    have := hlt _ (hps ▸ List.mem_append_left _ hm); omega
  have hny : h.length ∉ ys := fun hm => by
    have := hlt _ (hps ▸ List.mem_append_right _ (List.mem_cons_of_mem _ hm)); omega
  have hcl : c < h.length := Heap.read_lt hc1
  have hnc : h.length ≠ c := by omega
  -- allocation and positioning
  have hadv := advance_seg (hch.append_frame [some (listNode.mk (some (obj.take size)) size none
    none)]) index (Nat.le_of_lt hi)
  rw [hdrop, nextOf_cons] at hadv
  obtain ⟨h0, hh0⟩ : ∃ h0 : Heap, h0 = h ++ [some (listNode.mk (some (obj.take size)) size none none)] :=
    ⟨_, rfl⟩
  rw [← hh0] at hadv
  have r0 : ∀ q, q < h.length → h0.read q = h.read q := fun q hq =>
    hh0 ▸ Heap.read_append_of_lt h _ hq
  have r0n : h0.read h.length = some (listNode.mk (some (obj.take size)) size none none) :=
    hh0 ▸ Heap.read_append_length h _
  have len0 : h0.length = h.length + 1 := by simp [hh0]
  -- node->nextNode = iter->current
  obtain ⟨h1, hh1⟩ : ∃ h1 : Heap, h1 = h0.set h.length
      (some (listNode.mk (some (obj.take size)) size (some c) none)) := ⟨_, rfl⟩
  have e1 : h0.modify h.length (fun n => { n with nextNode := some c }) = some h1 := by
    rw [Heap.modify_of_read _ r0n, hh1]
  have len1 : h1.length = h.length + 1 := by simp [hh1, len0]
  have r1 : ∀ q, q < h.length → h1.read q = h.read q := fun q hq => by
    rw [hh1, Heap.read_set_of_ne _ _ (by omega), r0 q hq]
  have r1n : h1.read h.length = some (listNode.mk (some (obj.take size)) size (some c) none) := by
    rw [hh1, Heap.read_set_self]
    omega
  -- node->prevNode = iter->current->prevNode
  obtain ⟨h2, hh2⟩ : ∃ h2 : Heap, h2 = h1.set h.length
      (some (listNode.mk (some (obj.take size)) size (some c) cn.prevNode)) := ⟨_, rfl⟩
  have e2 : h1.modify h.length (fun n => { n with prevNode := cn.prevNode }) = some h2 := by
    rw [Heap.modify_of_read _ r1n, hh2]
  have len2 : h2.length = h.length + 1 := by simp [hh2, len1]
  have r2 : ∀ q, q < h.length → h2.read q = h.read q := fun q hq => by
    rw [hh2, Heap.read_set_of_ne _ _ (by omega), r1 q hq]
  have r2n : h2.read h.length =
      some (listNode.mk (some (obj.take size)) size (some c) cn.prevNode) := by
    rw [hh2, Heap.read_set_self]
    omega
  -- if (node->prevNode != NULL) node->prevNode->nextNode = node
  have hprev : cn.prevNode = xs.getLast? := by rw [hc2, prevOf_none]
  have sx2 : Seg h2 none xs (some c) := hxs.frame fun q hq =>
    r2 q (hlt q (hps ▸ List.mem_append_left _ hq))
  obtain ⟨h3, e3, sx3, len3, fr3, cg3⟩ := storeNext_seg sx2 hndx (some h.length)
  rw [← hprev] at e3
  have r3c : h3.read c = some cn := by
    rw [fr3 c fun hq => hcxs (List.mem_of_getLast?_eq_some hq.symm), r2 c hcl, hc1]
  have r3n : h3.read h.length =
      some (listNode.mk (some (obj.take size)) size (some c) cn.prevNode) := by
    rw [fr3 _ fun hq => hnx (List.mem_of_getLast?_eq_some hq.symm), r2n]
  -- iter->current->prevNode = node
  obtain ⟨h4, hh4⟩ : ∃ h4 : Heap, h4 = h3.set c (some { cn with prevNode := some h.length }) :=
    ⟨_, rfl⟩
  have e4 : h3.modify c (fun n => { n with prevNode := some h.length }) = some h4 := by
    rw [Heap.modify_of_read _ r3c, hh4]
  have r4c : h4.read c = some { cn with prevNode := some h.length } := by
    rw [hh4, Heap.read_set_self]
    rw [len3, len2]
    omega
  have r4n : h4.read h.length =
      some (listNode.mk (some (obj.take size)) size (some c) cn.prevNode) := by
    rw [hh4, Heap.read_set_of_ne _ _ (Ne.symm hnc), r3n]
  refine ⟨h4, ⟨if index = 0 then some h.length else hd, tl, (sz + 1) % 2 ^ 32⟩,
    ?_, ⟨?_, ?_, ?_⟩, rfl, ?_, ?_, ?_, ?_⟩
  · have hcond : decide (size ≠ 0 ∧ index < sz) = true := by
      rw [hsize]
      exact decide_eq_true ⟨hsz, hi⟩
    simp only [ll_addIndex, hcond, hiter, ← hh0, hadv, e1, r1 c hcl, hc1, e2, r2n, e3, e4,
      Option.bind_eq_bind, Option.some_bind, Option.pure_def]
    by_cases h0i : index = 0 <;> simp [h0i]
  · rw [Seg_append]
    refine ⟨hh4 ▸ sx3.set_frame hcxs _, Seg_cons.mpr ⟨_, r4n, hc2, rfl, ?_⟩⟩
    refine Seg_cons.mpr ⟨_, r4c, rfl, hc3, ?_⟩
    refine hys.frame fun q hq => ?_
    have hqc : c ≠ q := fun hcq => hcys (hcq ▸ hq)
    have hqx : q ∉ xs := fun hm =>
      (List.nodup_append.mp hnd').2.2 hm (List.mem_cons_of_mem _ hq)
    rw [hh4, Heap.read_set_of_ne _ _ hqc,
      fr3 q fun hq' => hqx (List.mem_of_getLast?_eq_some hq'.symm),
      r2 q (hlt q (hps ▸ List.mem_append_right _ (List.mem_cons_of_mem _ hq)))]
  · cases xs with
    | nil =>
      have h0i : index = 0 := by simpa using hxl.symm
      simp [h0i]
    | cons x xs =>
      have h0i : index ≠ 0 := by
        rw [← hxl]
        simp
      simp [h0i, hhd, hps]
  · simp [htl, hps, List.getLast?_append, List.getLast?_cons_cons]
  · rw [hh4, List.length_set, len3, len2]
  · intro p hp
    rw [hh4, cargo_set_of_read { cn with prevNode := some h.length } r3c rfl rfl, cg3]
    unfold cargo
    rw [r2 p hp]
  · exact cargo_of_read r4n
  · intro q hq hqn
    have hqc : c ≠ q := fun hcq => hqn (by simp [hps, hcq])
    have hqx : q ∉ xs := fun hm => hqn (hps ▸ List.mem_append_left _ hm)
    rw [hh4, Heap.read_set_of_ne _ _ hqc,
      fr3 q fun hq' => hqx (List.mem_of_getLast?_eq_some hq'.symm), r2 q hq]

theorem getLast?_append_cons_cons (xs : List Nat) (c y : Nat) (ys : List Nat) :
    (xs ++ c :: y :: ys).getLast? = (xs ++ y :: ys).getLast? := by
  simp [List.getLast?_append, List.getLast?_cons_cons]

theorem ll_remove_ok {h : Heap} {l : linkedList} {ps : List Nat} (hl : IsList h l ps)
    {index : Nat} (hi : index < ps.length) :
    ∃ h' l', ll_remove h (some l) index = some ⟨true, h', some l'⟩ ∧
      Shape h' l' (ps.eraseIdx index) ∧ l'.size = l.size - 1 ∧
      h'.length = h.length ∧
      (∀ q, some q ≠ ps[index]? → cargo h' q = cargo h q) ∧
      (∀ q ∈ ps.eraseIdx index, cargo h' q = cargo h q) ∧
      (∀ q, some q = ps[index]? → h'.read q = none) ∧
      (∀ q, q ∉ ps → h'.read q = h.read q) := by
  have hiter := ll_getIterator_of_shape hl.shape
  obtain ⟨hd, tl, sz⟩ := l
  obtain ⟨⟨hch, hhd, htl⟩, hsize⟩ := hl
  simp only at hhd htl hsize
  have hnd := hch.nodup
  obtain ⟨xs, c, ys, hps, hxl, hdrop, -, herase, hget⟩ := split_at_index hi
  rw [herase, hget]
  have hsp := Seg_append.mp (hps ▸ hch)
  obtain ⟨cn, hc1, hc2, hc3, hys⟩ := Seg_cons.mp hsp.2
  have hxs := hsp.1
  rw [nextOf_cons] at hxs
  have hnd' : (xs ++ c :: ys).Nodup := hps ▸ hnd
  have hndx : xs.Nodup := (List.nodup_append.mp hnd').1
  have hndy : ys.Nodup := (List.nodup_cons.mp (List.nodup_append.mp hnd').2.1).2
  have hcxs : c ∉ xs := fun hm =>
    (List.nodup_append.mp hnd').2.2 hm (List.mem_cons_self c ys)
  have hcys : c ∉ ys := (List.nodup_cons.mp (List.nodup_append.mp hnd').2.1).1
  have hdisj : ∀ q, q ∈ xs → q ∉ ys := fun q hx hy =>
    (List.nodup_append.mp hnd').2.2 hx (List.mem_cons_of_mem _ hy)
  have hprev : cn.prevNode = xs.getLast? := by rw [hc2, prevOf_none]
  have hnext : cn.nextNode = ys.head? := by rw [hc3, nextOf_none]
  have hadv := advance_seg hch index (Nat.le_of_lt hi)
  rw [hdrop, nextOf_cons] at hadv
  -- if (cur->nextNode != NULL) cur->nextNode->prevNode = cur->prevNode
  obtain ⟨h1, e1, sy1, len1, fr1, cg1⟩ := storePrev_seg hys hndy cn.prevNode
  rw [← hnext] at e1
  have r1c : h1.read c = some cn := by
    rw [fr1 c fun hq => hcys (List.mem_of_mem_head? hq.symm), hc1]
  have sx1 : Seg h1 none xs (some c) := hxs.frame fun q hq =>
    fr1 q fun hq' => hdisj q hq (List.mem_of_mem_head? hq'.symm)
  -- if (cur->prevNode != NULL) cur->prevNode->nextNode = cur->nextNode
  obtain ⟨h2, e2, sx2, len2, fr2, cg2⟩ := storeNext_seg sx1 hndx cn.nextNode
  rw [← hprev] at e2
  have r2c : h2.read c = some cn := by
    rw [fr2 c fun hq => hcxs (List.mem_of_getLast?_eq_some hq.symm), r1c]
  have sy2 : Seg h2 cn.prevNode ys none := sy1.frame fun q hq =>
    fr2 q fun hq' => hdisj q (List.mem_of_getLast?_eq_some hq'.symm) hq
  -- free(cur)
  have e3 : h2.free c = some (h2.set c none) := Heap.free_of_read r2c
  refine ⟨h2.set c none, ⟨(xs ++ ys).head?, (xs ++ ys).getLast?, sz - 1⟩,
    ?_, ⟨?_, rfl, rfl⟩, rfl, ?_, ?_, ?_, ?_, ?_⟩
  · have hcond : index < sz := hsize ▸ hi
    simp only [ll_remove, hcond, if_true, hiter, hadv, hc1, e1, r1c, e2, r2c, e3,
      Option.bind_eq_bind, Option.some_bind, Option.pure_def]
    subst hhd htl hsize hps hxl
    rw [hprev, hnext]
    cases xs with
    | nil => cases ys <;> simp [ll_init, List.getLast?_cons_cons]
    | cons x xs =>
      cases ys with
      | nil => simp [ll_init]
      | cons y ys =>
        simp only [ll_init, getLast?_append_cons_cons]
        simp
  · rw [Seg_append]
    refine ⟨?_, ?_⟩
    · rw [← hc3]
      exact sx2.set_frame hcxs _
    · rw [← hc2]
      exact sy2.set_frame hcys _
  · rw [List.length_set, len2, len1]
  · intro q hq
    rw [cargo_set_of_ne _ _ (fun hcq => hq (by rw [hcq])), cg2, cg1]
  · intro q hq
    have hqc : c ≠ q := fun hcq => by
      rcases List.mem_append.mp hq with hm | hm
      · exact hcxs (hcq ▸ hm)
      · exact hcys (hcq ▸ hm)
    rw [cargo_set_of_ne _ _ hqc, cg2, cg1]
  · intro q hq
    cases hq
    exact Heap.read_set_self _ _ (by rw [len2, len1]; exact Heap.read_lt hc1)
  · intro q hq
    have hqc : c ≠ q := fun hcq => hq (by simp [hps, hcq])
    have hqx : q ∉ xs := fun hm => hq (hps ▸ List.mem_append_left _ hm)
    have hqy : q ∉ ys := fun hm =>
      hq (hps ▸ List.mem_append_right _ (List.mem_cons_of_mem _ hm))
    rw [Heap.read_set_of_ne _ _ hqc,
      fr2 q fun hq' => hqx (List.mem_of_getLast?_eq_some hq'.symm),
      fr1 q fun hq' => hqy (List.mem_of_mem_head? hq'.symm)]

/-- The positioning loop stops on the node with the requested index. -/
theorem advance_to_index {h : Heap} {l : linkedList} {ps : List Nat} (hs : Shape h l ps)
    {index : Nat} (hi : index < ps.length) :
    advance h index (ll_getIterator (some l)) = some (some ⟨some ps[index]⟩) := by
  obtain ⟨xs, c, ys, -, -, hdrop, -, -, hget⟩ := split_at_index hi
  have hc : ps[index] = c := by
    rw [List.getElem?_eq_getElem hi] at hget
    exact Option.some.inj hget
  rw [ll_getIterator_of_shape hs, advance_seg hs.chain index (Nat.le_of_lt hi), hdrop,
    nextOf_cons, hc]

theorem ll_get_ok {h : Heap} {l : linkedList} {ps : List Nat} (hl : IsList h l ps)
    {index : Nat} (hi : index < ps.length) :
    ll_get h (some l) index = some ⟨payload h ps[index], h, some l⟩ := by
  have hiter := ll_getIterator_of_shape hl.shape
  have hch := hl.shape.chain
  obtain ⟨xs, c, ys, hps, hxl, hdrop, -, -, hget⟩ := split_at_index hi
  have hc : ps[index] = c := by
    rw [List.getElem?_eq_getElem hi] at hget
    exact Option.some.inj hget
  obtain ⟨cn, hc1, -⟩ := Seg_cons.mp (Seg_append.mp (hps ▸ hch)).2
  have hadv := advance_seg hch index (Nat.le_of_lt hi)
  rw [hdrop, nextOf_cons] at hadv
  have hcond : index < l.size := hl.size_eq ▸ hi
  simp [ll_get, hcond, hiter, hadv, hc1, hc, payload_of_read hc1]

theorem ll_get_out_of_range (h : Heap) (l : linkedList) {index : Nat} (hi : l.size ≤ index) :
    ll_get h (some l) index = some ⟨none, h, some l⟩ := by
  simp [ll_get, Nat.not_lt.mpr hi]

/-! ## The long list is well formed -/

theorem chainHeap_read {n a : Nat} (ha : a < n) :
    (chainHeap n).read a = some ⟨some [0], 1, if a + 1 < n then some (a + 1) else none,
      if a = 0 then none else some (a - 1)⟩ := by
  simp [chainHeap, Heap.read, List.getElem?_range ha, ha]

theorem chainHeap_seg (n : Nat) : ∀ (m k : Nat), k + m = n →
    Seg (chainHeap n) (if k = 0 then none else some (k - 1)) (List.range' k m) none := by
  intro m
  induction m with
  | zero => intro k _; trivial
  | succ m ih =>
    intro k hk
    rw [List.range'_succ]
    refine Seg_cons.mpr ⟨_, chainHeap_read (by omega), rfl, ?_, ?_⟩
    · cases m with
      | zero => simp; omega
      | succ m => simp [List.range'_succ]; omega
    · have := ih (k + 1) (by omega)
      simpa using this

theorem chain_isList (n : Nat) : IsList (chainHeap n) (chainList n) (List.range n) := by
  refine ⟨⟨?_, ?_, ?_⟩, ?_⟩
  · have := chainHeap_seg n n 0 (by omega)
    simpa [List.range_eq_range'] using this
  · cases n with
    | zero => rfl
    | succ n => simp [chainList, List.range_succ_eq_map]
  · cases n with
    | zero => rfl
    | succ n => simp [chainList, List.range_succ]
  · simp [chainList]

theorem insert_getElem? {α : Type} (xs : List α) (x : α) (i : Nat) (hi : i ≤ xs.length) :
    (∀ j, j < i → (xs.take i ++ x :: xs.drop i)[j]? = xs[j]?) ∧
    (xs.take i ++ x :: xs.drop i)[i]? = some x ∧
    (∀ j, i ≤ j → (xs.take i ++ x :: xs.drop i)[j + 1]? = xs[j]?) := by
  have hlen : (xs.take i).length = i := by simp [List.length_take, hi]
  refine ⟨fun j hj => ?_, ?_, fun j hj => ?_⟩
  · rw [List.getElem?_append_left (by omega), List.getElem?_take_of_lt hj]
  · rw [List.getElem?_append_right (by omega), hlen]
    simp
  · rw [List.getElem?_append_right (by omega), hlen]
    have : j + 1 - i = (j - i) + 1 := by omega
    rw [this, List.getElem?_cons_succ, List.getElem?_drop]
    congr 1
    omega

theorem payloads_take_drop (h : Heap) (ps : List Nat) (i : Nat) :
    payloads h (ps.take i) = (payloads h ps).take i ∧
    payloads h (ps.drop i) = (payloads h ps).drop i := by
  simp [payloads, List.map_take, List.map_drop]

/-- Insertion at any index `≤ count`: the splice for `index < count`, the append for
`index = count`. -/
theorem ll_addIndex_le_ok {h : Heap} {l : linkedList} {ps : List Nat} (hl : IsList h l ps)
    (obj : List Nat) {size : Nat} (hsz : size ≠ 0) {index : Nat} (hi : index ≤ ps.length) :
    ∃ h' l', ll_addIndex h (some l) (some obj) size index = some ⟨true, h', some l'⟩ ∧
      Shape h' l' (ps.take index ++ h.length :: ps.drop index) ∧
      l'.size = (l.size + 1) % 2 ^ 32 ∧
      h'.length = h.length + 1 ∧
      (∀ p, p < h.length → cargo h' p = cargo h p) ∧
      cargo h' h.length = some (some (obj.take size), size) ∧
      (∀ q, q < h.length → q ∉ ps → h'.read q = h.read q) := by
  rcases Nat.lt_or_eq_of_le hi with hlt | heq
  · exact ll_addIndex_ok hl obj hsz hlt
  · have hidx : index = l.size := by rw [heq, hl.size_eq]
    have hdel : ll_addIndex h (some l) (some obj) size index = ll_add h (some l) (some obj) size := by
      simp [ll_addIndex, hidx]
    rw [hdel, heq, List.take_length, List.drop_length]
    exact ll_add_ok hl obj hsz

theorem payload_of_cargo {h : Heap} {p : Nat} {d : Option (List Nat)} {z : Nat}
    (hc : cargo h p = some (d, z)) : payload h p = d := by
  unfold cargo at hc
  unfold payload
  cases hr : h.read p <;> simp [hr] at hc ⊢
  exact hc.1

theorem payloads_insert {h h' : Heap} {ps : List Nat} {a : Nat} {d : Option (List Nat)}
    {z : Nat} (hc : ∀ p ∈ ps, cargo h' p = cargo h p) (ha : cargo h' a = some (d, z))
    (i : Nat) :
    payloads h' (ps.take i ++ a :: ps.drop i) =
      (payloads h ps).take i ++ d :: (payloads h ps).drop i := by
  rw [payloads_append, ← (payloads_take_drop h ps i).1, ← (payloads_take_drop h ps i).2,
    payloads_eq_of_cargo fun p hp => hc p (List.mem_of_mem_take hp)]
  show _ ++ payload h' a :: payloads h' (ps.drop i) = _
  rw [payload_of_cargo ha, payloads_eq_of_cargo fun p hp => hc p (List.mem_of_mem_drop hp)]

theorem payloads_eraseIdx {h h' : Heap} {ps : List Nat} {i : Nat}
    (hc : ∀ q ∈ ps.eraseIdx i, cargo h' q = cargo h q) :
    payloads h' (ps.eraseIdx i) = (payloads h ps).eraseIdx i := by
  rw [payloads_eq_of_cargo hc, List.eraseIdx_eq_take_drop_succ, List.eraseIdx_eq_take_drop_succ,
    payloads_append, (payloads_take_drop h ps i).1, (payloads_take_drop h ps (i + 1)).2]

/-! ## The loop of `ll_clear` -/

theorem clearLoop_of_not_hasNext (fuel : Nat) (h : Heap) (iter : Option linkedListIterator)
    (hn : ll_hasNext iter = false) : clearLoop fuel h iter = some (h, iter) := by
  cases fuel <;> simp [clearLoop, hn]

theorem clearLoop_step (fuel : Nat) {h : Heap} {c : Nat} {n : listNode}
    (hr : h.read c = some n) :
    clearLoop (fuel + 1) h (some ⟨some c⟩) =
      clearLoop fuel (h.set c none) (some ⟨n.nextNode⟩) := by
  simp [clearLoop, ll_hasNext, ll_next_of_read hr, Heap.free_of_read hr]

theorem clearLoop_dead (fuel : Nat) {h : Heap} {c : Nat} (hr : h.read c = none) :
    clearLoop fuel h (some ⟨some c⟩) = none := by
  cases fuel <;> simp [clearLoop, ll_hasNext, ll_next, hr]

/-- On a chain that ends in `NULL` the loop frees exactly the nodes of the chain and
stops with an exhausted iterator, whenever the fuel is at least the chain's length. -/
theorem clearLoop_seg {ps : List Nat} : ∀ {h : Heap} {prev : Option Nat} {fuel : Nat},
    Seg h prev ps none → ps.length ≤ fuel →
    ∃ h', clearLoop fuel h (some ⟨nextOf ps none⟩) = some (h', some ⟨none⟩) ∧
      h'.length = h.length ∧ (∀ p ∈ ps, h'.read p = none) ∧
      (∀ q, q ∉ ps → h'.read q = h.read q) := by
  induction ps with
  | nil =>
    intro h prev fuel _ _
    exact ⟨h, clearLoop_of_not_hasNext fuel h _ rfl, rfl, by simp, fun _ _ => rfl⟩
  | cons p ps ih =>
    intro h prev fuel hs hf
    obtain ⟨n, h1, -, h3, h4⟩ := Seg_cons.mp hs
    have hp : p ∉ ps := (List.nodup_cons.mp hs.nodup).1
    obtain ⟨f, rfl⟩ : ∃ f, fuel = f + 1 := ⟨fuel - 1, by simp at hf; omega⟩
    obtain ⟨h', e, hlen, hfree, hframe⟩ :=
      ih (h4.set_frame hp none) (show ps.length ≤ f by simpa using hf)
    refine ⟨h', ?_, ?_, ?_, ?_⟩
    · rw [nextOf_cons, clearLoop_step f h1, h3, e]
    · rw [hlen, List.length_set]
    · intro q hq
      rcases List.mem_cons.mp hq with rfl | hq
      · rw [hframe q hp, Heap.read_set_self h none (Heap.read_lt h1)]
      · exact hfree q hq
    · intro q hq
      have hqp : p ≠ q := fun hpq => hq (by simp [hpq])
      rw [hframe q fun hm => hq (List.mem_cons_of_mem _ hm), Heap.read_set_of_ne h none hqp]

/-- More fuel never changes a result of the loop. -/
theorem clearLoop_mono : ∀ (fuel : Nat) (h : Heap) (iter : Option linkedListIterator)
    (r : Heap × Option linkedListIterator),
    clearLoop fuel h iter = some r → clearLoop (fuel + 1) h iter = some r := by
  intro fuel
  induction fuel with
  | zero =>
    intro h iter r hr
    by_cases hn : ll_hasNext iter = true
    · simp [clearLoop, hn] at hr
    · rw [clearLoop_of_not_hasNext _ _ _ (by simpa using hn)] at hr ⊢
      exact hr
  | succ fuel ih =>
    intro h iter r hr
    by_cases hn : ll_hasNext iter = true
    · obtain ⟨c, rfl⟩ : ∃ c, iter = some ⟨some c⟩ := by
        rcases iter with _ | ⟨_ | c⟩
        · simp [ll_hasNext] at hn
        · simp [ll_hasNext] at hn
        · exact ⟨c, rfl⟩
      cases hc : h.read c with
      | none => rw [clearLoop_dead _ hc] at hr; cases hr
      | some n =>
        rw [clearLoop_step _ hc] at hr ⊢
        exact ih _ _ _ hr
    · rw [clearLoop_of_not_hasNext _ _ _ (by simpa using hn)] at hr ⊢
      exact hr

theorem hasNext_cases (iter : Option linkedListIterator) :
    ll_hasNext iter = false ∨ ∃ c, iter = some ⟨some c⟩ := by
  rcases iter with _ | ⟨_ | c⟩
  · exact Or.inl rfl
  · exact Or.inl rfl
  · exact Or.inr ⟨c, rfl⟩

theorem liveCount_le_length (h : Heap) : liveCount h ≤ h.length :=
  List.countP_le_length _

theorem liveCount_set_none : ∀ (h : Heap) (c : Nat) (n : listNode),
    h.read c = some n → liveCount (h.set c none) + 1 = liveCount h := by
  intro h
  induction h with
  | nil => intro c n hr; simp [Heap.read] at hr
  | cons x t ih =>
    intro c n hr
    cases c with
    | zero =>
      have hx : x = some n := by simpa [Heap.read] using hr
      subst hx
      simp [liveCount, List.countP_cons]
    | succ c =>
      have hr' : Heap.read t c = some n := by simpa [Heap.read] using hr
      have := ih c n hr'
      simp only [liveCount, List.set_cons_succ, List.countP_cons] at this ⊢
      omega

theorem read_of_liveCount_zero {h : Heap} (h0 : liveCount h = 0) (c : Nat) :
    h.read c = none := by
  cases hr : h.read c with
  | none => rfl
  | some n =>
    exfalso
    have hmem : some n ∈ h := List.getElem?_mem (Option.join_eq_some.mp hr)
    have := (List.countP_eq_zero.mp h0) (some n) hmem
    simp at this

/-- With fuel no less than the number of live cells the loop never stops for lack of
fuel: a `none` is a memory fault and stays `none` whatever the fuel. -/
theorem clearLoop_none_forever : ∀ (fuel : Nat) (h : Heap) (iter : Option linkedListIterator),
    liveCount h ≤ fuel → clearLoop fuel h iter = none →
    ∀ fuel', clearLoop fuel' h iter = none := by
  intro fuel
  induction fuel with
  | zero =>
    intro h iter hl hr fuel'
    rcases hasNext_cases iter with hn | ⟨c, rfl⟩
    · rw [clearLoop_of_not_hasNext _ _ _ hn] at hr
      cases hr
    · exact clearLoop_dead fuel' (read_of_liveCount_zero (by omega) c)
  | succ fuel ih =>
    intro h iter hl hr fuel'
    rcases hasNext_cases iter with hn | ⟨c, rfl⟩
    · rw [clearLoop_of_not_hasNext _ _ _ hn] at hr
      cases hr
    · cases hc : h.read c with
      | none => exact clearLoop_dead fuel' hc
      | some n =>
        rw [clearLoop_step _ hc] at hr
        have hlive := liveCount_set_none h c n hc
        have hall := ih _ _ (by omega) hr
        cases fuel' with
        | zero => simp [clearLoop, ll_hasNext]
        | succ f => rw [clearLoop_step _ hc]; exact hall f

theorem clearLoop_mono_le (h : Heap) (iter : Option linkedListIterator)
    (r : Heap × Option linkedListIterator) {fuel fuel' : Nat} (hle : fuel ≤ fuel')
    (hr : clearLoop fuel h iter = some r) : clearLoop fuel' h iter = some r := by
  induction hle with
  | refl => exact hr
  | step _ ih => exact clearLoop_mono _ _ _ _ ih

/-- The result of the loop does not depend on the fuel once the fuel covers the live
cells of the heap; `h.length`, the fuel of `ll_clear`, always does. -/
theorem clearLoop_fuel_irrelevant (h : Heap) (iter : Option linkedListIterator)
    {fuel fuel' : Nat} (hf : liveCount h ≤ fuel) (hf' : liveCount h ≤ fuel') :
    clearLoop fuel h iter = clearLoop fuel' h iter := by
  cases hr : clearLoop fuel h iter with
  | none => exact (clearLoop_none_forever fuel h iter hf hr fuel').symm
  | some r =>
    cases hr' : clearLoop fuel' h iter with
    | none =>
      rw [clearLoop_none_forever fuel' h iter hf' hr' fuel] at hr
      cases hr
    | some r' =>
      rcases Nat.le_total fuel fuel' with hle | hle
      · rw [clearLoop_mono_le h iter r hle hr] at hr'
        exact hr'
      · rw [clearLoop_mono_le h iter r' hle hr'] at hr
        exact hr.symm

/-- What `ll_clear` does to a well-formed list: it frees exactly the nodes of the list
and resets the structure, and its loop gives this result with any fuel that covers the
length of the list. -/
theorem ll_clear_ok {h : Heap} {l : linkedList} {ps : List Nat} (hs : Shape h l ps) :
    ∃ h', ll_clear h (some l) = some ⟨(), h', some ⟨none, none, 0⟩⟩ ∧
      h'.length = h.length ∧ (∀ p ∈ ps, h'.read p = none) ∧
      (∀ q, q ∉ ps → h'.read q = h.read q) ∧
      (∀ fuel, ps.length ≤ fuel →
        clearLoop fuel h (ll_getIterator (some l)) = some (h', some ⟨none⟩)) := by
  have hlen : ps.length ≤ h.length := by
    have hsub : ps ⊆ List.range h.length := fun p hp =>
      List.mem_range.mpr (hs.chain.lt_length p hp)
    have := (List.subperm_of_subset hs.chain.nodup hsub).length_le
    simpa using this
  obtain ⟨h', e, h1, h2, h3⟩ := clearLoop_seg hs.chain (Nat.le_refl ps.length)
  rw [← ll_getIterator_of_shape hs] at e
  have hfuel : ∀ fuel, ps.length ≤ fuel →
      clearLoop fuel h (ll_getIterator (some l)) = some (h', some ⟨none⟩) :=
    fun fuel hle => clearLoop_mono_le h _ _ hle e
  refine ⟨h', ?_, h1, h2, h3, hfuel⟩
  simp [ll_clear, hfuel h.length hlen, ll_init]

/-! ## Runs of `ll_add` -/

theorem ends_payload {h : Heap} {l : linkedList} {ps : List Nat} (hs : Shape h l ps) :
    l.head.map (payload h) = (payloads h ps).head? ∧
    l.tail.map (payload h) = (payloads h ps).getLast? := by
  simp [payloads, hs.head_eq, hs.tail_eq, List.head?_map, List.getLast?_map]

theorem ll_add_all_ok (objs : List (List Nat × Nat)) : ∀ {h : Heap} {l : linkedList}
    {ps : List Nat}, IsList h l ps → (∀ o ∈ objs, o.2 ≠ 0) → l.size + objs.length < 2 ^ 32 →
    ∃ h' l' ps', ll_add_all h (some l) objs = some ⟨true, h', some l'⟩ ∧
      IsList h' l' ps' ∧ l'.size = l.size + objs.length ∧
      payloads h' ps' = payloads h ps ++ objs.map (fun o => some (o.1.take o.2)) ∧
      h.length ≤ h'.length ∧ (∀ p, p < h.length → cargo h' p = cargo h p) := by
  induction objs with
  | nil =>
    intro h l ps hl _ _
    exact ⟨h, l, ps, rfl, hl, rfl, by simp, Nat.le_refl _, fun _ _ => rfl⟩
  | cons o rest ih =>
    intro h l ps hl hv hN
    simp only [List.length_cons] at hN
    obtain ⟨h1, l1, e1, s1, z1, len1, c1, n1, -⟩ :=
      ll_add_ok hl o.1 (hv o (List.mem_cons_self _ _))
    have hz1 : l1.size = l.size + 1 := by rw [z1, Nat.mod_eq_of_lt (by omega)]
    have hl1 : IsList h1 l1 (ps ++ [h.length]) := ⟨s1, by rw [hz1, hl.size_eq]; simp⟩
    obtain ⟨h', l', ps', e, hl', z', pay, len', c'⟩ :=
      ih hl1 (fun x hx => hv x (List.mem_cons_of_mem _ hx)) (by omega)
    refine ⟨h', l', ps', ?_, hl', by simp only [List.length_cons]; omega, ?_, by omega,
      fun p hp => ?_⟩
    · simp [ll_add_all, e1, e]
    · have hp1 := payloads_insert (fun p hp => c1 p (hl.shape.chain.lt_length p hp)) n1
        ps.length
      have hlen : (payloads h ps).length = ps.length := by simp [payloads]
      rw [List.take_length, List.drop_length, ← hlen, List.take_length, List.drop_length] at hp1
      rw [pay, hp1]
      simp
    · rw [c' p (by omega), c1 p hp]

theorem ll_add_all_snoc (xs : List (List Nat × Nat)) : ∀ (h : Heap) (list : Option linkedList)
    (h1 : Heap) (l1 : Option linkedList) (o : List Nat × Nat) (r : Outcome Bool),
    ll_add_all h list xs = some ⟨true, h1, l1⟩ → ll_add h1 l1 (some o.1) o.2 = some r →
    ll_add_all h list (xs ++ [o]) = some ⟨r.ret, r.heap, r.list⟩ := by
  induction xs with
  | nil =>
    intro h list h1 l1 o r e1 e2
    simp only [ll_add_all, Option.some.injEq, Outcome.mk.injEq, true_and] at e1
    obtain ⟨rfl, rfl⟩ := e1
    simp [ll_add_all, e2]
  | cons x xs ih =>
    intro h list h1 l1 o r e1 e2
    simp only [ll_add_all, Option.bind_eq_bind, Option.bind_eq_some, Option.pure_def,
      Option.some.injEq, Outcome.mk.injEq, Bool.and_eq_true] at e1
    obtain ⟨r0, e0, r1, e1', ⟨hr0, hr1⟩, rfl, rfl⟩ := e1
    have e1'' : ll_add_all r0.heap r0.list xs = some ⟨true, r1.heap, r1.list⟩ := by
      rw [e1', ← hr1]
    have := ih _ _ _ _ o r e1'' e2
    simp [ll_add_all, e0, this, hr0]

/-! ## Walks along the links -/

theorem walkNext_seg {ps : List Nat} : ∀ {h : Heap} {prev : Option Nat} {fuel : Nat},
    Seg h prev ps none → ps.length ≤ fuel → walkNext h fuel (nextOf ps none) = some ps := by
  induction ps with
  | nil => intro h prev fuel _ _; cases fuel <;> rfl
  | cons p ps ih =>
    intro h prev fuel hs hf
    obtain ⟨n, h1, -, h3, h4⟩ := Seg_cons.mp hs
    obtain ⟨f, rfl⟩ : ∃ f, fuel = f + 1 := ⟨fuel - 1, by simp at hf; omega⟩
    have := ih h4 (show ps.length ≤ f by simpa using hf)
    simp [walkNext, h1, h3, this]

theorem walkPrev_seg (ps : List Nat) : ∀ {h : Heap} {nxt : Option Nat} {fuel : Nat},
    Seg h none ps nxt → ps.length ≤ fuel →
    walkPrev h fuel (prevOf ps none) = some ps.reverse := by
  induction ps using List.reverseRecOn with
  | nil => intro h nxt fuel _ _; cases fuel <;> rfl
  | append_singleton init t ih =>
    intro h nxt fuel hs hf
    obtain ⟨hinit, hlast⟩ := Seg_append.mp hs
    obtain ⟨n, h1, h2, -⟩ := Seg_singleton.mp hlast
    obtain ⟨f, rfl⟩ : ∃ f, fuel = f + 1 := ⟨fuel - 1, by simp at hf; omega⟩
    have := ih hinit (show init.length ≤ f by simp at hf; omega)
    simp [prevOf_append, walkPrev, h1, h2, this]

/-- Both links of every node of a segment are mirrored by the neighbour they name, the
outer ends apart. -/
theorem Seg.neighbours {h : Heap} {xs ys : List Nat} {c : Nat} {prev nxt : Option Nat}
    (hs : Seg h prev (xs ++ c :: ys) nxt) :
    ∃ n, h.read c = some n ∧ n.prevNode = prevOf xs prev ∧ n.nextNode = nextOf ys nxt ∧
      (∀ q, xs.getLast? = some q → ∃ m, h.read q = some m ∧ m.nextNode = some c) ∧
      (∀ q, ys.head? = some q → ∃ m, h.read q = some m ∧ m.prevNode = some c) := by
  obtain ⟨hxs, hcy⟩ := Seg_append.mp hs
  obtain ⟨n, h1, h2, h3, h4⟩ := Seg_cons.mp hcy
  refine ⟨n, h1, h2, h3, ?_, ?_⟩
  · intro q hq
    rcases List.eq_nil_or_concat xs with rfl | ⟨init, t, hx⟩
    · simp at hq
    · rw [List.concat_eq_append] at hx
      subst hx
      obtain ⟨m, m1, -, m3⟩ := Seg_singleton.mp (Seg_append.mp hxs).2
      have : t = q := by simpa using hq
      subst this
      exact ⟨m, m1, by simpa using m3⟩
  · intro q hq
    cases ys with
    | nil => simp at hq
    | cons y ys =>
      have : y = q := by simpa using hq
      subst this
      obtain ⟨m, m1, m2, -⟩ := Seg_cons.mp h4
      exact ⟨m, m1, m2⟩

/-! ## Calls that fail -/

theorem ll_add_fail (h : Heap) (list : Option linkedList) (object : Option (List Nat))
    (size : Nat) (hc : list = none ∨ object = none ∨ size = 0) :
    ll_add h list object size = some ⟨false, h, list⟩ := by
  rcases hc with rfl | rfl | rfl
  · rfl
  · cases list <;> rfl
  · cases list <;> cases object <;> simp [ll_add]

theorem ll_addIndex_fail (h : Heap) (l : linkedList) (object : Option (List Nat))
    (size index : Nat) (hc : object = none ∨ size = 0 ∨ l.size < index) :
    ll_addIndex h (some l) object size index = some ⟨false, h, some l⟩ := by
  rcases hc with rfl | rfl | hlt
  · by_cases hidx : index = l.size
    · simp [ll_addIndex, hidx, ll_add_fail]
    · simp [ll_addIndex, hidx]
  · by_cases hidx : index = l.size
    · cases object <;> simp [ll_addIndex, hidx, ll_add_fail]
    · cases object <;> simp [ll_addIndex, hidx]
  · have h1 : ¬ index < l.size := by omega
    have h2 : index ≠ l.size := by omega
    cases object <;> simp [ll_addIndex, h1, h2]

theorem ll_remove_fail (h : Heap) (l : linkedList) {index : Nat} (hi : l.size ≤ index) :
    ll_remove h (some l) index = some ⟨false, h, some l⟩ := by
  simp [ll_remove, Nat.not_lt.mpr hi]

/-! ## Sequences of calls that never wrap the size -/

theorem isList_empty (h : Heap) : IsList h ⟨none, none, 0⟩ [] :=
  ⟨⟨trivial, rfl, rfl⟩, rfl⟩

theorem step_isList {h : Heap} {l : linkedList} {ps : List Nat} (hl : IsList h l ps)
    (c : Call) (hw : c.inserts = true → l.size < 2 ^ 32 - 1) :
    ∃ h' l' ps', step h (some l) c = some (h', some l') ∧ IsList h' l' ps' := by
  cases c with
  | init => exact ⟨h, _, [], rfl, isList_empty h⟩
  | add object size =>
    have hfit := hw rfl
    by_cases hc : object = none ∨ size = 0
    · refine ⟨h, l, ps, ?_, hl⟩
      simp [step, ll_add_fail h (some l) object size (Or.inr hc)]
    · push_neg at hc
      obtain ⟨obj, rfl⟩ := Option.ne_none_iff_exists'.mp hc.1
      obtain ⟨h', l', e, hs, hz, -⟩ := ll_add_ok hl obj hc.2
      refine ⟨h', l', _, by simp [step, e], hs, ?_⟩
      rw [hz, Nat.mod_eq_of_lt (by omega), hl.size_eq]
      simp
  | addIndex object size index =>
    have hfit := hw rfl
    by_cases hc : object = none ∨ size = 0 ∨ l.size < index
    · refine ⟨h, l, ps, ?_, hl⟩
      simp [step, ll_addIndex_fail h l object size index hc]
    · push_neg at hc
      obtain ⟨obj, rfl⟩ := Option.ne_none_iff_exists'.mp hc.1
      obtain ⟨h', l', e, hs, hz, -⟩ :=
        ll_addIndex_le_ok hl obj hc.2.1 (show index ≤ ps.length from hl.size_eq ▸ hc.2.2)
      refine ⟨h', l', _, by simp [step, e], hs, ?_⟩
      rw [hz, Nat.mod_eq_of_lt (by omega), hl.size_eq]
      have := hl.size_eq ▸ hc.2.2
      simp [List.length_take]
      omega
  | remove index =>
    by_cases hi : index < l.size
    · have hi' : index < ps.length := hl.size_eq ▸ hi
      obtain ⟨h', l', e, hs, hz, -⟩ := ll_remove_ok hl hi'
      refine ⟨h', l', _, by simp [step, e], hs, ?_⟩
      rw [hz, hl.size_eq, List.length_eraseIdx_of_lt hi']
    · refine ⟨h, l, ps, ?_, hl⟩
      simp [step, ll_remove_fail h l (Nat.le_of_not_lt hi)]
  | get index =>
    refine ⟨h, l, ps, ?_, hl⟩
    by_cases hi : index < l.size
    · simp [step, ll_get_ok hl (hl.size_eq ▸ hi)]
    · simp [step, ll_get_out_of_range h l (Nat.le_of_not_lt hi)]
  | clear =>
    obtain ⟨h', e, -⟩ := ll_clear_ok hl.shape
    exact ⟨h', _, [], by simp [step, e], isList_empty h'⟩

theorem run_isList (cs : List Call) : ∀ {h : Heap} {l : linkedList} {ps : List Nat},
    IsList h l ps → NoWrap h (some l) cs →
    ∃ h' l' ps', run h (some l) cs = some (h', some l') ∧ IsList h' l' ps' := by
  induction cs with
  | nil => intro h l ps hl _; exact ⟨h, l, ps, rfl, hl⟩
  | cons c cs ih =>
    intro h l ps hl hw
    obtain ⟨h1, l1, ps1, e1, hl1⟩ := step_isList hl c hw.1
    have hw' : NoWrap h1 (some l1) cs := by
      have := hw.2
      rw [e1] at this
      exact this
    obtain ⟨h', l', ps', e, hl'⟩ := ih hl1 hw'
    exact ⟨h', l', ps', by simp [run, e1, e], hl'⟩

/-! ## Lists hanging from a node

After the size has wrapped, `ll_add` starts a new list behind the old tail: the head of
that list points back to a node that is not part of it.  The lemmas of this section redo
the splices for such lists. -/

theorem prevOf_of_ne_nil {xs : List Nat} (hx : xs ≠ []) (prev : Option Nat) :
    prevOf xs prev = xs.getLast? := by
  unfold prevOf
  cases hq : xs.getLast? with
  | some x => rfl
  | none => exact absurd (List.getLast?_eq_none_iff.mp hq) hx

theorem prevOf_mem {xs : List Nat} {prev : Option Nat} {q : Nat}
    (hq : some q = prevOf xs prev) : q ∈ xs ∨ prev = some q := by
  cases xs with
  | nil => exact Or.inr hq.symm
  | cons x xs =>
    rw [prevOf_of_ne_nil (List.cons_ne_nil x xs)] at hq
    exact Or.inl (List.mem_of_getLast?_eq_some hq.symm)

theorem Rooted.prevOf_eq {h : Heap} {l : linkedList} {prev : Option Nat} {ps : List Nat}
    (hr : Rooted h l prev ps) : prevOf ps prev = ps.getLast? := by
  cases ps with
  | nil => rw [hr.bare rfl]; rfl
  | cons p ps => exact prevOf_of_ne_nil (List.cons_ne_nil p ps) prev

theorem Shape.rooted {h : Heap} {l : linkedList} {ps : List Nat} (hs : Shape h l ps) :
    Rooted h l none ps :=
  ⟨hs.chain, hs.head_eq, hs.tail_eq, fun _ ht => (by cases ht), fun _ => rfl⟩

theorem Rooted.shape {h : Heap} {l : linkedList} {ps : List Nat} (hr : Rooted h l none ps) :
    Shape h l ps :=
  ⟨hr.chain, hr.head_eq, hr.tail_eq⟩

theorem ll_getIterator_of_rooted {h : Heap} {l : linkedList} {prev : Option Nat}
    {ps : List Nat} (hr : Rooted h l prev ps) :
    ll_getIterator (some l) = some ⟨nextOf ps none⟩ := by
  simp [ll_getIterator, hr.head_eq, nextOf_none]

/-- The guarded store into the `nextNode` of the node before a segment's end: the last
node of the segment, or the node the segment hangs from when it is empty. -/
theorem storeNext_rooted {h : Heap} {xs : List Nat} {prev old : Option Nat}
    (hs : Seg h prev xs old) (hnd : xs.Nodup)
    (hroot : ∀ t, prev = some t → ∃ n, h.read t = some n) (new : Option Nat) :
    ∃ h1, storeNext h (prevOf xs prev) new = some h1 ∧ Seg h1 prev xs new ∧
      h1.length = h.length ∧ (∀ q, some q ≠ prevOf xs prev → h1.read q = h.read q) ∧
      (∀ q, cargo h1 q = cargo h q) := by
  cases xs with
  | nil =>
    cases prev with
    | none => exact ⟨h, rfl, trivial, rfl, fun _ _ => rfl, fun _ => rfl⟩
    | some t =>
      obtain ⟨n, hn⟩ := hroot t rfl
      refine ⟨h.set t (some { n with nextNode := new }), ?_, trivial, by simp, ?_, ?_⟩
      · simp [storeNext, Heap.modify_of_read _ hn]
      · intro q hq
        refine Heap.read_set_of_ne h _ fun htq => hq ?_
        simp [htq]
      · exact cargo_set_of_read _ hn rfl rfl
  | cons x xs =>
    rw [prevOf_of_ne_nil (List.cons_ne_nil x xs)]
    exact storeNext_seg hs hnd new

/-- `ll_add` on a list that hangs from a node, whatever its size field holds; cells
outside the list are left as they were. -/
theorem ll_add_rooted_frame {h : Heap} {l : linkedList} {prev : Option Nat} {ps : List Nat}
    (hr : Rooted h l prev ps) (obj : List Nat) {size : Nat} (hsz : size ≠ 0) :
    ∃ h', ll_add h (some l) (some obj) size =
        some ⟨true, h', some ⟨if l.size = 0 then some h.length else l.head, some h.length,
          (l.size + 1) % 2 ^ 32⟩⟩ ∧
      Seg h' prev (ps ++ [h.length]) none ∧
      h'.length = h.length + 1 ∧
      (∀ p, p < h.length → cargo h' p = cargo h p) ∧
      cargo h' h.length = some (some (obj.take size), size) ∧
      (∀ q, q < h.length → q ∉ ps → h'.read q = h.read q) := by
  have hpv := hr.prevOf_eq
  obtain ⟨hd, tl, sz⟩ := l
  obtain ⟨hch, hhd, htl, -, -⟩ := hr
  simp only at hhd htl
  subst htl
  have hnd := hch.nodup
  have hnew : ∀ q ∈ ps, q ≠ h.length := fun q hq => Nat.ne_of_lt (hch.lt_length q hq)
  obtain ⟨h1, e1, s1, len1, fr1, cg1⟩ :=
    storeNext_seg (hch.append_frame [some (listNode.mk (some (obj.take size)) size none
      ps.getLast?)]) hnd (some h.length)
  have hrd : h1.read h.length =
      some (listNode.mk (some (obj.take size)) size none ps.getLast?) := by
    rw [fr1, Heap.read_append_length]
    intro hq
    exact hnew _ (List.mem_of_getLast?_eq_some hq.symm) rfl
  refine ⟨h1, ?_, ?_, ?_, ?_, ?_, ?_⟩
  · by_cases h0 : sz = 0 <;> simp [ll_add, hsz, e1, h0]
  · rw [Seg_append]
    exact ⟨s1, Seg_singleton.mpr ⟨_, hrd, hpv.symm, rfl⟩⟩
  · simpa using len1
  · intro p hp
    rw [cg1]
    unfold cargo
    rw [Heap.read_append_of_lt h _ hp]
  · exact cargo_of_read hrd
  · intro q hq hqps
    rw [fr1 q fun hql => hqps (List.mem_of_getLast?_eq_some hql.symm),
      Heap.read_append_of_lt h _ hq]

/-- `ll_add` on a list that hangs from a node, whatever its size field holds. -/
theorem ll_add_rooted {h : Heap} {l : linkedList} {prev : Option Nat} {ps : List Nat}
    (hr : Rooted h l prev ps) (obj : List Nat) {size : Nat} (hsz : size ≠ 0) :
    ∃ h', ll_add h (some l) (some obj) size =
        some ⟨true, h', some ⟨if l.size = 0 then some h.length else l.head, some h.length,
          (l.size + 1) % 2 ^ 32⟩⟩ ∧
      Seg h' prev (ps ++ [h.length]) none ∧
      h'.length = h.length + 1 ∧
      (∀ p, p < h.length → cargo h' p = cargo h p) ∧
      cargo h' h.length = some (some (obj.take size), size) := by
  obtain ⟨h', e, hseg, hlen, hfr, hnew, -⟩ := ll_add_rooted_frame hr obj hsz
  exact ⟨h', e, hseg, hlen, hfr, hnew⟩

theorem live_of_cargo {h h' : Heap} {t : Nat} (hc : cargo h' t = cargo h t)
    (hl : ∃ n, h.read t = some n) : ∃ n, h'.read t = some n := by
  obtain ⟨n, hn⟩ := hl
  rw [cargo_of_read hn] at hc
  unfold cargo at hc
  cases hr : h'.read t with
  | none => simp [hr] at hc
  | some n' => exact ⟨n', rfl⟩

theorem storeNext_read_self {h h1 : Heap} {t : Nat} {n : listNode} {v : Option Nat}
    (hs : storeNext h (some t) v = some h1) (hn : h.read t = some n) :
    h1.read t = some { n with nextNode := v } := by
  simp only [storeNext, Heap.modify_of_read _ hn, Option.some.injEq] at hs
  rw [← hs]
  exact Heap.read_set_self _ _ (Heap.read_lt hn)

/-- `ll_addIndex` below the count on a list that hangs from a node; the node the list
hangs from keeps naming the head as its next node. -/
theorem ll_addIndex_rooted_hung {h : Heap} {l : linkedList} {prev : Option Nat}
    {ps : List Nat}
    (hr : Rooted h l prev ps) (obj : List Nat) {size : Nat} (hsz : size ≠ 0) {index : Nat}
    (hi : index < ps.length) (his : index < l.size) :
    ∃ h', ll_addIndex h (some l) (some obj) size index =
        some ⟨true, h', some ⟨if index = 0 then some h.length else l.head, l.tail,
          (l.size + 1) % 2 ^ 32⟩⟩ ∧
      Rooted h' ⟨if index = 0 then some h.length else l.head, l.tail, (l.size + 1) % 2 ^ 32⟩
        prev (ps.take index ++ h.length :: ps.drop index) ∧
      h'.length = h.length + 1 ∧
      (∀ p, p < h.length → cargo h' p = cargo h p) ∧
      cargo h' h.length = some (some (obj.take size), size) ∧
      (Hung h prev ps → Hung h' prev (ps.take index ++ h.length :: ps.drop index)) := by
  have hiter := ll_getIterator_of_rooted hr
  obtain ⟨hd, tl, sz⟩ := l
  obtain ⟨hch, hhd, htl, hroot, -⟩ := hr
  simp only at hhd htl his
  have hnd := hch.nodup
  obtain ⟨xs, c, ys, hps, hxl, hdrop, htake, -, -⟩ := split_at_index hi
  rw [htake, hdrop]
  have hsp := Seg_append.mp (hps ▸ hch)
  obtain ⟨cn, hc1, hc2, hc3, hys⟩ := Seg_cons.mp hsp.2
  have hxs := hsp.1
  rw [nextOf_cons] at hxs
  have hnd' : (xs ++ c :: ys).Nodup := hps ▸ hnd
  have hndx : xs.Nodup := (List.nodup_append.mp hnd').1
  have hcxs : c ∉ xs := fun hm =>
    (List.nodup_append.mp hnd').2.2 hm (List.mem_cons_self c ys)
  have hcys : c ∉ ys := (List.nodup_cons.mp (List.nodup_append.mp hnd').2.1).1
  have hlt : ∀ q ∈ ps, q < h.length := hch.lt_length
  have hcps : c ∈ ps := by simp [hps]
  have hxps : ∀ q ∈ xs, q ∈ ps := fun q hq => hps ▸ List.mem_append_left _ hq
  have hyps : ∀ q ∈ ys, q ∈ ps := fun q hq =>
    hps ▸ List.mem_append_right _ (List.mem_cons_of_mem _ hq)
  have hnx : h.length ∉ xs := fun hm => by
    have := hlt _ (hxps _ hm); omega
  have hcl : c < h.length := Heap.read_lt hc1
  have hnc : h.length ≠ c := by omega
  have hrootlt : ∀ t, prev = some t → t < h.length := fun t ht => by
    obtain ⟨n, hn⟩ := (hroot t ht).1
    exact Heap.read_lt hn
  -- the node the new one is linked behind is none of these
  have hnp : ∀ q, (q ∈ ps ∧ q ∉ xs) ∨ q = h.length → some q ≠ prevOf xs prev := by
    intro q hq hpo
    rcases prevOf_mem hpo with hm | hm
    · rcases hq with hq | hq
      · exact hq.2 hm
      · exact hnx (hq ▸ hm)
    · rcases hq with hq | hq
      · exact (hroot q hm).2 hq.1
      · have := hrootlt q hm
        omega
  -- allocation and positioning
  have hadv := advance_seg (hch.append_frame [some (listNode.mk (some (obj.take size)) size none
    none)]) index (Nat.le_of_lt hi)
  rw [hdrop, nextOf_cons] at hadv
  obtain ⟨h0, hh0⟩ : ∃ h0 : Heap, h0 = h ++ [some (listNode.mk (some (obj.take size)) size none none)] :=
    ⟨_, rfl⟩
  rw [← hh0] at hadv
  have r0 : ∀ q, q < h.length → h0.read q = h.read q := fun q hq =>
    hh0 ▸ Heap.read_append_of_lt h _ hq
  have r0n : h0.read h.length = some (listNode.mk (some (obj.take size)) size none none) :=
    hh0 ▸ Heap.read_append_length h _
  have len0 : h0.length = h.length + 1 := by simp [hh0]
  -- node->nextNode = iter->current
  obtain ⟨h1, hh1⟩ : ∃ h1 : Heap, h1 = h0.set h.length
      (some (listNode.mk (some (obj.take size)) size (some c) none)) := ⟨_, rfl⟩
  have e1 : h0.modify h.length (fun n => { n with nextNode := some c }) = some h1 := by
    rw [Heap.modify_of_read _ r0n, hh1]
  have len1 : h1.length = h.length + 1 := by simp [hh1, len0]
  have r1 : ∀ q, q < h.length → h1.read q = h.read q := fun q hq => by
    rw [hh1, Heap.read_set_of_ne _ _ (by omega), r0 q hq]
  have r1n : h1.read h.length = some (listNode.mk (some (obj.take size)) size (some c) none) := by
    rw [hh1, Heap.read_set_self]
    omega
  -- node->prevNode = iter->current->prevNode
  obtain ⟨h2, hh2⟩ : ∃ h2 : Heap, h2 = h1.set h.length
      (some (listNode.mk (some (obj.take size)) size (some c) cn.prevNode)) := ⟨_, rfl⟩
  have e2 : h1.modify h.length (fun n => { n with prevNode := cn.prevNode }) = some h2 := by
    rw [Heap.modify_of_read _ r1n, hh2]
  have len2 : h2.length = h.length + 1 := by simp [hh2, len1]
  have r2 : ∀ q, q < h.length → h2.read q = h.read q := fun q hq => by
    rw [hh2, Heap.read_set_of_ne _ _ (by omega), r1 q hq]
  have r2n : h2.read h.length =
      some (listNode.mk (some (obj.take size)) size (some c) cn.prevNode) := by
    rw [hh2, Heap.read_set_self]
    omega
  -- if (node->prevNode != NULL) node->prevNode->nextNode = node
  have sx2 : Seg h2 prev xs (some c) := hxs.frame fun q hq => r2 q (hlt q (hxps q hq))
  have hroot2 : ∀ t, prev = some t → ∃ n, h2.read t = some n := fun t ht => by
    rw [r2 t (hrootlt t ht)]
    exact (hroot t ht).1
  obtain ⟨h3, e3, sx3, len3, fr3, cg3⟩ := storeNext_rooted sx2 hndx hroot2 (some h.length)
  rw [← hc2] at e3
  have r3c : h3.read c = some cn := by
    rw [fr3 c (hnp c (Or.inl ⟨hcps, hcxs⟩)), r2 c hcl, hc1]
  have r3n : h3.read h.length =
      some (listNode.mk (some (obj.take size)) size (some c) cn.prevNode) := by
    rw [fr3 _ (hnp _ (Or.inr rfl)), r2n]
  -- iter->current->prevNode = node
  obtain ⟨h4, hh4⟩ : ∃ h4 : Heap, h4 = h3.set c (some { cn with prevNode := some h.length }) :=
    ⟨_, rfl⟩
  have e4 : h3.modify c (fun n => { n with prevNode := some h.length }) = some h4 := by
    rw [Heap.modify_of_read _ r3c, hh4]
  have r4c : h4.read c = some { cn with prevNode := some h.length } := by
    rw [hh4, Heap.read_set_self]
    rw [len3, len2]
    omega
  have r4n : h4.read h.length =
      some (listNode.mk (some (obj.take size)) size (some c) cn.prevNode) := by
    rw [hh4, Heap.read_set_of_ne _ _ (Ne.symm hnc), r3n]
  have hcargo : ∀ p, p < h.length → cargo h4 p = cargo h p := by
    intro p hp
    rw [hh4, cargo_set_of_read { cn with prevNode := some h.length } r3c rfl rfl, cg3]
    unfold cargo
    rw [r2 p hp]
  refine ⟨h4, ?_, ⟨?_, ?_, ?_, ?_, ?_⟩, ?_, hcargo, cargo_of_read r4n, ?_⟩
  · have hcond : decide (size ≠ 0 ∧ index < sz) = true := decide_eq_true ⟨hsz, his⟩
    simp only [ll_addIndex, hcond, hiter, ← hh0, hadv, e1, r1 c hcl, hc1, e2, r2n, e3, e4,
      Option.bind_eq_bind, Option.some_bind, Option.pure_def]
    by_cases h0i : index = 0 <;> simp [h0i]
  · rw [Seg_append]
    refine ⟨hh4 ▸ sx3.set_frame hcxs _, Seg_cons.mpr ⟨_, r4n, hc2, rfl, ?_⟩⟩
    refine Seg_cons.mpr ⟨_, r4c, rfl, hc3, ?_⟩
    refine hys.frame fun q hq => ?_
    have hqc : c ≠ q := fun hcq => hcys (hcq ▸ hq)
    have hqx : q ∉ xs := fun hm =>
      (List.nodup_append.mp hnd').2.2 hm (List.mem_cons_of_mem _ hq)
    rw [hh4, Heap.read_set_of_ne _ _ hqc, fr3 q (hnp q (Or.inl ⟨hyps q hq, hqx⟩)),
      r2 q (hlt q (hyps q hq))]
  · cases xs with
    | nil =>
      have h0i : index = 0 := by simpa using hxl.symm
      simp [h0i]
    | cons x xs =>
      have h0i : index ≠ 0 := by
        rw [← hxl]
        simp
      simp [h0i, hhd, hps]
  · simp [htl, hps, List.getLast?_append, List.getLast?_cons_cons]
  · intro t ht
    refine ⟨live_of_cargo (hcargo t (hrootlt t ht)) (hroot t ht).1, ?_⟩
    intro hm
    have hne : t ≠ h.length := Nat.ne_of_lt (hrootlt t ht)
    have : t ∈ ps := by
      rw [hps]
      simp only [List.mem_append, List.mem_cons] at hm ⊢
      rcases hm with hm | hm | hm | hm
      · exact Or.inl hm
      · exact absurd hm hne
      · exact Or.inr (Or.inl hm)
      · exact Or.inr (Or.inr hm)
    exact (hroot t ht).2 this
  · intro hnil
    simp at hnil
  · rw [hh4, List.length_set, len3, len2]
  · intro hh t ht
    obtain ⟨n, hn, hnhead⟩ := hh t ht
    have htlt := hrootlt t ht
    have htps := (hroot t ht).2
    have htc : c ≠ t := fun hct => htps (hct ▸ hcps)
    have hr4 : h4.read t = h3.read t := by rw [hh4, Heap.read_set_of_ne _ _ htc]
    cases xs with
    | nil =>
      have hp : cn.prevNode = some t := by rw [hc2, prevOf_nil, ht]
      rw [hp] at e3
      have hr2 : h2.read t = some n := by rw [r2 t htlt, hn]
      exact ⟨_, hr4.trans (storeNext_read_self e3 hr2), rfl⟩
    | cons x xs =>
      have hne : some t ≠ prevOf (x :: xs) prev := by
        rw [prevOf_of_ne_nil (List.cons_ne_nil x xs)]
        exact fun hq => htps (hxps t (List.mem_of_getLast?_eq_some hq.symm))
      refine ⟨n, by rw [hr4, fr3 t hne, r2 t htlt, hn], ?_⟩
      rw [hnhead, hps]
      rfl

/-- `ll_addIndex` below the count on a list that hangs from a node. -/
theorem ll_addIndex_rooted {h : Heap} {l : linkedList} {prev : Option Nat} {ps : List Nat}
    (hr : Rooted h l prev ps) (obj : List Nat) {size : Nat} (hsz : size ≠ 0) {index : Nat}
    (hi : index < ps.length) (his : index < l.size) :
    ∃ h', ll_addIndex h (some l) (some obj) size index =
        some ⟨true, h', some ⟨if index = 0 then some h.length else l.head, l.tail,
          (l.size + 1) % 2 ^ 32⟩⟩ ∧
      Rooted h' ⟨if index = 0 then some h.length else l.head, l.tail, (l.size + 1) % 2 ^ 32⟩
        prev (ps.take index ++ h.length :: ps.drop index) ∧
      h'.length = h.length + 1 ∧
      (∀ p, p < h.length → cargo h' p = cargo h p) ∧
      cargo h' h.length = some (some (obj.take size), size) := by
  obtain ⟨h', e, hr', hlen, hfr, hnew, -⟩ := ll_addIndex_rooted_hung hr obj hsz hi his
  exact ⟨h', e, hr', hlen, hfr, hnew⟩

/-- `ll_remove` below the count on a list that hangs from a node and whose size field is
its length; the node the list hangs from keeps naming the head as its next node. -/
theorem ll_remove_rooted_hung {h : Heap} {l : linkedList} {prev : Option Nat}
    {ps : List Nat}
    (hr : Rooted h l prev ps) (hsize : l.size = ps.length) {index : Nat}
    (hi : index < ps.length) :
    ∃ h' l', ll_remove h (some l) index = some ⟨true, h', some l'⟩ ∧
      Rooted h' l' (if ps.eraseIdx index = [] then none else prev) (ps.eraseIdx index) ∧
      l'.size = l.size - 1 ∧ h'.length = h.length ∧
      (∀ q ∈ ps.eraseIdx index, cargo h' q = cargo h q) ∧
      (Hung h prev ps →
        Hung h' (if ps.eraseIdx index = [] then none else prev) (ps.eraseIdx index)) := by
  have hiter := ll_getIterator_of_rooted hr
  obtain ⟨hd, tl, sz⟩ := l
  obtain ⟨hch, hhd, htl, hroot, hbare⟩ := hr
  simp only at hhd htl hsize
  have hnd := hch.nodup
  obtain ⟨xs, c, ys, hps, hxl, hdrop, -, herase, hget⟩ := split_at_index hi
  rw [herase]
  have hsp := Seg_append.mp (hps ▸ hch)
  obtain ⟨cn, hc1, hc2, hc3, hys⟩ := Seg_cons.mp hsp.2
  have hxs := hsp.1
  rw [nextOf_cons] at hxs
  have hnd' : (xs ++ c :: ys).Nodup := hps ▸ hnd
  have hndx : xs.Nodup := (List.nodup_append.mp hnd').1
  have hndy : ys.Nodup := (List.nodup_cons.mp (List.nodup_append.mp hnd').2.1).2
  have hcxs : c ∉ xs := fun hm =>
    (List.nodup_append.mp hnd').2.2 hm (List.mem_cons_self c ys)
  have hcys : c ∉ ys := (List.nodup_cons.mp (List.nodup_append.mp hnd').2.1).1
  have hdisj : ∀ q, q ∈ xs → q ∉ ys := fun q hx hy =>
    (List.nodup_append.mp hnd').2.2 hx (List.mem_cons_of_mem _ hy)
  have hcps : c ∈ ps := by simp [hps]
  have hxps : ∀ q ∈ xs, q ∈ ps := fun q hq => hps ▸ List.mem_append_left _ hq
  have hyps : ∀ q ∈ ys, q ∈ ps := fun q hq =>
    hps ▸ List.mem_append_right _ (List.mem_cons_of_mem _ hq)
  have hnext : cn.nextNode = ys.head? := by rw [hc3, nextOf_none]
  -- the node before the removed one is neither that node nor a later one
  have hnp : ∀ q, q ∈ ps → q ∉ xs → some q ≠ prevOf xs prev := by
    intro q hq hqx hpo
    rcases prevOf_mem hpo with hm | hm
    · exact hqx hm
    · exact (hroot q hm).2 hq
  have hadv := advance_seg hch index (Nat.le_of_lt hi)
  rw [hdrop, nextOf_cons] at hadv
  -- if (cur->nextNode != NULL) cur->nextNode->prevNode = cur->prevNode
  obtain ⟨h1, e1, sy1, len1, fr1, cg1⟩ := storePrev_seg hys hndy cn.prevNode
  rw [← hnext] at e1
  have r1c : h1.read c = some cn := by
    rw [fr1 c fun hq => hcys (List.mem_of_mem_head? hq.symm), hc1]
  have sx1 : Seg h1 prev xs (some c) := hxs.frame fun q hq =>
    fr1 q fun hq' => hdisj q hq (List.mem_of_mem_head? hq'.symm)
  have hroot1 : ∀ t, prev = some t → ∃ n, h1.read t = some n := fun t ht =>
    live_of_cargo (cg1 t) (hroot t ht).1
  -- if (cur->prevNode != NULL) cur->prevNode->nextNode = cur->nextNode
  obtain ⟨h2, e2, sx2, len2, fr2, cg2⟩ := storeNext_rooted sx1 hndx hroot1 cn.nextNode
  rw [← hc2] at e2
  have r2c : h2.read c = some cn := by
    rw [fr2 c (hnp c hcps hcxs), r1c]
  have sy2 : Seg h2 cn.prevNode ys none := sy1.frame fun q hq =>
    fr2 q (hnp q (hyps q hq) fun hm => hdisj q hm hq)
  -- free(cur)
  have e3 : h2.free c = some (h2.set c none) := Heap.free_of_read r2c
  have hcargo : ∀ q, c ≠ q → cargo (h2.set c none) q = cargo h q := fun q hq => by
    rw [cargo_set_of_ne _ _ hq, cg2, cg1]
  refine ⟨h2.set c none, ⟨(xs ++ ys).head?, (xs ++ ys).getLast?, sz - 1⟩,
    ?_, ⟨?_, rfl, rfl, ?_, ?_⟩, rfl, ?_, ?_, ?_⟩
  · have hcond : index < sz := hsize ▸ hi
    simp only [ll_remove, hcond, if_true, hiter, hadv, hc1, e1, r1c, e2, r2c, e3,
      Option.bind_eq_bind, Option.some_bind, Option.pure_def]
    subst hhd htl hsize hps hxl
    rw [hc2, hnext]
    cases xs with
    | nil => cases ys <;> simp [ll_init, List.getLast?_cons_cons]
    | cons x xs =>
      rw [prevOf_of_ne_nil (List.cons_ne_nil x xs)]
      cases ys with
      | nil => simp [ll_init]
      | cons y ys =>
        simp only [ll_init, getLast?_append_cons_cons]
        simp
  · by_cases hnil : xs ++ ys = []
    · rw [hnil]
      trivial
    · rw [if_neg hnil, Seg_append]
      refine ⟨?_, ?_⟩
      · rw [← hc3]
        exact sx2.set_frame hcxs _
      · rw [← hc2]
        exact sy2.set_frame hcys _
  · intro t ht
    by_cases hnil : xs ++ ys = []
    · rw [if_pos hnil] at ht
      cases ht
    · rw [if_neg hnil] at ht
      have htps := (hroot t ht).2
      have hct : c ≠ t := fun hct => htps (hct ▸ hcps)
      refine ⟨live_of_cargo (hcargo t hct) (hroot t ht).1, fun hm => htps ?_⟩
      rcases List.mem_append.mp hm with hm | hm
      · exact hxps t hm
      · exact hyps t hm
  · intro hnil
    rw [if_pos hnil]
  · rw [List.length_set, len2, len1]
  · intro q hq
    refine hcargo q fun hcq => ?_
    rcases List.mem_append.mp hq with hm | hm
    · exact hcxs (hcq ▸ hm)
    · exact hcys (hcq ▸ hm)
  · intro hh t ht
    by_cases hnil : xs ++ ys = []
    · rw [if_pos hnil] at ht
      cases ht
    · rw [if_neg hnil] at ht
      obtain ⟨n, hn, hnhead⟩ := hh t ht
      have htps := (hroot t ht).2
      have hct : c ≠ t := fun hct => htps (hct ▸ hcps)
      have hr1 : h1.read t = some n := by
        rw [fr1 t fun hq => htps (hyps t (List.mem_of_mem_head? hq.symm)), hn]
      have hr3 : Heap.read (h2.set c none) t = h2.read t := Heap.read_set_of_ne _ _ hct
      cases xs with
      | nil =>
        have hp : cn.prevNode = some t := by rw [hc2, prevOf_nil, ht]
        rw [hp] at e2
        refine ⟨_, hr3.trans (storeNext_read_self e2 hr1), ?_⟩
        rw [hnext]
        rfl
      | cons x xs =>
        have hne : some t ≠ prevOf (x :: xs) prev := by
          rw [prevOf_of_ne_nil (List.cons_ne_nil x xs)]
          exact fun hq => htps (hxps t (List.mem_of_getLast?_eq_some hq.symm))
        refine ⟨n, by rw [hr3, fr2 t hne, hr1], ?_⟩
        rw [hnhead, hps]
        rfl

/-- `ll_remove` below the count on a list that hangs from a node and whose size field is
its length. -/
theorem ll_remove_rooted {h : Heap} {l : linkedList} {prev : Option Nat} {ps : List Nat}
    (hr : Rooted h l prev ps) (hsize : l.size = ps.length) {index : Nat}
    (hi : index < ps.length) :
    ∃ h' l', ll_remove h (some l) index = some ⟨true, h', some l'⟩ ∧
      Rooted h' l' (if ps.eraseIdx index = [] then none else prev) (ps.eraseIdx index) ∧
      l'.size = l.size - 1 ∧ h'.length = h.length ∧
      (∀ q ∈ ps.eraseIdx index, cargo h' q = cargo h q) := by
  obtain ⟨h', l', e, hr', hz, hlen, hfr, -⟩ := ll_remove_rooted_hung hr hsize hi
  exact ⟨h', l', e, hr', hz, hlen, hfr⟩

theorem ll_get_rooted {h : Heap} {l : linkedList} {prev : Option Nat} {ps : List Nat}
    (hr : Rooted h l prev ps) {index : Nat} (hi : index < ps.length) (his : index < l.size) :
    ll_get h (some l) index = some ⟨payload h ps[index], h, some l⟩ := by
  have hiter := ll_getIterator_of_rooted hr
  have hch := hr.chain
  obtain ⟨xs, c, ys, hps, hxl, hdrop, -, -, hget⟩ := split_at_index hi
  have hc : ps[index] = c := by
    rw [List.getElem?_eq_getElem hi] at hget
    exact Option.some.inj hget
  obtain ⟨cn, hc1, -⟩ := Seg_cons.mp (Seg_append.mp (hps ▸ hch)).2
  have hadv := advance_seg hch index (Nat.le_of_lt hi)
  rw [hdrop, nextOf_cons] at hadv
  simp [ll_get, his, hiter, hadv, hc1, hc, payload_of_read hc1]

theorem Seg.length_le {h : Heap} {ps : List Nat} {prev : Option Nat}
    (hs : Seg h prev ps none) : ps.length ≤ h.length := by
  have hsub : ps ⊆ List.range h.length := fun p hp =>
    List.mem_range.mpr (hs.lt_length p hp)
  have := (List.subperm_of_subset hs.nodup hsub).length_le
  simpa using this

theorem ll_clear_rooted {h : Heap} {l : linkedList} {prev : Option Nat} {ps : List Nat}
    (hr : Rooted h l prev ps) :
    ∃ h', ll_clear h (some l) = some ⟨(), h', some ⟨none, none, 0⟩⟩ ∧
      h'.length = h.length := by
  obtain ⟨h', e, h1, -⟩ := clearLoop_seg hr.chain (Nat.le_refl ps.length)
  rw [← ll_getIterator_of_rooted hr] at e
  refine ⟨h', ?_, h1⟩
  simp [ll_clear, clearLoop_mono_le h _ _ hr.chain.length_le e, ll_init]

/-! ## What every reachable state satisfies -/

theorem Rooted.walk {h : Heap} {l : linkedList} {prev : Option Nat} {ps : List Nat}
    (hr : Rooted h l prev ps) : walkNext h h.length l.head = some ps := by
  rw [hr.head_eq, ← nextOf_none]
  exact walkNext_seg hr.chain hr.chain.length_le

theorem Rooted.nodes_eq {h : Heap} {l : linkedList} {prev : Option Nat} {ps : List Nat}
    (hr : Rooted h l prev ps) : nodes h l = ps := by
  rw [nodes, hr.walk]
  rfl

theorem loaded_of_cargo {h h' : Heap} {p : Nat} (hc : cargo h' p = cargo h p) :
    loaded h' p = loaded h p := by
  rw [loaded, loaded, hc]

theorem loaded_of_cargo_eq {h : Heap} {p : Nat} {d : List Nat} {z : Nat}
    (hc : cargo h p = some (some d, z)) (hz : 0 < z) : loaded h p = true := by
  rw [loaded, hc]
  exact decide_eq_true hz

theorem Kept.valid {h h' : Heap} {ps ps' : List Nat} {c : Call} (hk : Kept h ps c h' ps')
    (hv : ∀ p ∈ ps, loaded h p = true) : ∀ p ∈ ps', loaded h' p = true := by
  intro p hp
  rcases hk p hp with ⟨hm, hc⟩ | ⟨-, obj, size, index, -, hz, hc⟩
  · rw [loaded_of_cargo hc]
    exact hv p hm
  · exact loaded_of_cargo_eq hc hz

theorem Kept.same (h : Heap) (ps : List Nat) (c : Call) : Kept h ps c h ps :=
  fun _ hp => Or.inl ⟨hp, rfl⟩

theorem Kept.none (h : Heap) (ps : List Nat) (c : Call) (h' : Heap) : Kept h ps c h' [] :=
  fun _ hp => absurd hp (List.not_mem_nil _)

theorem inv_empty (h : Heap) : Inv h ⟨none, none, 0⟩ none [] :=
  ⟨⟨trivial, rfl, rfl, fun _ ht => (by cases ht), fun _ => rfl⟩, Or.inl rfl, by decide,
    fun _ hp => absurd hp (List.not_mem_nil _)⟩

/-- `ll_add` with a valid payload in any reachable state; the node the list hangs from
afterwards names the head as its next node. -/
theorem ll_add_inv_hung {h : Heap} {l : linkedList} {prev : Option Nat} {ps : List Nat}
    (hv : Inv h l prev ps) (obj : List Nat) {size : Nat} (hsz : size ≠ 0) :
    ∃ h' l' prev' ps', ll_add h (some l) (some obj) size = some ⟨true, h', some l'⟩ ∧
      Rooted h' l' prev' ps' ∧
      (l'.size = ps'.length ∨ (l'.size = 0 ∧ ps'.length = 2 ^ 32)) ∧ l'.size < 2 ^ 32 ∧
      (∀ p ∈ ps', (p ∈ ps ∧ cargo h' p = cargo h p) ∨
        (p ∉ ps ∧ cargo h' p = some (some (obj.take size), size))) ∧
      (Hung h prev ps → Hung h' prev' ps') := by
  obtain ⟨hr, hse, hsl, -⟩ := hv
  obtain ⟨h', e, hseg, hlen, hfr, hnew, hrd⟩ := ll_add_rooted_frame hr obj hsz
  have hlt := hr.chain.lt_length
  have hnps : h.length ∉ ps := fun hm => Nat.lt_irrefl _ (hlt _ hm)
  have hmod : (l.size + 1) % 2 ^ 32 < 2 ^ 32 := Nat.mod_lt _ (by decide)
  rcases hse with hse | ⟨hz, hfull⟩
  · -- the size field is the length
    refine ⟨h', _, prev, ps ++ [h.length], e, ⟨hseg, ?_, ?_, ?_, ?_⟩, ?_, hmod, ?_, ?_⟩
    · cases ps with
      | nil =>
        have : l.size = 0 := by simpa using hse
        simp [this]
      | cons x xs =>
        have : l.size ≠ 0 := by
          rw [hse]
          simp
        simp [this, hr.head_eq]
    · simp
    · intro t ht
      have htl := (hr.root t ht).1
      have htlt : t < h.length := by
        obtain ⟨n, hn⟩ := htl
        exact Heap.read_lt hn
      refine ⟨live_of_cargo (hfr t htlt) htl, fun hm => ?_⟩
      rcases List.mem_append.mp hm with hm | hm
      · exact (hr.root t ht).2 hm
      · have : t = h.length := by simpa using hm
        omega
    · intro hnil
      simp at hnil
    · by_cases hfit : l.size + 1 < 2 ^ 32
      · left
        show (l.size + 1) % 2 ^ 32 = _
        rw [Nat.mod_eq_of_lt hfit, hse]
        simp
      · right
        have hmax : l.size + 1 = 2 ^ 32 := by omega
        refine ⟨?_, ?_⟩
        · show (l.size + 1) % 2 ^ 32 = 0
          rw [hmax]
          rfl
        · rw [List.length_append, ← hse]
          simpa using hmax
    · intro p hp
      rcases List.mem_append.mp hp with hm | hm
      · exact Or.inl ⟨hm, hfr p (hlt p hm)⟩
      · have hpe : p = h.length := by simpa using hm
        subst hpe
        exact Or.inr ⟨hnps, hnew⟩
    · intro hh t ht
      obtain ⟨n, hn, hnhead⟩ := hh t ht
      refine ⟨n, by rw [hrd t (Heap.read_lt hn) (hr.root t ht).2, hn], ?_⟩
      cases ps with
      | nil =>
        have hb := hr.bare rfl
        rw [hb] at ht
        cases ht
      | cons x xs =>
        rw [hnhead]
        rfl
  · -- the size field has wrapped to zero: a new list starts behind the old tail
    have hne : ps ≠ [] := fun hnil => by
      rw [hnil] at hfull
      simp at hfull
    obtain ⟨hfirst, hlast⟩ := Seg_append.mp hseg
    rw [prevOf_of_ne_nil hne] at hlast
    obtain ⟨t, ht⟩ : ∃ t, ps.getLast? = some t := by
      cases hq : ps.getLast? with
      | some t => exact ⟨t, rfl⟩
      | none => exact absurd (List.getLast?_eq_none_iff.mp hq) hne
    have htps : t ∈ ps := List.mem_of_getLast?_eq_some ht
    rw [ht] at hlast
    rw [hz] at e
    refine ⟨h', _, some t, [h.length], e, ⟨hlast, rfl, rfl, ?_, ?_⟩, Or.inl rfl,
      Nat.mod_lt _ (by decide), ?_, ?_⟩
    · intro t' ht'
      cases ht'
      refine ⟨hfirst.live t htps, fun hm => ?_⟩
      have : t = h.length := by simpa using hm
      exact hnps (this ▸ htps)
    · intro hnil
      simp at hnil
    · intro p hp
      have hpe : p = h.length := by simpa using hp
      subst hpe
      exact Or.inr ⟨hnps, hnew⟩
    · intro _ t' ht'
      cases ht'
      obtain ⟨-, -, -, -, hbefore, -⟩ := hseg.neighbours
      obtain ⟨m, hm1, hm2⟩ := hbefore t ht
      exact ⟨m, hm1, by rw [hm2]; rfl⟩

/-- `ll_add` with a valid payload in any reachable state. -/
theorem ll_add_inv {h : Heap} {l : linkedList} {prev : Option Nat} {ps : List Nat}
    (hv : Inv h l prev ps) (obj : List Nat) {size : Nat} (hsz : size ≠ 0) :
    ∃ h' l' prev' ps', ll_add h (some l) (some obj) size = some ⟨true, h', some l'⟩ ∧
      Rooted h' l' prev' ps' ∧
      (l'.size = ps'.length ∨ (l'.size = 0 ∧ ps'.length = 2 ^ 32)) ∧ l'.size < 2 ^ 32 ∧
      ∀ p ∈ ps', (p ∈ ps ∧ cargo h' p = cargo h p) ∨
        (p ∉ ps ∧ cargo h' p = some (some (obj.take size), size)) := by
  obtain ⟨h', l', prev', ps', e, hr', hse', hsl', hF, -⟩ := ll_add_inv_hung hv obj hsz
  exact ⟨h', l', prev', ps', e, hr', hse', hsl', hF⟩

/-- Every call, made in a state that satisfies the invariant, returns and leaves a state
that satisfies it; the nodes of the list keep their payloads, and the node the list
hangs from keeps naming the head as its next node. -/
theorem step_inv_hung {h : Heap} {l : linkedList} {prev : Option Nat} {ps : List Nat}
    (hv : Inv h l prev ps) (c : Call) :
    ∃ h' l' prev' ps', step h (some l) c = some (h', some l') ∧ Inv h' l' prev' ps' ∧
      Kept h ps c h' ps' ∧ (Hung h prev ps → Hung h' prev' ps') := by
  have hsame : ∀ c', step h (some l) c' = some (h, some l) →
      ∃ h' l' prev' ps', step h (some l) c' = some (h', some l') ∧ Inv h' l' prev' ps' ∧
        Kept h ps c' h' ps' ∧ (Hung h prev ps → Hung h' prev' ps') :=
    fun c' e => ⟨h, l, prev, ps, e, hv, Kept.same h ps c', fun hh => hh⟩
  cases c with
  | init =>
    exact ⟨h, _, none, [], rfl, inv_empty h, Kept.none _ _ _ _, fun _ _ ht => (by cases ht)⟩
  | add object size =>
    by_cases hc : object = none ∨ size = 0
    · refine hsame _ ?_
      simp [step, ll_add_fail h (some l) object size (Or.inr hc)]
    · push_neg at hc
      obtain ⟨obj, rfl⟩ := Option.ne_none_iff_exists'.mp hc.1
      obtain ⟨h', l', prev', ps', e, hr', hse', hsl', hF, hH⟩ := ll_add_inv_hung hv obj hc.2
      have hk : Kept h ps (Call.add (some obj) size) h' ps' := fun p hp =>
        (hF p hp).imp id fun hn =>
          ⟨hn.1, obj, size, 0, Or.inl rfl, Nat.pos_of_ne_zero hc.2, hn.2⟩
      exact ⟨h', l', prev', ps', by simp [step, e], ⟨hr', hse', hsl', hk.valid hv.valid⟩, hk,
        hH⟩
  | addIndex object size index =>
    by_cases hc : object = none ∨ size = 0 ∨ l.size < index
    · refine hsame _ ?_
      simp [step, ll_addIndex_fail h l object size index hc]
    · push_neg at hc
      obtain ⟨obj, rfl⟩ := Option.ne_none_iff_exists'.mp hc.1
      rcases Nat.lt_or_eq_of_le hc.2.2 with hlt | heq
      · have hse : l.size = ps.length := by
          rcases hv.size_eq with hse | ⟨hz, -⟩
          · exact hse
          · omega
        have hi : index < ps.length := hse ▸ hlt
        obtain ⟨h', e, hr', hlen, hfr, hnew, hH⟩ :=
          ll_addIndex_rooted_hung hv.rooted obj hc.2.1 hi hlt
        have hnps : h.length ∉ ps := fun hm =>
          Nat.lt_irrefl _ (hv.rooted.chain.lt_length _ hm)
        have hk : Kept h ps (Call.addIndex (some obj) size index) h'
            (ps.take index ++ h.length :: ps.drop index) := by
          intro p hp
          simp only [List.mem_append, List.mem_cons] at hp
          have hold : p ∈ ps → p ∈ ps ∧ cargo h' p = cargo h p := fun hm =>
            ⟨hm, hfr p (hv.rooted.chain.lt_length p hm)⟩
          rcases hp with hm | hm | hm
          · exact Or.inl (hold (List.mem_of_mem_take hm))
          · subst hm
            exact Or.inr ⟨hnps, obj, size, index, Or.inr rfl, Nat.pos_of_ne_zero hc.2.1, hnew⟩
          · exact Or.inl (hold (List.mem_of_mem_drop hm))
        refine ⟨h', _, prev, _, by simp [step, e], ⟨hr', ?_, Nat.mod_lt _ (by decide),
          hk.valid hv.valid⟩, hk, hH⟩
        have hlen' : (ps.take index ++ h.length :: ps.drop index).length = ps.length + 1 := by
          simp [List.length_take]
          omega
        rw [hlen']
        by_cases hfit : l.size + 1 < 2 ^ 32
        · left
          show (l.size + 1) % 2 ^ 32 = _
          rw [Nat.mod_eq_of_lt hfit, hse]
        · right
          have hmax : l.size + 1 = 2 ^ 32 := by
            have := hv.size_lt
            omega
          refine ⟨?_, ?_⟩
          · show (l.size + 1) % 2 ^ 32 = 0
            rw [hmax]
            rfl
          · rw [← hse]
            exact hmax
      · have hdel : ll_addIndex h (some l) (some obj) size index =
            ll_add h (some l) (some obj) size := by
          simp [ll_addIndex, heq]
        obtain ⟨h', l', prev', ps', e, hr', hse', hsl', hF, hH⟩ :=
          ll_add_inv_hung hv obj hc.2.1
        have hk : Kept h ps (Call.addIndex (some obj) size index) h' ps' := fun p hp =>
          (hF p hp).imp id fun hn =>
            ⟨hn.1, obj, size, index, Or.inr rfl, Nat.pos_of_ne_zero hc.2.1, hn.2⟩
        exact ⟨h', l', prev', ps', by simp [step, hdel, e],
          ⟨hr', hse', hsl', hk.valid hv.valid⟩, hk, hH⟩
  | remove index =>
    by_cases hi : index < l.size
    · have hse : l.size = ps.length := by
        rcases hv.size_eq with hse | ⟨hz, -⟩
        · exact hse
        · omega
      have hi' : index < ps.length := hse ▸ hi
      obtain ⟨h', l', e, hr', hz, -, hfr, hH⟩ := ll_remove_rooted_hung hv.rooted hse hi'
      have hk : Kept h ps (Call.remove index) h' (ps.eraseIdx index) := fun p hp =>
        Or.inl ⟨List.mem_of_mem_eraseIdx hp, hfr p hp⟩
      refine ⟨h', l', _, _, by simp [step, e], ⟨hr', Or.inl ?_, ?_, hk.valid hv.valid⟩, hk,
        hH⟩
      · rw [hz, hse, List.length_eraseIdx_of_lt hi']
      · have := hv.size_lt
        omega
    · refine hsame _ ?_
      simp [step, ll_remove_fail h l (Nat.le_of_not_lt hi)]
  | get index =>
    refine hsame _ ?_
    by_cases hi : index < l.size
    · have hse : l.size = ps.length := by
        rcases hv.size_eq with hse | ⟨hz, -⟩
        · exact hse
        · omega
      simp [step, ll_get_rooted hv.rooted (hse ▸ hi) hi]
    · simp [step, ll_get_out_of_range h l (Nat.le_of_not_lt hi)]
  | clear =>
    obtain ⟨h', e, -⟩ := ll_clear_rooted hv.rooted
    exact ⟨h', _, none, [], by simp [step, e], inv_empty h', Kept.none _ _ _ _,
      fun _ _ ht => (by cases ht)⟩

/-- Every call, made in a state that satisfies the invariant, returns and leaves a state
that satisfies it; the nodes of the list keep their payloads. -/
theorem step_inv {h : Heap} {l : linkedList} {prev : Option Nat} {ps : List Nat}
    (hv : Inv h l prev ps) (c : Call) :
    ∃ h' l' prev' ps', step h (some l) c = some (h', some l') ∧ Inv h' l' prev' ps' ∧
      Kept h ps c h' ps' := by
  obtain ⟨h', l', prev', ps', e, hv', hk, -⟩ := step_inv_hung hv c
  exact ⟨h', l', prev', ps', e, hv', hk⟩

/-- Every sequence of calls, started in a state that satisfies the invariant and in which
the node the list hangs from names the head as its next node, returns and ends in such a
state. -/
theorem run_inv_hung (cs : List Call) : ∀ {h : Heap} {l : linkedList} {prev : Option Nat}
    {ps : List Nat}, Inv h l prev ps → Hung h prev ps →
    ∃ h' l' prev' ps', run h (some l) cs = some (h', some l') ∧ Inv h' l' prev' ps' ∧
      Hung h' prev' ps' := by
  induction cs with
  | nil => intro h l prev ps hv hh; exact ⟨h, l, prev, ps, rfl, hv, hh⟩
  | cons c cs ih =>
    intro h l prev ps hv hh
    obtain ⟨h1, l1, prev1, ps1, e1, hv1, -, hh1⟩ := step_inv_hung hv c
    obtain ⟨h', l', prev', ps', e, hv', hh'⟩ := ih hv1 (hh1 hh)
    exact ⟨h', l', prev', ps', by simp [run, e1, e], hv', hh'⟩

/-- In a list whose root names the head as its next node every node has both links
mirrored. -/
theorem Rooted.mirrored_of_hung {h : Heap} {l : linkedList} {prev : Option Nat}
    {ps : List Nat} (hr : Rooted h l prev ps) (hh : Hung h prev ps) :
    ∀ p ∈ ps, mirrored h p = true := by
  intro p hp
  obtain ⟨xs, ys, rfl⟩ := List.append_of_mem hp
  obtain ⟨n, h1, h2, h3, h4, h5⟩ := hr.chain.neighbours
  rw [nextOf_none] at h3
  unfold mirrored
  rw [h1]
  simp only [Bool.and_eq_true]
  refine ⟨?_, ?_⟩
  · cases xs with
    | nil =>
      rw [h2, prevOf_nil]
      cases prev with
      | none => rfl
      | some t =>
        obtain ⟨m, hm1, hm2⟩ := hh t rfl
        simp [hm1, hm2]
    | cons x xs =>
      rw [h2, prevOf_of_ne_nil (List.cons_ne_nil x xs)]
      cases hq : (x :: xs).getLast? with
      | none => rfl
      | some q =>
        obtain ⟨m, hm1, hm2⟩ := h4 q hq
        simp [hm1, hm2]
  · cases hq : ys.head? with
    | none => rw [h3, hq]
    | some q =>
      obtain ⟨m, hm1, hm2⟩ := h5 q hq
      rw [h3, hq]
      simp [hm1, hm2]

/-- Every sequence of calls, started in a state that satisfies the invariant, returns and
ends in a state that satisfies it. -/
theorem run_inv (cs : List Call) : ∀ {h : Heap} {l : linkedList} {prev : Option Nat}
    {ps : List Nat}, Inv h l prev ps →
    ∃ h' l' prev' ps', run h (some l) cs = some (h', some l') ∧ Inv h' l' prev' ps' := by
  induction cs with
  | nil => intro h l prev ps hv; exact ⟨h, l, prev, ps, rfl, hv⟩
  | cons c cs ih =>
    intro h l prev ps hv
    obtain ⟨h1, l1, prev1, ps1, e1, hv1, -⟩ := step_inv hv c
    obtain ⟨h', l', prev', ps', e, hv'⟩ := ih hv1
    exact ⟨h', l', prev', ps', by simp [run, e1, e], hv'⟩

/-- Every sequence of calls on a list that `ll_init` has just set up returns. -/
theorem run_from_init (h0 : Heap) (l0 : linkedList) (cs : List Call) :
    ∃ h l prev ps, run h0 (ll_init (some l0)) cs = some (h, some l) ∧ Inv h l prev ps :=
  run_inv cs (inv_empty h0)

/-! ## The states in which the size has wrapped -/

theorem run_append (cs ds : List Call) : ∀ (h : Heap) (list : Option linkedList),
    run h list (cs ++ ds) = (run h list cs).bind fun s => run s.1 s.2 ds := by
  induction cs with
  | nil => intro h list; rfl
  | cons c cs ih =>
    intro h list
    cases hs : step h list c with
    | none => simp [run, hs]
    | some s => simp [run, hs, ih]

theorem appends_succ (n : Nat) : appends (n + 1) = Call.add (some [0]) 1 :: appends n :=
  List.replicate_succ _ _

theorem appends_snoc (n : Nat) : appends (n + 1) = appends n ++ [Call.add (some [0]) 1] :=
  List.replicate_succ' _ _

/-- A run of one-byte appends that does not reach the largest size. -/
theorem run_appends (n : Nat) : ∀ {h : Heap} {l : linkedList} {ps : List Nat},
    IsList h l ps → l.size + n < 2 ^ 32 → (∀ p ∈ ps, cargo h p = some (some [0], 1)) →
    ∃ h' l' ps', run h (some l) (appends n) = some (h', some l') ∧ IsList h' l' ps' ∧
      l'.size = l.size + n ∧ ∀ p ∈ ps', cargo h' p = some (some [0], 1) := by
  induction n with
  | zero => intro h l ps hl _ hc; exact ⟨h, l, ps, rfl, hl, rfl, hc⟩
  | succ n ih =>
    intro h l ps hl hN hc
    obtain ⟨h1, l1, e1, s1, z1, -, c1, n1, -⟩ := ll_add_ok hl [0] (show (1 : Nat) ≠ 0 by decide)
    have hz1 : l1.size = l.size + 1 := by rw [z1, Nat.mod_eq_of_lt (by omega)]
    have hl1 : IsList h1 l1 (ps ++ [h.length]) := ⟨s1, by rw [hz1, hl.size_eq]; simp⟩
    have hc1 : ∀ p ∈ ps ++ [h.length], cargo h1 p = some (some [0], 1) := by
      intro p hp
      rcases List.mem_append.mp hp with hm | hm
      · rw [c1 p (hl.shape.chain.lt_length p hm)]
        exact hc p hm
      · have hpe : p = h.length := by simpa using hm
        rw [hpe]
        exact n1
    obtain ⟨h', l', ps', e, hl', z', hc'⟩ := ih hl1 (by omega) hc1
    refine ⟨h', l', ps', ?_, hl', by omega, hc'⟩
    rw [appends_succ]
    simp [run, step, e1, e]

/-- After `2 ^ 32` appends to an initialised empty list the chain holds `2 ^ 32` nodes
and the size field is zero. -/
theorem wrapped_state :
    ∃ h l ps, run [] (ll_init (some ⟨none, none, 0⟩)) (appends 4294967296) =
        some (h, some l) ∧
      Shape h l ps ∧ l.size = 0 ∧ ps.length = 4294967296 ∧
      ∀ p ∈ ps, cargo h p = some (some [0], 1) := by
  obtain ⟨h1, l1, ps1, e1, hl1, z1, hc1⟩ := run_appends 4294967295 (isList_empty [])
    (show 0 + 4294967295 < 2 ^ 32 by decide) (fun _ hp => absurd hp (List.not_mem_nil _))
  obtain ⟨h2, l2, e2, s2, z2, -, c2, n2, -⟩ := ll_add_ok hl1 [0] (show (1 : Nat) ≠ 0 by decide)
  refine ⟨h2, l2, ps1 ++ [h1.length], ?_, s2, ?_, ?_, ?_⟩
  · rw [show (4294967296 : Nat) = 4294967295 + 1 from rfl, appends_snoc, run_append]
    have e1' : run [] (ll_init (some ⟨none, none, 0⟩)) (appends 4294967295) =
        some (h1, some l1) := e1
    rw [e1']
    simp [run, step, e2]
  · rw [z2, z1]
    rfl
  · rw [List.length_append, ← hl1.size_eq, z1]
    rfl
  · intro p hp
    rcases List.mem_append.mp hp with hm | hm
    · rw [c2 p (hl1.shape.chain.lt_length p hm)]
      exact hc1 p hm
    · have hpe : p = h1.length := by simpa using hm
      rw [hpe]
      exact n2

/-- `ll_add` on a list with nodes whose size field is zero: the new node becomes head and
tail, and its `prevNode` is the old tail. -/
theorem ll_add_wrapped {h : Heap} {l : linkedList} {prev : Option Nat} {ps : List Nat}
    (hr : Rooted h l prev ps) (hz : l.size = 0) (hne : ps ≠ []) (obj : List Nat)
    {size : Nat} (hsz : size ≠ 0) :
    ∃ h' t, ll_add h (some l) (some obj) size =
        some ⟨true, h', some ⟨some h.length, some h.length, 1⟩⟩ ∧
      Rooted h' ⟨some h.length, some h.length, 1⟩ (some t) [h.length] := by
  obtain ⟨h', e, hseg, -⟩ := ll_add_rooted hr obj hsz
  have hnps : h.length ∉ ps := fun hm => Nat.lt_irrefl _ (hr.chain.lt_length _ hm)
  obtain ⟨hfirst, hlast⟩ := Seg_append.mp hseg
  rw [prevOf_of_ne_nil hne] at hlast
  obtain ⟨t, ht⟩ : ∃ t, ps.getLast? = some t := by
    cases hq : ps.getLast? with
    | some t => exact ⟨t, rfl⟩
    | none => exact absurd (List.getLast?_eq_none_iff.mp hq) hne
  have htps : t ∈ ps := List.mem_of_getLast?_eq_some ht
  rw [ht] at hlast
  rw [hz] at e
  refine ⟨h', t, e, hlast, rfl, rfl, ?_, ?_⟩
  · intro t' ht'
    cases ht'
    refine ⟨hfirst.live t htps, fun hm => ?_⟩
    have : t = h.length := by simpa using hm
    exact hnps (this ▸ htps)
  · intro hnil
    simp at hnil

/-- After `2 ^ 32 + 1` appends to an initialised empty list the size field is one, head
and tail are the newest node, and that node still has the old tail as its `prevNode`. -/
theorem rewrapped_state :
    ∃ h l p t n, run [] (ll_init (some ⟨none, none, 0⟩)) (appends 4294967297) =
        some (h, some l) ∧
      l = ⟨some p, some p, 1⟩ ∧ h.read p = some n ∧ n.prevNode = some t ∧
      n.nextNode = none ∧ (∃ m, h.read t = some m) ∧ p < h.length := by
  obtain ⟨h1, l1, ps1, e1, s1, z1, len1, -⟩ := wrapped_state
  have hne : ps1 ≠ [] := fun hnil => by
    rw [hnil] at len1
    simp at len1
  obtain ⟨h2, t, e2, hr2⟩ := ll_add_wrapped s1.rooted z1 hne [0] (show (1 : Nat) ≠ 0 by decide)
  obtain ⟨n, hn1, hn2, hn3⟩ := Seg_singleton.mp hr2.chain
  refine ⟨h2, _, h1.length, t, n, ?_, rfl, hn1, hn2, hn3, (hr2.root t rfl).1,
    Heap.read_lt hn1⟩
  rw [show (4294967297 : Nat) = 4294967296 + 1 from rfl, appends_snoc, run_append, e1]
  simp [run, step, e2]

theorem walkPrev_ne_nil (h : Heap) (fuel t : Nat) : walkPrev h fuel (some t) ≠ some [] := by
  cases fuel with
  | zero => simp [walkPrev]
  | succ f =>
    cases hr : h.read t with
    | none => simp [walkPrev, hr]
    | some n =>
      cases hw : walkPrev h f n.prevNode with
      | none => simp [walkPrev, hr, hw]
      | some rest => simp [walkPrev, hr, hw]

/-! ## The scenario, call by call -/

theorem scenarioFilled_eq (x : Nat) (l0 : linkedList) :
    scenarioFilled x l0 = some ⟨true, heapFilled x, some ⟨some 0, some 4, 5⟩⟩ := rfl

theorem scenarioCut_eq (x : Nat) (l0 : linkedList) :
    scenarioCut x l0 = some ⟨true, heapCut x, some ⟨some 0, some 3, 4⟩⟩ := by
  rw [scenarioCut, scenarioFilled_eq]
  rfl

theorem scenarioEnd_eq (x : Nat) (l0 : linkedList) :
    scenarioEnd x l0 = some ⟨true, heapEnd x, some ⟨some 1, some 3, 3⟩⟩ := by
  rw [scenarioEnd, scenarioCut_eq]
  rfl

/-! ## Properties of well-formed lists -/

theorem Shape.all_mirrored {h : Heap} {l : linkedList} {ps : List Nat} (hs : Shape h l ps) :
    ∀ p ∈ nodes h l, mirrored h p = true := by
  rw [hs.rooted.nodes_eq]
  intro p hp
  obtain ⟨xs, ys, rfl⟩ := List.append_of_mem hp
  obtain ⟨n, h1, h2, h3, h4, h5⟩ := hs.chain.neighbours
  rw [prevOf_none] at h2
  rw [nextOf_none] at h3
  unfold mirrored
  rw [h1]
  simp only [Bool.and_eq_true]
  refine ⟨?_, ?_⟩
  · cases hq : xs.getLast? with
    | none => rw [h2, hq]
    | some q =>
      obtain ⟨m, hm1, hm2⟩ := h4 q hq
      rw [h2, hq]
      simp [hm1, hm2]
  · cases hq : ys.head? with
    | none => rw [h3, hq]
    | some q =>
      obtain ⟨m, hm1, hm2⟩ := h5 q hq
      rw [h3, hq]
      simp [hm1, hm2]

theorem IsList.empty_iff {h : Heap} {l : linkedList} {ps : List Nat} (hl : IsList h l ps) :
    (l.size = 0 ↔ l.head = none) ∧ (l.head = none ↔ l.tail = none) := by
  rw [hl.size_eq, hl.shape.head_eq, hl.shape.tail_eq]
  cases ps with
  | nil => simp
  | cons p ps => simp [List.getLast?_eq_none_iff]

/-- The first node of a chain has the chain's outer `prevNode`, the last one no
`nextNode`. -/
theorem Seg.end_nodes {h : Heap} {ps : List Nat} {prev : Option Nat} (hs : Seg h prev ps none)
    (hne : ps ≠ []) :
    ∃ hd tl hn tn, ps.head? = some hd ∧ ps.getLast? = some tl ∧ h.read hd = some hn ∧
      hn.prevNode = prev ∧ h.read tl = some tn ∧ tn.nextNode = none := by
  rcases List.eq_nil_or_concat ps with rfl | ⟨init, t, hps⟩
  · exact absurd rfl hne
  · rw [List.concat_eq_append] at hps
    cases ps with
    | nil => exact absurd rfl hne
    | cons p rest =>
      obtain ⟨hn, hp1, hp2, -⟩ := Seg_cons.mp hs
      obtain ⟨tn, ht1, -, ht3⟩ := Seg_singleton.mp (Seg_append.mp (hps ▸ hs)).2
      refine ⟨p, t, hn, tn, rfl, ?_, hp1, hp2, ht1, ht3⟩
      rw [hps]
      simp

/-- In a state that satisfies the invariant with a size field that is not zero, index 0
is the head and index `size - 1` is the tail, for the positioning loop and for `ll_get`. -/
theorem Inv.end_index {h : Heap} {l : linkedList} {prev : Option Nat} {ps : List Nat}
    (hv : Inv h l prev ps) (hz : l.size ≠ 0) :
    ∃ hd tl, l.head = some hd ∧ l.tail = some tl ∧
      advance h 0 (ll_getIterator (some l)) = some (some ⟨some hd⟩) ∧
      advance h (l.size - 1) (ll_getIterator (some l)) = some (some ⟨some tl⟩) ∧
      ll_get h (some l) 0 = some ⟨payload h hd, h, some l⟩ ∧
      ll_get h (some l) (l.size - 1) = some ⟨payload h tl, h, some l⟩ ∧
      ∃ n, h.read tl = some n ∧ n.nextNode = none := by
  have hse : l.size = ps.length := by
    rcases hv.size_eq with hse | ⟨hz', -⟩
    · exact hse
    · exact absurd hz' hz
  have hne : ps ≠ [] := fun hnil => hz (by rw [hse, hnil]; rfl)
  have hpos : 0 < ps.length := List.length_pos.mpr hne
  have hlast : ps.length - 1 < ps.length := by omega
  obtain ⟨hd, tl, hn, tn, e1, e2, -, -, e5, e6⟩ := hv.rooted.chain.end_nodes hne
  have hiter := ll_getIterator_of_rooted hv.rooted
  have hd0 : ps[0] = hd := by
    cases ps with
    | nil => exact absurd rfl hne
    | cons p rest => simpa using e1
  have htl : ps[ps.length - 1] = tl := by
    rw [List.getLast?_eq_getElem?, List.getElem?_eq_getElem hlast] at e2
    exact Option.some.inj e2
  have hdrop0 : nextOf ps none = some hd := by rw [nextOf_none, e1]
  have hdropl : nextOf (ps.drop (ps.length - 1)) none = some tl := by
    rw [nextOf_none, List.drop_eq_getElem_cons hlast, htl]
    rfl
  refine ⟨hd, tl, by rw [hv.rooted.head_eq, e1], by rw [hv.rooted.tail_eq, e2], ?_, ?_, ?_, ?_,
    tn, e5, e6⟩
  · rw [hiter, hdrop0]
    rfl
  · rw [hiter, hse, advance_seg hv.rooted.chain _ (Nat.le_of_lt hlast), hdropl]
  · rw [ll_get_rooted hv.rooted hpos (by omega), hd0]
  · rw [hse, ll_get_rooted hv.rooted hlast (by omega), htl]

theorem nexts_exhausted (h : Heap) {iter : Option linkedListIterator}
    (hx : ll_hasNext iter = false) (k : Nat) :
    nexts h k iter = some (List.replicate k none, iter) := by
  have hn : ll_next h iter = some (none, iter) := by
    cases iter with
    | none => rfl
    | some it =>
      obtain ⟨c⟩ := it
      cases c with
      | none => rfl
      | some c => simp [ll_hasNext] at hx
  induction k with
  | zero => rfl
  | succ k ih => simp [nexts, hn, ih, List.replicate_succ]

/-! ## The positioning loop with its counter -/

/-- The loop with its wrapping counter makes exactly the `index` calls of `advance`. -/
theorem positionLoop_eq_advance (h : Heap) {index : Nat} (hb : index < 2 ^ 32) (k : Nat) :
    ∀ (i fuel : Nat) (iter : Option linkedListIterator), i + k = index → k ≤ fuel →
      positionLoop h index fuel i iter = (advance h k iter).map fun it => (k, it) := by
  induction k with
  | zero =>
    intro i fuel iter hik _
    have hni : ¬ i < index := by omega
    cases fuel <;> simp [positionLoop, hni, advance]
  | succ k ih =>
    intro i fuel iter hik hf
    have hi : i < index := by omega
    obtain ⟨f, rfl⟩ : ∃ f, fuel = f + 1 := ⟨fuel - 1, by omega⟩
    have hmod : (i + 1) % 2 ^ 32 = i + 1 := Nat.mod_eq_of_lt (by omega)
    cases hn : ll_next h iter with
    | none => simp [positionLoop, hi, advance, hn]
    | some r =>
      have := ih (i + 1) f r.2 (by omega) (by omega)
      simp only [positionLoop, hi, if_true, hn, hmod, this, advance, Option.bind_eq_bind,
        Option.some_bind, Option.pure_def]
      cases advance h k r.2 <;> rfl

theorem eraseIdx_insert (ps : List Nat) (a : Nat) {i : Nat} (hi : i ≤ ps.length) :
    (ps.take i ++ a :: ps.drop i).eraseIdx i = ps := by
  have hlen : (ps.take i).length = i := by simp [List.length_take, hi]
  rw [List.eraseIdx_append_of_length_le (by omega), hlen, Nat.sub_self]
  simp

theorem Rooted.walk_nodes {h : Heap} {l : linkedList} {prev : Option Nat} {ps : List Nat}
    (hr : Rooted h l prev ps) : walkNext h h.length l.head = some (nodes h l) := by
  rw [hr.nodes_eq]
  exact hr.walk

/-! ## The claims -/

/-- C1 (amended): on a well-formed list, with a present buffer and `size > 0`, `ll_add`
returns true; the nodes from head to tail are the old ones followed by the new node, the
payload sequence is the old one followed by the first `size` bytes of the buffer, the new
node is the tail, and the size field becomes `(old size + 1) mod 2^32`, which is the old
size plus one whenever the old size is below `2^32 - 1`. -/
theorem ll_add_appends (h : Heap) (l : linkedList) (ps : List Nat) (obj : List Nat) (size : Nat)
    (hl : IsList h l ps) (hsz : 0 < size) :
    ∃ h' l' ps', ll_add h (some l) (some obj) size = some ⟨true, h', some l'⟩ ∧
      ps' = ps ++ [h.length] ∧ Shape h' l' ps' ∧
      payloads h' ps' = payloads h ps ++ [some (obj.take size)] ∧
      l'.tail = some h.length ∧ payload h' h.length = some (obj.take size) ∧
      l'.size = (l.size + 1) % 2 ^ 32 ∧
      (l.size < 2 ^ 32 - 1 → l'.size = l.size + 1 ∧ IsList h' l' ps') := by
  obtain ⟨h', l', e, hs, hz, -, hc, hn, -⟩ := ll_add_ok hl obj (Nat.pos_iff_ne_zero.mp hsz)
  refine ⟨h', l', _, e, rfl, hs, ?_, ?_, payload_of_cargo hn, hz, fun hfit => ?_⟩
  · have := payloads_insert (fun p hp => hc p (hl.shape.chain.lt_length p hp)) hn ps.length
    have hlen : (payloads h ps).length = ps.length := by simp [payloads]
    rw [List.take_length, List.drop_length, ← hlen, List.take_length, List.drop_length] at this
    exact this
  · simpa using hs.tail_eq
  · have : l'.size = l.size + 1 := by rw [hz, Nat.mod_eq_of_lt (by omega)]
    exact ⟨this, hs, by rw [this, hl.size_eq]; simp⟩

/-- C1 (amended) at the two-element list `demoList`, appending two bytes of `[7, 8, 9]`. -/
theorem ll_add_appends_witness :
    ∃ h' l' ps', ll_add demoHeap (some demoList) (some [7, 8, 9]) 2 = some ⟨true, h', some l'⟩ ∧
      ps' = [0, 1] ++ [demoHeap.length] ∧ Shape h' l' ps' ∧
      payloads h' ps' = payloads demoHeap [0, 1] ++ [some ([7, 8, 9].take 2)] ∧
      l'.tail = some demoHeap.length ∧ payload h' demoHeap.length = some ([7, 8, 9].take 2) ∧
      l'.size = (demoList.size + 1) % 2 ^ 32 ∧
      (demoList.size < 2 ^ 32 - 1 → l'.size = demoList.size + 1 ∧ IsList h' l' ps') :=
  ll_add_appends demoHeap demoList [0, 1] [7, 8, 9] 2 (by decide) (by decide)

/-- C1 as stated fails on the well-formed list of `2^32 - 1` nodes: `ll_add` returns
true and appends the node, but the 32-bit size field wraps to `0` instead of becoming the
old size plus one. -/
theorem ll_add_size_wraps :
    IsList (chainHeap 4294967295) (chainList 4294967295) (List.range 4294967295) ∧
    (chainList 4294967295).size = 4294967295 ∧
    ∃ h' l', ll_add (chainHeap 4294967295) (some (chainList 4294967295)) (some [0]) 1 =
        some ⟨true, h', some l'⟩ ∧
      l'.size = 0 ∧ l'.size ≠ (chainList 4294967295).size + 1 := by
  refine ⟨chain_isList _, rfl, ?_⟩
  obtain ⟨h', l', e, -, hz, -⟩ :=
    ll_add_ok (chain_isList 4294967295) [0] (show (1 : Nat) ≠ 0 by decide)
  have h0 : l'.size = 0 := by
    rw [hz]
    rfl
  refine ⟨h', l', e, h0, ?_⟩
  rw [h0]
  exact Nat.succ_ne_zero _ |>.symm

/-- C2 (amended): on a well-formed list, with a present buffer, `size > 0` and
`index < count`, `ll_addIndex` returns true and the payload sequence afterwards is the
old one with the new payload inserted at position `index`: positions below `index` are
unchanged, position `index` holds the new payload, every element formerly at `j ≥ index`
is at `j + 1`; the size field becomes `(old size + 1) mod 2^32`, which is the old size
plus one whenever the old size is below `2^32 - 1`. -/
theorem ll_addIndex_inserts (h : Heap) (l : linkedList) (ps : List Nat) (obj : List Nat)
    (size index : Nat) (hl : IsList h l ps) (hsz : 0 < size) (hi : index < l.size) :
    ∃ h' l' ps', ll_addIndex h (some l) (some obj) size index = some ⟨true, h', some l'⟩ ∧
      ps' = ps.take index ++ h.length :: ps.drop index ∧ Shape h' l' ps' ∧
      payloads h' ps' =
        (payloads h ps).take index ++ some (obj.take size) :: (payloads h ps).drop index ∧
      (∀ j, j < index → (payloads h' ps')[j]? = (payloads h ps)[j]?) ∧
      (payloads h' ps')[index]? = some (some (obj.take size)) ∧
      (∀ j, index ≤ j → (payloads h' ps')[j + 1]? = (payloads h ps)[j]?) ∧
      l'.size = (l.size + 1) % 2 ^ 32 ∧
      (l.size < 2 ^ 32 - 1 → l'.size = l.size + 1 ∧ IsList h' l' ps') := by
  have hi' : index < ps.length := hl.size_eq ▸ hi
  obtain ⟨h', l', e, hs, hz, -, hc, hn, -⟩ :=
    ll_addIndex_ok hl obj (Nat.pos_iff_ne_zero.mp hsz) hi'
  have hpay := payloads_insert (fun p hp => hc p (hl.shape.chain.lt_length p hp)) hn index
  have hidx := insert_getElem? (payloads h ps) (some (obj.take size)) index
    (by simp [payloads]; omega)
  refine ⟨h', l', _, e, rfl, hs, hpay, ?_, ?_, ?_, hz, fun hfit => ?_⟩
  · rw [hpay]
    exact hidx.1
  · rw [hpay]
    exact hidx.2.1
  · rw [hpay]
    exact hidx.2.2
  · have : l'.size = l.size + 1 := by rw [hz, Nat.mod_eq_of_lt (by omega)]
    refine ⟨this, hs, ?_⟩
    rw [this, hl.size_eq]
    simp [List.length_take]
    omega

/-- C2 (amended) at the two-element list `demoList`, inserting at index 1. -/
theorem ll_addIndex_inserts_witness :
    ∃ h' l' ps', ll_addIndex demoHeap (some demoList) (some [7, 8, 9]) 2 1 =
        some ⟨true, h', some l'⟩ ∧
      ps' = [0, 1].take 1 ++ demoHeap.length :: [0, 1].drop 1 ∧ Shape h' l' ps' ∧
      payloads h' ps' =
        (payloads demoHeap [0, 1]).take 1 ++
          some ([7, 8, 9].take 2) :: (payloads demoHeap [0, 1]).drop 1 ∧
      (∀ j, j < 1 → (payloads h' ps')[j]? = (payloads demoHeap [0, 1])[j]?) ∧
      (payloads h' ps')[1]? = some (some ([7, 8, 9].take 2)) ∧
      (∀ j, 1 ≤ j → (payloads h' ps')[j + 1]? = (payloads demoHeap [0, 1])[j]?) ∧
      l'.size = (demoList.size + 1) % 2 ^ 32 ∧
      (demoList.size < 2 ^ 32 - 1 → l'.size = demoList.size + 1 ∧ IsList h' l' ps') :=
  ll_addIndex_inserts demoHeap demoList [0, 1] [7, 8, 9] 2 1 (by decide) (by decide) (by decide)

/-- C2 as stated fails on the well-formed list of `2^32 - 1` nodes: `ll_addIndex` at
index `0` returns true and splices the node in, but the 32-bit size field wraps to `0`
instead of growing by one. -/
theorem ll_addIndex_size_wraps :
    IsList (chainHeap 4294967295) (chainList 4294967295) (List.range 4294967295) ∧
    (chainList 4294967295).size = 4294967295 ∧
    ∃ h' l', ll_addIndex (chainHeap 4294967295) (some (chainList 4294967295)) (some [0]) 1 0 =
        some ⟨true, h', some l'⟩ ∧
      l'.size = 0 ∧ l'.size ≠ (chainList 4294967295).size + 1 := by
  refine ⟨chain_isList _, rfl, ?_⟩
  obtain ⟨h', l', e, -, hz, -⟩ :=
    ll_addIndex_ok (chain_isList 4294967295) [0] (show (1 : Nat) ≠ 0 by decide)
      (show 0 < (List.range 4294967295).length by rw [List.length_range]; decide)
  have h0 : l'.size = 0 := by
    rw [hz]
    rfl
  refine ⟨h', l', e, h0, ?_⟩
  rw [h0]
  exact Nat.succ_ne_zero _ |>.symm

/-- C3: on a well-formed list with `index < count`, `ll_remove` returns true, the list
stays well formed, its payload sequence is the old one with exactly the element at
position `index` deleted, and the size is the old size minus one. -/
theorem ll_remove_deletes (h : Heap) (l : linkedList) (ps : List Nat) (index : Nat)
    (hl : IsList h l ps) (hi : index < l.size) :
    ∃ h' l', ll_remove h (some l) index = some ⟨true, h', some l'⟩ ∧
      IsList h' l' (ps.eraseIdx index) ∧
      payloads h' (ps.eraseIdx index) = (payloads h ps).eraseIdx index ∧
      l'.size = l.size - 1 := by
  have hi' : index < ps.length := hl.size_eq ▸ hi
  obtain ⟨h', l', e, hs, hz, -, -, hc, -⟩ := ll_remove_ok hl hi'
  refine ⟨h', l', e, ⟨hs, ?_⟩, payloads_eraseIdx hc, hz⟩
  rw [hz, hl.size_eq, List.length_eraseIdx_of_lt hi']

/-- C3 at the two-element list `demoList`, removing index 0. -/
theorem ll_remove_deletes_witness :
    ∃ h' l', ll_remove demoHeap (some demoList) 0 = some ⟨true, h', some l'⟩ ∧
      IsList h' l' ([0, 1].eraseIdx 0) ∧
      payloads h' ([0, 1].eraseIdx 0) = (payloads demoHeap [0, 1]).eraseIdx 0 ∧
      l'.size = demoList.size - 1 :=
  ll_remove_deletes demoHeap demoList [0, 1] 0 (by decide) (by decide)

/-- C4: on a well-formed list, `ll_get` at an index below the count returns the payload
of the node reached by `index` steps of the iterator from head, which is the node with
that index in the head-to-tail chain, and leaves heap and list as they were; at an index
`≥ count`, or on an absent list handle, it returns `NULL`. -/
theorem ll_get_spec (h : Heap) (l : linkedList) (ps : List Nat) (index : Nat)
    (hl : IsList h l ps) :
    (∀ hi : index < ps.length,
      advance h index (ll_getIterator (some l)) = some (some ⟨some ps[index]⟩) ∧
      ll_get h (some l) index = some ⟨payload h ps[index], h, some l⟩ ∧
      (payloads h ps)[index]? = some (payload h ps[index])) ∧
    (l.size ≤ index → ll_get h (some l) index = some ⟨none, h, some l⟩) ∧
    ll_get h none index = some ⟨none, h, none⟩ := by
  refine ⟨fun hi => ⟨advance_to_index hl.shape hi, ll_get_ok hl hi, ?_⟩,
    ll_get_out_of_range h l, rfl⟩
  simp [payloads, List.getElem?_eq_getElem hi]

/-- C4 at the two-element list `demoList` and index 1. -/
theorem ll_get_spec_witness :
    (∀ hi : 1 < [0, 1].length,
      advance demoHeap 1 (ll_getIterator (some demoList)) = some (some ⟨some [0, 1][1]⟩) ∧
      ll_get demoHeap (some demoList) 1 = some ⟨payload demoHeap [0, 1][1], demoHeap,
        some demoList⟩ ∧
      (payloads demoHeap [0, 1])[1]? = some (payload demoHeap [0, 1][1])) ∧
    (demoList.size ≤ 1 → ll_get demoHeap (some demoList) 1 = some ⟨none, demoHeap,
      some demoList⟩) ∧
    ll_get demoHeap none 1 = some ⟨none, demoHeap, none⟩ :=
  ll_get_spec demoHeap demoList [0, 1] 1 (by decide)

/-- C5: `ll_add` returns false, leaving heap and list untouched, when the list handle is
absent, the buffer is absent or the length is 0; whenever it returns, it returns false
only in those cases and then heap and list are unchanged; and on a well-formed list with
a present buffer and a nonzero length it returns true. -/
theorem ll_add_fails_iff (h : Heap) (list : Option linkedList) (object : Option (List Nat))
    (size : Nat) :
    ((list = none ∨ object = none ∨ size = 0) →
      ll_add h list object size = some ⟨false, h, list⟩) ∧
    (∀ r, ll_add h list object size = some r →
      (r.ret = false ↔ (list = none ∨ object = none ∨ size = 0)) ∧
      (r.ret = false → r.heap = h ∧ r.list = list)) ∧
    (∀ l ps obj, list = some l → object = some obj → IsList h l ps → size ≠ 0 →
      ∃ h' l', ll_add h list object size = some ⟨true, h', some l'⟩) := by
  have hfail : (list = none ∨ object = none ∨ size = 0) →
      ll_add h list object size = some ⟨false, h, list⟩ := by
    rintro (rfl | rfl | rfl)
    · rfl
    · cases list <;> rfl
    · cases list <;> cases object <;> simp [ll_add]
  refine ⟨hfail, fun r hr => ?_, ?_⟩
  · by_cases hc : list = none ∨ object = none ∨ size = 0
    · rw [hfail hc] at hr
      cases hr
      exact ⟨⟨fun _ => hc, fun _ => rfl⟩, fun _ => ⟨rfl, rfl⟩⟩
    · have hret : r.ret = true := by
        push_neg at hc
        obtain ⟨l, rfl⟩ := Option.ne_none_iff_exists'.mp hc.1
        obtain ⟨obj, rfl⟩ := Option.ne_none_iff_exists'.mp hc.2.1
        simp only [ll_add, hc.2.2, ne_eq, not_false_eq_true, if_true, Option.bind_eq_bind,
          Option.bind_eq_some, Option.pure_def, Option.some.injEq] at hr
        obtain ⟨_, -, rfl⟩ := hr
        rfl
      simp [hret, hc]
  · rintro l ps obj rfl rfl hl hsz
    obtain ⟨h', l', e, -⟩ := ll_add_ok hl obj hsz
    exact ⟨h', l', e⟩

/-- C6: `ll_addIndex` returns false and leaves heap and list unchanged when the list
handle is absent, the buffer is absent, the length is 0 or `index > count`; on a
well-formed list, with a present buffer, `size > 0` and `index ≤ count`, it returns
true. -/
theorem ll_addIndex_fails_or_succeeds (h : Heap) (list : Option linkedList)
    (object : Option (List Nat)) (size index : Nat) :
    ((list = none ∨ object = none ∨ size = 0 ∨ ∃ l, list = some l ∧ l.size < index) →
      ll_addIndex h list object size index = some ⟨false, h, list⟩) ∧
    (∀ l ps obj, list = some l → object = some obj → IsList h l ps → 0 < size →
      index ≤ l.size →
      ∃ h' l', ll_addIndex h list object size index = some ⟨true, h', some l'⟩) := by
  constructor
  · intro hc
    cases list with
    | none => rfl
    | some l =>
      have hadd : (object = none ∨ size = 0) →
          ll_add h (some l) object size = some ⟨false, h, some l⟩ := fun hc' =>
        by
          rcases hc' with rfl | rfl
          · rfl
          · cases object <;> simp [ll_add]
      rcases hc with hc | rfl | rfl | ⟨l', hl', hlt⟩
      · cases hc
      · by_cases hidx : index = l.size
        · simp [ll_addIndex, hidx, hadd]
        · simp [ll_addIndex, hidx]
      · by_cases hidx : index = l.size
        · cases object <;> simp [ll_addIndex, hidx, hadd]
        · cases object <;> simp [ll_addIndex, hidx]
      · cases hl'
        have h1 : ¬ index < l.size := by omega
        have h2 : index ≠ l.size := by omega
        cases object <;> simp [ll_addIndex, h1, h2]
  · rintro l ps obj rfl rfl hl hsz hi
    obtain ⟨h', l', e, -⟩ :=
      ll_addIndex_le_ok hl obj (Nat.pos_iff_ne_zero.mp hsz) (hl.size_eq ▸ hi)
    exact ⟨h', l', e⟩

/-- C7: `ll_remove` returns false, leaving heap and list untouched, when the list handle
is absent or `index ≥ count` (every index on an empty list); whenever it returns, it
returns false only in those cases and then heap and list are unchanged; and on a
well-formed list with `index < count` it returns true. -/
theorem ll_remove_fails_iff (h : Heap) (list : Option linkedList) (index : Nat) :
    ((list = none ∨ ∃ l, list = some l ∧ l.size ≤ index) →
      ll_remove h list index = some ⟨false, h, list⟩) ∧
    (∀ l, list = some l → l.size = 0 → ll_remove h list index = some ⟨false, h, list⟩) ∧
    (∀ r, ll_remove h list index = some r →
      (r.ret = false ↔ (list = none ∨ ∃ l, list = some l ∧ l.size ≤ index)) ∧
      (r.ret = false → r.heap = h ∧ r.list = list)) ∧
    (∀ l ps, list = some l → IsList h l ps → index < l.size →
      ∃ h' l', ll_remove h list index = some ⟨true, h', some l'⟩) := by
  have hfail : (list = none ∨ ∃ l, list = some l ∧ l.size ≤ index) →
      ll_remove h list index = some ⟨false, h, list⟩ := by
    rintro (rfl | ⟨l, rfl, hle⟩)
    · rfl
    · simp [ll_remove, Nat.not_lt.mpr hle]
  refine ⟨hfail, fun l hl h0 => hfail (Or.inr ⟨l, hl, by omega⟩), fun r hr => ?_, ?_⟩
  · by_cases hc : list = none ∨ ∃ l, list = some l ∧ l.size ≤ index
    · rw [hfail hc] at hr
      cases hr
      exact ⟨⟨fun _ => hc, fun _ => rfl⟩, fun _ => ⟨rfl, rfl⟩⟩
    · have hret : r.ret = true := by
        push_neg at hc
        obtain ⟨l, rfl⟩ := Option.ne_none_iff_exists'.mp hc.1
        have hlt : index < l.size := hc.2 l rfl
        simp only [ll_remove, hlt, if_true, Option.bind_eq_bind,
          Option.bind_eq_some, Option.pure_def, Option.some.injEq] at hr
        obtain ⟨_, -, _, -, _, -, _, -, _, -, _, -, _, -, _, -, _, -, rfl⟩ := hr
        rfl
      simp [hret, hc]
  · rintro l ps rfl hl hi
    obtain ⟨h', l', e, -⟩ := ll_remove_ok hl (hl.size_eq ▸ hi)
    exact ⟨h', l', e⟩

/-- C8: for every present list, every buffer (present or absent) and every length (zero
or not), `ll_addIndex` with `index` equal to the list's current size returns exactly what
`ll_add` returns: the same result, heap and list structure. -/
theorem ll_addIndex_at_size_eq_ll_add (h : Heap) (l : linkedList) (object : Option (List Nat))
    (size : Nat) :
    ll_addIndex h (some l) object size l.size = ll_add h (some l) object size := by
  cases object <;> simp [ll_addIndex]

/-- C9 (amended): on a well-formed list whose count is below `2^32 - 1`, with a present
buffer, `size > 0` and `i ≤ count`, `ll_addIndex` at `i` returns true and a following
`ll_get` at `i` returns exactly the first `size` bytes of the buffer. -/
theorem ll_get_after_ll_addIndex (h : Heap) (l : linkedList) (ps : List Nat) (obj : List Nat)
    (size i : Nat) (hl : IsList h l ps) (hsz : 0 < size) (hi : i ≤ l.size)
    (hfit : l.size < 2 ^ 32 - 1) :
    ∃ h' l', ll_addIndex h (some l) (some obj) size i = some ⟨true, h', some l'⟩ ∧
      ll_get h' (some l') i = some ⟨some (obj.take size), h', some l'⟩ := by
  have hi' : i ≤ ps.length := hl.size_eq ▸ hi
  obtain ⟨h', l', e, hs, hz, -, -, hn, -⟩ :=
    ll_addIndex_le_ok hl obj (Nat.pos_iff_ne_zero.mp hsz) hi'
  have hlen : (ps.take i ++ h.length :: ps.drop i).length = ps.length + 1 := by
    simp [List.length_take]
    omega
  have hl' : IsList h' l' (ps.take i ++ h.length :: ps.drop i) :=
    ⟨hs, by rw [hz, Nat.mod_eq_of_lt (by omega), hlen, hl.size_eq]⟩
  have hlt : i < (ps.take i ++ h.length :: ps.drop i).length := by omega
  have hnode : (ps.take i ++ h.length :: ps.drop i)[i] = h.length := by
    have := (insert_getElem? ps h.length i hi').2.1
    rw [List.getElem?_eq_getElem hlt] at this
    exact Option.some.inj this
  refine ⟨h', l', e, ?_⟩
  rw [ll_get_ok hl' hlt, hnode, payload_of_cargo hn]

/-- C9 (amended) at the two-element list `demoList`, inserting at index 1. -/
theorem ll_get_after_ll_addIndex_witness :
    ∃ h' l', ll_addIndex demoHeap (some demoList) (some [7, 8, 9]) 2 1 =
        some ⟨true, h', some l'⟩ ∧
      ll_get h' (some l') 1 = some ⟨some ([7, 8, 9].take 2), h', some l'⟩ :=
  ll_get_after_ll_addIndex demoHeap demoList [0, 1] [7, 8, 9] 2 1 (by decide) (by decide)
    (by decide) (by decide)

/-- C9 as stated fails on the well-formed list of `2^32 - 1` nodes: `ll_addIndex` at
index `0` returns true, but the size field wraps to `0`, so the following `ll_get` at
index `0` returns `NULL` instead of the inserted bytes. -/
theorem ll_get_after_ll_addIndex_wraps :
    IsList (chainHeap 4294967295) (chainList 4294967295) (List.range 4294967295) ∧
    ∃ h' l', ll_addIndex (chainHeap 4294967295) (some (chainList 4294967295)) (some [7]) 1 0 =
        some ⟨true, h', some l'⟩ ∧
      ll_get h' (some l') 0 = some ⟨none, h', some l'⟩ := by
  refine ⟨chain_isList _, ?_⟩
  obtain ⟨h', l', e, -, hz, -⟩ :=
    ll_addIndex_ok (chain_isList 4294967295) [7] (show (1 : Nat) ≠ 0 by decide)
      (show 0 < (List.range 4294967295).length by rw [List.length_range]; decide)
  have h0 : l'.size = 0 := by
    rw [hz]
    rfl
  exact ⟨h', l', e, ll_get_out_of_range h' l' (by omega)⟩

/-- C10: on a well-formed list with exactly one element, `ll_remove` at index `0` returns
true and leaves the list in the canonical empty state, the one `ll_init` produces: head
absent, tail absent, `ll_size` zero. -/
theorem ll_remove_only_element (h : Heap) (l : linkedList) (ps : List Nat)
    (hl : IsList h l ps) (h1 : l.size = 1) :
    ∃ h' l', ll_remove h (some l) 0 = some ⟨true, h', some l'⟩ ∧
      l'.head = none ∧ l'.tail = none ∧ ll_size (some l') = 0 ∧
      some l' = ll_init (some l) := by
  have hlen : ps.length = 1 := by rw [← hl.size_eq, h1]
  obtain ⟨c, rfl⟩ := List.length_eq_one.mp hlen
  obtain ⟨h', l', e, hs, hz, -⟩ := ll_remove_ok hl (show 0 < [c].length by simp)
  have hhead : l'.head = none := by simpa using hs.head_eq
  have htail : l'.tail = none := by simpa using hs.tail_eq
  have hsize : l'.size = 0 := by rw [hz, h1]
  refine ⟨h', l', e, hhead, htail, hsize, ?_⟩
  obtain ⟨hd, tl, sz⟩ := l'
  simp only at hhead htail hsize
  subst hhead htail hsize
  rfl

/-- C10 at the one-element list `soloList`. -/
theorem ll_remove_only_element_witness :
    ∃ h' l', ll_remove soloHeap (some soloList) 0 = some ⟨true, h', some l'⟩ ∧
      l'.head = none ∧ l'.tail = none ∧ ll_size (some l') = 0 ∧
      some l' = ll_init (some soloList) :=
  ll_remove_only_element soloHeap soloList [0] (by decide) (by decide)

/-- C11 (amended): starting from an initialised empty list, `N < 2^32` calls of `ll_add`
with valid payloads all return true; afterwards `ll_size` is `N`, the payload sequence
from head to tail is the sequence of appended payloads, the head's payload is the first
appended payload and the tail's payload is the last. -/
theorem ll_add_all_from_empty (h : Heap) (l0 : linkedList) (objs : List (List Nat × Nat))
    (hv : ∀ o ∈ objs, 0 < o.2) (hN : objs.length < 2 ^ 32) :
    ∃ h' l', ll_add_all h (ll_init (some l0)) objs = some ⟨true, h', some l'⟩ ∧
      ll_size (some l') = objs.length ∧
      l'.head.map (payload h') = objs.head?.map (fun o => some (o.1.take o.2)) ∧
      l'.tail.map (payload h') = objs.getLast?.map (fun o => some (o.1.take o.2)) ∧
      ∃ ps, IsList h' l' ps ∧ payloads h' ps = objs.map (fun o => some (o.1.take o.2)) := by
  have hl : IsList h ⟨none, none, 0⟩ [] := ⟨⟨trivial, rfl, rfl⟩, rfl⟩
  obtain ⟨h', l', ps', e, hl', z', pay, -⟩ :=
    ll_add_all_ok objs hl (fun o ho => Nat.pos_iff_ne_zero.mp (hv o ho))
      (by simpa using hN)
  have hpay : payloads h' ps' = objs.map (fun o => some (o.1.take o.2)) := by
    simpa [payloads] using pay
  have hends := ends_payload hl'.shape
  refine ⟨h', l', e, by simpa [ll_size] using z', ?_, ?_, ps', hl', hpay⟩
  · rw [hends.1, hpay, List.head?_map]
  · rw [hends.2, hpay, List.getLast?_map]

/-- C11 (amended) for two appends to a re-initialised list in an empty heap. -/
theorem ll_add_all_from_empty_witness :
    ∃ h' l', ll_add_all [] (ll_init (some demoList)) [([1, 2, 3], 2), ([4], 1)] =
        some ⟨true, h', some l'⟩ ∧
      ll_size (some l') = [([1, 2, 3], 2), ([4], 1)].length ∧
      l'.head.map (payload h') =
        [([1, 2, 3], 2), ([4], 1)].head?.map (fun o => some (o.1.take o.2)) ∧
      l'.tail.map (payload h') =
        [([1, 2, 3], 2), ([4], 1)].getLast?.map (fun o => some (o.1.take o.2)) ∧
      ∃ ps, IsList h' l' ps ∧
        payloads h' ps = [([1, 2, 3], 2), ([4], 1)].map (fun o => some (o.1.take o.2)) :=
  ll_add_all_from_empty [] demoList [([1, 2, 3], 2), ([4], 1)] (by decide) (by decide)

/-- C11 as stated fails for `N = 2^32`: after `2^32` one-byte appends to an initialised
empty list every call has returned true, yet `ll_size` is `0`, not `N`. -/
theorem ll_add_all_size_wraps :
    ∃ h' l', ll_add_all [] (ll_init (some ⟨none, none, 0⟩))
        (List.replicate 4294967296 ([0], 1)) = some ⟨true, h', some l'⟩ ∧
      ll_size (some l') = 0 ∧
      ll_size (some l') ≠ (List.replicate 4294967296 (([0], 1) : List Nat × Nat)).length := by
  have hl : IsList ([] : Heap) ⟨none, none, 0⟩ [] := ⟨⟨trivial, rfl, rfl⟩, rfl⟩
  obtain ⟨h1, l1, ps1, e1, hl1, z1, -⟩ :=
    ll_add_all_ok (List.replicate 4294967295 ([0], 1)) hl
      (fun o ho => by rw [List.eq_of_mem_replicate ho]; decide)
      (by rw [List.length_replicate]; decide)
  rw [List.length_replicate] at z1
  obtain ⟨h2, l2, e2, -, z2, -⟩ := ll_add_ok hl1 [0] (show (1 : Nat) ≠ 0 by decide)
  have hz : l2.size = 0 := by
    rw [z2, z1]
    rfl
  have hsnoc := ll_add_all_snoc _ _ _ _ _ ([0], 1) _ e1 e2
  refine ⟨h2, l2, ?_, hz, ?_⟩
  · rw [show (4294967296 : Nat) = 4294967295 + 1 from rfl, List.replicate_succ']
    exact hsnoc
  · rw [List.length_replicate]
    show l2.size ≠ _
    rw [hz]
    decide

/-- C12: on a well-formed list of any length `ll_clear` terminates without a fault: its
loop ends with an exhausted iterator for every fuel that covers the length of the list,
every node of the list is freed and nothing else in the heap is touched, and the list is
left with head absent, tail absent and size 0, the state `ll_init` produces; on an absent
list handle it does nothing. -/
theorem ll_clear_empties (h : Heap) (l : linkedList) (ps : List Nat) (hl : IsList h l ps) :
    (∃ h', ll_clear h (some l) = some ⟨(), h', some ⟨none, none, 0⟩⟩ ∧
      ll_clear h (some l) = some ⟨(), h', ll_init (some l)⟩ ∧
      (∀ p ∈ ps, h'.read p = none) ∧ (∀ q, q ∉ ps → h'.read q = h.read q) ∧
      (∀ fuel, ps.length ≤ fuel →
        clearLoop fuel h (ll_getIterator (some l)) = some (h', some ⟨none⟩))) ∧
    ll_clear h none = some ⟨(), h, none⟩ := by
  obtain ⟨h', e, -, h2, h3, h4⟩ := ll_clear_ok hl.shape
  exact ⟨⟨h', e, e, h2, h3, h4⟩, rfl⟩

/-- C12 at the two-element list `demoList`. -/
theorem ll_clear_empties_witness :
    (∃ h', ll_clear demoHeap (some demoList) = some ⟨(), h', some ⟨none, none, 0⟩⟩ ∧
      ll_clear demoHeap (some demoList) = some ⟨(), h', ll_init (some demoList)⟩ ∧
      (∀ p ∈ [0, 1], h'.read p = none) ∧ (∀ q, q ∉ [0, 1] → h'.read q = demoHeap.read q) ∧
      (∀ fuel, [0, 1].length ≤ fuel →
        clearLoop fuel demoHeap (ll_getIterator (some demoList)) = some (h', some ⟨none⟩))) ∧
    ll_clear demoHeap none = some ⟨(), demoHeap, none⟩ :=
  ll_clear_empties demoHeap demoList [0, 1] (by decide)

/-- C13: on a well-formed list with `n` elements, the iterator obtained from
`ll_getIterator` has `ll_hasNext` true before each of the first `n` calls of `ll_next`,
the call number `k` (from 0) returns what `ll_get` returns at index `k`, and after `n`
calls `ll_hasNext` is false and one more `ll_next` returns `NULL` and leaves the iterator
as it is. -/
theorem iterator_drains (h : Heap) (l : linkedList) (ps : List Nat) (hl : IsList h l ps) :
    (∀ k, k < l.size → ∃ it d it',
      advance h k (ll_getIterator (some l)) = some it ∧ ll_hasNext it = true ∧
      ll_next h it = some (d, it') ∧ ll_get h (some l) k = some ⟨d, h, some l⟩) ∧
    (∃ it, advance h l.size (ll_getIterator (some l)) = some it ∧ ll_hasNext it = false ∧
      ll_next h it = some (none, it)) := by
  constructor
  · intro k hk
    have hk' : k < ps.length := hl.size_eq ▸ hk
    obtain ⟨n, hn⟩ := hl.shape.chain.live ps[k] (List.getElem_mem hk')
    refine ⟨_, n.data, _, advance_to_index hl.shape hk', rfl, ll_next_of_read hn, ?_⟩
    rw [ll_get_ok hl hk', payload_of_read hn]
  · refine ⟨some ⟨none⟩, ?_, rfl, rfl⟩
    rw [ll_getIterator_of_shape hl.shape, hl.size_eq,
      advance_seg hl.shape.chain ps.length (Nat.le_refl _), List.drop_length]
    rfl

/-- C13 at the two-element list `demoList`. -/
theorem iterator_drains_witness :
    (∀ k, k < demoList.size → ∃ it d it',
      advance demoHeap k (ll_getIterator (some demoList)) = some it ∧ ll_hasNext it = true ∧
      ll_next demoHeap it = some (d, it') ∧
      ll_get demoHeap (some demoList) k = some ⟨d, demoHeap, some demoList⟩) ∧
    (∃ it, advance demoHeap demoList.size (ll_getIterator (some demoList)) = some it ∧
      ll_hasNext it = false ∧ ll_next demoHeap it = some (none, it)) :=
  iterator_drains demoHeap demoList [0, 1] (by decide)

/-- C14: on a cursor positioned at a live node `ll_next` returns that node's payload
and moves the cursor to that node's `nextNode`; on an exhausted cursor and on an absent
cursor it returns `NULL` and leaves the cursor unchanged. -/
theorem ll_next_spec (h : Heap) :
    (∀ c n, h.read c = some n →
      ll_next h (some ⟨some c⟩) = some (n.data, some ⟨n.nextNode⟩)) ∧
    ll_next h (some ⟨none⟩) = some (none, some ⟨none⟩) ∧
    ll_next h none = some (none, none) :=
  ⟨fun _ _ hr => ll_next_of_read hr, rfl, rfl⟩

/-- C15: `ll_hasNext` is true exactly when the cursor handle is present and its current
node is present; it is false for an absent cursor and for an exhausted cursor.  It is a
function of the cursor alone and returns only the flag, so it has nothing to modify. -/
theorem ll_hasNext_iff (iter : Option linkedListIterator) :
    (ll_hasNext iter = true ↔ ∃ it c, iter = some it ∧ it.current = some c) ∧
    ll_hasNext none = false ∧ ll_hasNext (some ⟨none⟩) = false := by
  refine ⟨?_, rfl, rfl⟩
  rcases iter with _ | ⟨_ | c⟩
  · simp [ll_hasNext]
  · simp [ll_hasNext]
  · simp [ll_hasNext]

/-- C16: on a present list `ll_getIterator` returns a cursor whose current node is the
list's head (`NULL` for an empty list); on an absent list handle it returns an absent
cursor.  It is a function of the list structure alone and returns only the cursor, so the
list is not modified. -/
theorem ll_getIterator_spec (l : linkedList) :
    ll_getIterator (some l) = some ⟨l.head⟩ ∧
    (l.head = none → ll_getIterator (some l) = some ⟨none⟩) ∧
    ll_getIterator none = none := by
  refine ⟨rfl, fun hh => ?_, rfl⟩
  rw [← hh]
  rfl

/-- C17: `ll_size` returns the `size` field of a present list and 0 for an absent list
handle.  It reads that one field: the heap is not among its arguments. -/
theorem ll_size_spec (l : linkedList) :
    ll_size (some l) = l.size ∧ ll_size none = 0 :=
  ⟨rfl, rfl⟩

/-- C18: on a present list structure, whatever its fields hold, `ll_init` sets head and
tail to `NULL` and size to 0; on an absent list handle it does nothing. -/
theorem ll_init_spec (l : linkedList) :
    ll_init (some l) = some ⟨none, none, 0⟩ ∧ ll_init none = none :=
  ⟨rfl, rfl⟩

/-- C19: on the empty list state (head absent, tail absent, size 0), in any heap,
`ll_init` and `ll_clear` leave heap and list exactly as they were, so applying either of
them any number of times gives what applying it once gives. -/
theorem init_clear_idempotent (h : Heap) (n : Nat) :
    ll_init (some ⟨none, none, 0⟩) = some ⟨none, none, 0⟩ ∧
    ll_clear h (some ⟨none, none, 0⟩) = some ⟨(), h, some ⟨none, none, 0⟩⟩ ∧
    Nat.iterate ll_init (n + 1) (some ⟨none, none, 0⟩) = ll_init (some ⟨none, none, 0⟩) ∧
    Nat.iterate (fun o => o.bind fun r => ll_clear r.heap r.list) n
        (ll_clear h (some ⟨none, none, 0⟩)) = ll_clear h (some ⟨none, none, 0⟩) := by
  have hc : ll_clear h (some ⟨none, none, 0⟩) = some ⟨(), h, some ⟨none, none, 0⟩⟩ := by
    simp [ll_clear, ll_getIterator, clearLoop_of_not_hasNext _ _ _ (rfl : ll_hasNext
      (some ⟨none⟩) = false), ll_init]
  refine ⟨rfl, hc, ?_, ?_⟩
  · induction n with
    | zero => rfl
    | succ n ih => rw [Function.iterate_succ_apply']; rw [ih]; rfl
  · induction n with
    | zero => rfl
    | succ n ih =>
      rw [Function.iterate_succ_apply', ih, hc]
      exact hc

/-- C20: whenever `ll_get` returns, for any list and any index, the heap (every node's
links and payload) and the list structure (head, tail, size) are what they were before
the call; on a well-formed list and on an absent list handle it does return. -/
theorem ll_get_frame (h : Heap) (list : Option linkedList) (index : Nat) :
    (∀ r, ll_get h list index = some r → r.heap = h ∧ r.list = list) ∧
    (∀ l ps, list = some l → IsList h l ps → ∃ d, ll_get h list index = some ⟨d, h, list⟩) ∧
    ll_get h none index = some ⟨none, h, none⟩ := by
  refine ⟨fun r hr => ?_, ?_, rfl⟩
  · cases list with
    | none =>
      cases hr
      exact ⟨rfl, rfl⟩
    | some l =>
      by_cases hi : index < l.size
      · simp only [ll_get, hi, if_true, Option.bind_eq_bind, Option.bind_eq_some,
          Option.pure_def, Option.some.injEq] at hr
        obtain ⟨_, -, _, -, _, -, _, -, rfl⟩ := hr
        exact ⟨rfl, rfl⟩
      · rw [ll_get_out_of_range h l (Nat.le_of_not_lt hi)] at hr
        cases hr
        exact ⟨rfl, rfl⟩
  · rintro l ps rfl hl
    by_cases hi : index < l.size
    · exact ⟨_, ll_get_ok hl (hl.size_eq ▸ hi)⟩
    · exact ⟨none, ll_get_out_of_range h l (Nat.le_of_not_lt hi)⟩

/-- C21: the scenario of `setupBasicList` and `testRemove`.  Starting from an initialised
empty list, the five appends succeed and give `ll_size` 5 and `ll_get(2)` equal to
"Systems"; `ll_remove(4)` then returns true and leaves the tail payload "Fall" and size
4; `ll_remove(0)` then returns true and leaves the head payload "Operating" (followed by
the one byte `x` the 11-byte copy took after the literal) and size 3; draining an
iterator then yields "Operating", "Systems", "Fall" in that order. -/
theorem remove_scenario (x : Nat) (l0 : linkedList) :
    (scenarioFilled x l0).map (fun r => (r.ret, ll_size r.list)) = some (true, 5) ∧
    ((scenarioFilled x l0).bind fun r => (ll_get r.heap r.list 2).map fun g => g.ret) =
      some (some (cstr "Systems")) ∧
    (scenarioCut x l0).map (fun r => (r.ret, tailPayload r, ll_size r.list)) =
      some (true, some (some (cstr "Fall")), 4) ∧
    (scenarioEnd x l0).map (fun r => (r.ret, headPayload r, ll_size r.list)) =
      some (true, some (some (cstr "Operating" ++ [x])), 3) ∧
    ((scenarioEnd x l0).bind fun r => drain r.heap.length r.heap (ll_getIterator r.list)) =
      some [some (cstr "Operating" ++ [x]), some (cstr "Systems"), some (cstr "Fall")] := by
  rw [scenarioFilled_eq, scenarioCut_eq, scenarioEnd_eq]
  exact ⟨rfl, rfl, rfl, rfl, rfl⟩

/-- C22 (amended): in every state reached from `ll_init` by a sequence of calls in which
no insertion is made at size `2^32 - 1`, every call returns, and size is 0 if and only
if head is absent, if and only if tail is absent. -/
theorem emptiness_invariant (h0 : Heap) (l0 : linkedList) (cs : List Call)
    (hn : NoWrap h0 (ll_init (some l0)) cs) :
    ∃ h l, run h0 (ll_init (some l0)) cs = some (h, some l) ∧
      (l.size = 0 ↔ l.head = none) ∧ (l.head = none ↔ l.tail = none) := by
  obtain ⟨h, l, ps, e, hl⟩ := run_isList cs (isList_empty h0) hn
  exact ⟨h, l, e, hl.empty_iff⟩

/-- C22 (amended) for an append, a failing removal and a removal. -/
theorem emptiness_invariant_witness :
    ∃ h l, run [] (ll_init (some demoList))
        [Call.add (some [1, 2]) 2, Call.remove 5, Call.remove 0] = some (h, some l) ∧
      (l.size = 0 ↔ l.head = none) ∧ (l.head = none ↔ l.tail = none) :=
  emptiness_invariant [] demoList [Call.add (some [1, 2]) 2, Call.remove 5, Call.remove 0]
    ⟨fun _ => by decide, fun _ => by decide, fun _ => by decide, trivial⟩

/-- C22 as stated fails: after `2^32` one-byte appends to an initialised empty list the
size field is 0 while head and tail are present. -/
theorem emptiness_fails_after_wrap :
    ∃ h l, run [] (ll_init (some ⟨none, none, 0⟩)) (appends 4294967296) = some (h, some l) ∧
      l.size = 0 ∧ l.head ≠ none ∧ l.tail ≠ none := by
  obtain ⟨h, l, ps, e, hs, hz, hlen, -⟩ := wrapped_state
  have hne : ps ≠ [] := fun hnil => by
    rw [hnil] at hlen
    simp at hlen
  obtain ⟨hd, tl, -, -, e1, e2, -⟩ := hs.chain.end_nodes hne
  refine ⟨h, l, e, hz, ?_, ?_⟩
  · rw [hs.head_eq, e1]
    simp
  · rw [hs.tail_eq, e2]
    simp

/-- C23: chain symmetry is kept by every splice.  Every sequence of calls from `ll_init`
returns, also one that wraps the size; in the state it reaches the walk from head ends
and every node on it has both links mirrored (a previous node names it as next node, a
next node names it as previous node); and every further call, so every successful
`ll_add`, `ll_addIndex` or `ll_remove`, returns and leaves a list whose walk from head
ends with every node on it mirrored.  The same holds for every well-formed list in any
heap: its nodes are mirrored, each of the three operations returns, and after a
successful one the walk from head ends and every node on it is mirrored. -/
theorem splice_keeps_symmetry (h0 : Heap) (l0 : linkedList) (cs : List Call) :
    (∃ h l, run h0 (ll_init (some l0)) cs = some (h, some l) ∧
      walkNext h h.length l.head = some (nodes h l) ∧
      (∀ p ∈ nodes h l, mirrored h p = true) ∧
      ∀ c, ∃ h' l', step h (some l) c = some (h', some l') ∧
        walkNext h' h'.length l'.head = some (nodes h' l') ∧
        ∀ p ∈ nodes h' l', mirrored h' p = true) ∧
    ∀ h l ps, IsList h l ps →
      walkNext h h.length l.head = some (nodes h l) ∧
      (∀ p ∈ nodes h l, mirrored h p = true) ∧
      (∀ object size, ∃ r, ll_add h (some l) object size = some r ∧
        (r.ret = true → ∃ l', r.list = some l' ∧
          walkNext r.heap r.heap.length l'.head = some (nodes r.heap l') ∧
          ∀ p ∈ nodes r.heap l', mirrored r.heap p = true)) ∧
      (∀ object size index, ∃ r, ll_addIndex h (some l) object size index = some r ∧
        (r.ret = true → ∃ l', r.list = some l' ∧
          walkNext r.heap r.heap.length l'.head = some (nodes r.heap l') ∧
          ∀ p ∈ nodes r.heap l', mirrored r.heap p = true)) ∧
      (∀ index, ∃ r, ll_remove h (some l) index = some r ∧
        (r.ret = true → ∃ l', r.list = some l' ∧
          walkNext r.heap r.heap.length l'.head = some (nodes r.heap l') ∧
          ∀ p ∈ nodes r.heap l', mirrored r.heap p = true)) := by
  refine ⟨?_, ?_⟩
  · obtain ⟨h, l, prev, ps, e, hv, hh⟩ :=
      run_inv_hung cs (inv_empty h0) (fun _ ht => (by cases ht))
    refine ⟨h, l, e, hv.rooted.walk_nodes, ?_, fun c => ?_⟩
    · rw [hv.rooted.nodes_eq]
      exact hv.rooted.mirrored_of_hung hh
    · obtain ⟨h', l', prev', ps', e', hv', -, hH⟩ := step_inv_hung hv c
      refine ⟨h', l', e', hv'.rooted.walk_nodes, ?_⟩
      rw [hv'.rooted.nodes_eq]
      exact hv'.rooted.mirrored_of_hung (hH hh)
  · intro h l ps hl
    refine ⟨hl.shape.rooted.walk_nodes, hl.shape.all_mirrored, ?_, ?_, ?_⟩
    · intro object size
      by_cases hc : object = none ∨ size = 0
      · exact ⟨_, ll_add_fail h (some l) object size (Or.inr hc), fun hr => by cases hr⟩
      · push_neg at hc
        obtain ⟨obj, rfl⟩ := Option.ne_none_iff_exists'.mp hc.1
        obtain ⟨h', l', e, hs, -⟩ := ll_add_ok hl obj hc.2
        exact ⟨_, e, fun _ => ⟨l', rfl, hs.rooted.walk_nodes, hs.all_mirrored⟩⟩
    · intro object size index
      by_cases hc : object = none ∨ size = 0 ∨ l.size < index
      · exact ⟨_, ll_addIndex_fail h l object size index hc, fun hr => by cases hr⟩
      · push_neg at hc
        obtain ⟨obj, rfl⟩ := Option.ne_none_iff_exists'.mp hc.1
        obtain ⟨h', l', e, hs, -⟩ :=
          ll_addIndex_le_ok hl obj hc.2.1 (show index ≤ ps.length from hl.size_eq ▸ hc.2.2)
        exact ⟨_, e, fun _ => ⟨l', rfl, hs.rooted.walk_nodes, hs.all_mirrored⟩⟩
    · intro index
      by_cases hi : index < l.size
      · obtain ⟨h', l', e, hs, -⟩ :=
          ll_remove_ok hl (show index < ps.length from hl.size_eq ▸ hi)
        exact ⟨_, e, fun _ => ⟨l', rfl, hs.rooted.walk_nodes, hs.all_mirrored⟩⟩
      · exact ⟨_, ll_remove_fail h l (Nat.le_of_not_lt hi), fun hr => by cases hr⟩

/-- C24 (amended): in every state reached from `ll_init` by a sequence of calls in which
no insertion is made at size `2^32 - 1`, every call returns, the walk from head along
the next links ends, and the size field is the number of nodes it visits. -/
theorem count_invariant (h0 : Heap) (l0 : linkedList) (cs : List Call)
    (hn : NoWrap h0 (ll_init (some l0)) cs) :
    ∃ h l ps, run h0 (ll_init (some l0)) cs = some (h, some l) ∧
      walkNext h h.length l.head = some ps ∧ l.size = ps.length := by
  obtain ⟨h, l, ps, e, hl⟩ := run_isList cs (isList_empty h0) hn
  exact ⟨h, l, ps, e, hl.shape.rooted.walk, hl.size_eq⟩

/-- C24 (amended) for two appends, an insertion at the front and a removal. -/
theorem count_invariant_witness :
    ∃ h l ps, run [] (ll_init (some demoList))
        [Call.add (some [1]) 1, Call.add (some [2]) 1, Call.addIndex (some [3]) 1 0,
          Call.remove 1] = some (h, some l) ∧
      walkNext h h.length l.head = some ps ∧ l.size = ps.length :=
  count_invariant [] demoList
    [Call.add (some [1]) 1, Call.add (some [2]) 1, Call.addIndex (some [3]) 1 0, Call.remove 1]
    ⟨fun _ => by decide, fun _ => by decide, fun _ => by decide, fun _ => by decide, trivial⟩

/-- C24 as stated fails: after `2^32` one-byte appends to an initialised empty list the
walk from head visits `2^32` nodes while the size field is 0. -/
theorem count_fails_after_wrap :
    ∃ h l ps, run [] (ll_init (some ⟨none, none, 0⟩)) (appends 4294967296) =
        some (h, some l) ∧
      walkNext h h.length l.head = some ps ∧ ps.length = 4294967296 ∧ l.size ≠ ps.length := by
  obtain ⟨h, l, ps, e, hs, hz, hlen, -⟩ := wrapped_state
  refine ⟨h, l, ps, e, hs.rooted.walk, hlen, ?_⟩
  rw [hz, hlen]
  decide

/-- C25 (amended): every sequence of calls from `ll_init` returns, and in every state it
reaches with a size field that is not 0 head and tail are present, the positioning loop
stops on the head after 0 steps and on the tail after `size - 1` steps, `ll_get(0)` is
the head's payload, `ll_get(size - 1)` is the tail's payload, and the tail has no next
node. -/
theorem ends_invariant (h0 : Heap) (l0 : linkedList) (cs : List Call) :
    ∃ h l, run h0 (ll_init (some l0)) cs = some (h, some l) ∧
      (l.size ≠ 0 → ∃ hd tl, l.head = some hd ∧ l.tail = some tl ∧
        advance h 0 (ll_getIterator (some l)) = some (some ⟨some hd⟩) ∧
        advance h (l.size - 1) (ll_getIterator (some l)) = some (some ⟨some tl⟩) ∧
        ll_get h (some l) 0 = some ⟨payload h hd, h, some l⟩ ∧
        ll_get h (some l) (l.size - 1) = some ⟨payload h tl, h, some l⟩ ∧
        ∃ n, h.read tl = some n ∧ n.nextNode = none) := by
  obtain ⟨h, l, prev, ps, e, hv⟩ := run_from_init h0 l0 cs
  exact ⟨h, l, e, hv.end_index⟩

/-- C25 as stated fails: after `2^32` one-byte appends to an initialised empty list the
list has a head with the payload `[0]`, yet `ll_get(0)` returns absent. -/
theorem get_head_fails_after_wrap :
    ∃ h l hd, run [] (ll_init (some ⟨none, none, 0⟩)) (appends 4294967296) =
        some (h, some l) ∧
      l.head = some hd ∧ payload h hd = some [0] ∧
      ll_get h (some l) 0 = some ⟨none, h, some l⟩ := by
  obtain ⟨h, l, ps, e, hs, hz, hlen, hc⟩ := wrapped_state
  have hne : ps ≠ [] := fun hnil => by
    rw [hnil] at hlen
    simp at hlen
  obtain ⟨hd, tl, -, -, e1, -⟩ := hs.chain.end_nodes hne
  refine ⟨h, l, hd, e, by rw [hs.head_eq, e1], ?_, ?_⟩
  · exact payload_of_cargo (hc hd (List.mem_of_mem_head? e1))
  · exact ll_get_out_of_range h l (by omega)

/-- C26 (amended): in every state reached from `ll_init` by a sequence of calls in which
no insertion is made at size `2^32 - 1`, every call returns, and if the size is not 0
then head and tail are present, the head node has no previous node and the tail node has
no next node. -/
theorem end_links_invariant (h0 : Heap) (l0 : linkedList) (cs : List Call)
    (hn : NoWrap h0 (ll_init (some l0)) cs) :
    ∃ h l, run h0 (ll_init (some l0)) cs = some (h, some l) ∧
      (l.size ≠ 0 → ∃ hd tl hdn tln, l.head = some hd ∧ l.tail = some tl ∧
        h.read hd = some hdn ∧ hdn.prevNode = none ∧
        h.read tl = some tln ∧ tln.nextNode = none) := by
  obtain ⟨h, l, ps, e, hl⟩ := run_isList cs (isList_empty h0) hn
  refine ⟨h, l, e, fun hz => ?_⟩
  have hne : ps ≠ [] := fun hnil => hz (by rw [hl.size_eq, hnil]; rfl)
  obtain ⟨hd, tl, hdn, tln, e1, e2, e3, e4, e5, e6⟩ := hl.shape.chain.end_nodes hne
  exact ⟨hd, tl, hdn, tln, by rw [hl.shape.head_eq, e1], by rw [hl.shape.tail_eq, e2],
    e3, e4, e5, e6⟩

/-- C26 (amended) for three appends, the removal of index 0 and the removal of the last
index. -/
theorem end_links_invariant_witness :
    ∃ h l, run [] (ll_init (some demoList))
        [Call.add (some [1]) 1, Call.add (some [2]) 1, Call.add (some [3]) 1, Call.remove 0,
          Call.remove 1] = some (h, some l) ∧
      (l.size ≠ 0 → ∃ hd tl hdn tln, l.head = some hd ∧ l.tail = some tl ∧
        h.read hd = some hdn ∧ hdn.prevNode = none ∧
        h.read tl = some tln ∧ tln.nextNode = none) :=
  end_links_invariant [] demoList
    [Call.add (some [1]) 1, Call.add (some [2]) 1, Call.add (some [3]) 1, Call.remove 0,
      Call.remove 1]
    ⟨fun _ => by decide, fun _ => by decide, fun _ => by decide, fun _ => by decide,
      fun _ => by decide, trivial⟩

/-- C26 as stated fails: after `2^32 + 1` one-byte appends to an initialised empty list
the size is 1 and the head node has a previous node, the old tail. -/
theorem head_prev_after_wrap :
    ∃ h l hd hdn, run [] (ll_init (some ⟨none, none, 0⟩)) (appends 4294967297) =
        some (h, some l) ∧
      l.size ≠ 0 ∧ l.head = some hd ∧ h.read hd = some hdn ∧ hdn.prevNode ≠ none := by
  obtain ⟨h, l, p, t, n, e, rfl, hn1, hn2, -⟩ := rewrapped_state
  refine ⟨h, _, p, n, e, Nat.one_ne_zero, rfl, hn1, ?_⟩
  rw [hn2]
  simp

/-- C27 (amended): in every state reached from `ll_init` by a sequence of calls in which
no insertion is made at size `2^32 - 1`, every call returns, and if the size is 1 then
head and tail are the same node and that node has neither a previous nor a next node. -/
theorem singleton_invariant (h0 : Heap) (l0 : linkedList) (cs : List Call)
    (hn : NoWrap h0 (ll_init (some l0)) cs) :
    ∃ h l, run h0 (ll_init (some l0)) cs = some (h, some l) ∧
      (l.size = 1 → ∃ p n, l.head = some p ∧ l.tail = some p ∧ h.read p = some n ∧
        n.prevNode = none ∧ n.nextNode = none) := by
  obtain ⟨h, l, ps, e, hl⟩ := run_isList cs (isList_empty h0) hn
  refine ⟨h, l, e, fun hz => ?_⟩
  have hlen : ps.length = 1 := by rw [← hl.size_eq, hz]
  obtain ⟨p, rfl⟩ := List.length_eq_one.mp hlen
  obtain ⟨n, h1, h2, h3⟩ := Seg_singleton.mp hl.shape.chain
  exact ⟨p, n, hl.shape.head_eq, hl.shape.tail_eq, h1, h2, h3⟩

/-- C27 (amended) for a list shrunk to one element: three appends, then the removal of
index 2 and of index 0. -/
theorem singleton_invariant_witness :
    ∃ h l, run [] (ll_init (some demoList))
        [Call.add (some [1]) 1, Call.add (some [2]) 1, Call.add (some [3]) 1, Call.remove 2,
          Call.remove 0] = some (h, some l) ∧
      (l.size = 1 → ∃ p n, l.head = some p ∧ l.tail = some p ∧ h.read p = some n ∧
        n.prevNode = none ∧ n.nextNode = none) :=
  singleton_invariant [] demoList
    [Call.add (some [1]) 1, Call.add (some [2]) 1, Call.add (some [3]) 1, Call.remove 2,
      Call.remove 0]
    ⟨fun _ => by decide, fun _ => by decide, fun _ => by decide, fun _ => by decide,
      fun _ => by decide, trivial⟩

/-- C27 as stated fails: after `2^32 + 1` one-byte appends to an initialised empty list
the size is 1 and head and tail are the same node, but that node has a previous node. -/
theorem singleton_prev_after_wrap :
    ∃ h l p n, run [] (ll_init (some ⟨none, none, 0⟩)) (appends 4294967297) =
        some (h, some l) ∧
      l.size = 1 ∧ l.head = some p ∧ l.tail = some p ∧ h.read p = some n ∧
      n.prevNode ≠ none := by
  obtain ⟨h, l, p, t, n, e, rfl, hn1, hn2, -⟩ := rewrapped_state
  refine ⟨h, _, p, n, e, rfl, rfl, rfl, hn1, ?_⟩
  rw [hn2]
  simp

/-- C28: every sequence of calls from `ll_init` returns; in the state it reaches the walk
from head ends and every node on it has a present payload and a positive `dataSize`; and
every further call returns and leaves a list each of whose nodes is either a node of the
list before, with payload and `dataSize` unchanged, or a new node holding the first
`size` bytes of the object and the `size` that were passed to the `ll_add` or
`ll_addIndex` call just made, with `size` positive. -/
theorem payload_invariant (h0 : Heap) (l0 : linkedList) (cs : List Call) :
    ∃ h l, run h0 (ll_init (some l0)) cs = some (h, some l) ∧
      walkNext h h.length l.head = some (nodes h l) ∧
      (∀ p ∈ nodes h l, loaded h p = true) ∧
      ∀ c, ∃ h' l', step h (some l) c = some (h', some l') ∧
        walkNext h' h'.length l'.head = some (nodes h' l') ∧
        ∀ p ∈ nodes h' l', (p ∈ nodes h l ∧ cargo h' p = cargo h p) ∨
          (p ∉ nodes h l ∧ ∃ obj size index, (c = Call.add (some obj) size ∨
              c = Call.addIndex (some obj) size index) ∧ 0 < size ∧
            cargo h' p = some (some (obj.take size), size)) := by
  obtain ⟨h, l, prev, ps, e, hv⟩ := run_from_init h0 l0 cs
  refine ⟨h, l, e, ?_, ?_, fun c => ?_⟩
  · rw [hv.rooted.nodes_eq]
    exact hv.rooted.walk
  · rw [hv.rooted.nodes_eq]
    exact hv.valid
  · obtain ⟨h', l', prev', ps', e', hv', hk⟩ := step_inv hv c
    refine ⟨h', l', e', ?_, ?_⟩
    · rw [hv'.rooted.nodes_eq]
      exact hv'.rooted.walk
    · rw [hv.rooted.nodes_eq, hv'.rooted.nodes_eq]
      exact hk

/-- C29: a cursor for which `ll_hasNext` is false stays where it is under any number of
further `ll_next` calls, every one of those calls returns absent, and `ll_hasNext` is
false afterwards; a call of `ll_next` on a cursor at a live node returns that node's data
and moves the cursor to exactly that node's `nextNode`. -/
theorem cursor_exhaustion (h : Heap) (iter : Option linkedListIterator)
    (hx : ll_hasNext iter = false) (k : Nat) :
    (∃ it, nexts h k iter = some (List.replicate k none, it) ∧ it = iter ∧
      ll_hasNext it = false) ∧
    advance h k iter = some iter ∧
    ∀ c n, h.read c = some n →
      ll_next h (some ⟨some c⟩) = some (n.data, some ⟨n.nextNode⟩) := by
  refine ⟨⟨iter, nexts_exhausted h hx k, rfl, hx⟩, ?_, fun c n hr => ll_next_of_read hr⟩
  have hn : ll_next h iter = some (none, iter) := by
    have := nexts_exhausted h hx 1
    simp only [nexts, List.replicate_succ, List.replicate_zero, Option.bind_eq_bind,
      Option.pure_def, Option.bind_eq_some] at this
    obtain ⟨r, hr, r', hr', heq⟩ := this
    simp only [Option.some.injEq] at hr' heq
    subst hr'
    obtain ⟨r1, r2⟩ := r
    simp only [Prod.mk.injEq, List.cons.injEq, and_true] at heq
    rw [hr, heq.1, heq.2]
  induction k with
  | zero => rfl
  | succ k ih => simp [advance, hn, ih]

/-- C29 for an exhausted cursor and five further calls. -/
theorem cursor_exhaustion_witness :
    (∃ it, nexts demoHeap 5 (some ⟨none⟩) = some (List.replicate 5 none, it) ∧
      it = some ⟨none⟩ ∧ ll_hasNext it = false) ∧
    advance demoHeap 5 (some ⟨none⟩) = some (some ⟨none⟩) ∧
    ∀ c n, demoHeap.read c = some n →
      ll_next demoHeap (some ⟨some c⟩) = some (n.data, some ⟨n.nextNode⟩) :=
  cursor_exhaustion demoHeap (some ⟨none⟩) rfl 5

/-- C30 (amended): in every state reached from `ll_init` by a sequence of calls in which
no insertion is made at size `2^32 - 1`, every call returns, and following the previous
links from tail visits the nodes that following the next links from head visits, in
reverse order; so the payloads read backward from tail are the reverse of the payloads
read forward from head. -/
theorem backward_walk_invariant (h0 : Heap) (l0 : linkedList) (cs : List Call)
    (hn : NoWrap h0 (ll_init (some l0)) cs) :
    ∃ h l ps, run h0 (ll_init (some l0)) cs = some (h, some l) ∧
      walkNext h h.length l.head = some ps ∧
      walkPrev h h.length l.tail = some ps.reverse ∧
      (walkPrev h h.length l.tail).map (payloads h) =
        (walkNext h h.length l.head).map fun qs => (payloads h qs).reverse := by
  obtain ⟨h, l, ps, e, hl⟩ := run_isList cs (isList_empty h0) hn
  have hw := hl.shape.rooted.walk
  have hb : walkPrev h h.length l.tail = some ps.reverse := by
    rw [hl.shape.tail_eq, ← prevOf_none]
    exact walkPrev_seg ps hl.shape.chain hl.shape.chain.length_le
  refine ⟨h, l, ps, e, hw, hb, ?_⟩
  rw [hw, hb]
  simp [payloads, List.map_reverse]

/-- C30 (amended) for two appends and an insertion between them. -/
theorem backward_walk_invariant_witness :
    ∃ h l ps, run [] (ll_init (some demoList))
        [Call.add (some [1]) 1, Call.add (some [2]) 1, Call.addIndex (some [3]) 1 1] =
        some (h, some l) ∧
      walkNext h h.length l.head = some ps ∧
      walkPrev h h.length l.tail = some ps.reverse ∧
      (walkPrev h h.length l.tail).map (payloads h) =
        (walkNext h h.length l.head).map fun qs => (payloads h qs).reverse :=
  backward_walk_invariant [] demoList
    [Call.add (some [1]) 1, Call.add (some [2]) 1, Call.addIndex (some [3]) 1 1]
    ⟨fun _ => by decide, fun _ => by decide, fun _ => by decide, trivial⟩

/-- C30 as stated fails: after `2^32 + 1` one-byte appends to an initialised empty list
the walk from head along the next links visits the newest node only, while the walk from
tail along the previous links goes on from that node to the old tail. -/
theorem backward_walk_fails_after_wrap :
    ∃ h l p, run [] (ll_init (some ⟨none, none, 0⟩)) (appends 4294967297) =
        some (h, some l) ∧
      walkNext h h.length l.head = some [p] ∧
      walkPrev h h.length l.tail ≠ some [p].reverse := by
  obtain ⟨h, l, p, t, n, e, rfl, hn1, hn2, hn3, -, hlt⟩ := rewrapped_state
  obtain ⟨f, hf⟩ : ∃ f, h.length = f + 1 := ⟨h.length - 1, by omega⟩
  refine ⟨h, _, p, e, ?_, ?_⟩
  · show walkNext h h.length (some p) = some [p]
    rw [hf]
    simp [walkNext, hn1, hn3]
  · show walkPrev h h.length (some p) ≠ some [p].reverse
    rw [hf]
    intro hw
    simp only [walkPrev, hn1, hn2, Option.bind_eq_bind, Option.some_bind, Option.pure_def,
      Option.bind_eq_some, Option.some.injEq, List.reverse_cons, List.reverse_nil,
      List.nil_append, List.cons.injEq, true_and] at hw
    obtain ⟨rest, hrest, rfl⟩ := hw
    exact walkPrev_ne_nil h f t hrest

/-- C31: on a well-formed list with `index < count` the positioning loop, run with its
wrapping `int` counter from 0 on the throwaway iterator, ends for every fuel that covers
`index`, has then made exactly `index` calls of `ll_next`, and stands on the node at
position `index`, which is a live node; the same holds in the heap in which
`ll_addIndex` has allocated its node; and so `ll_get`, `ll_remove` and `ll_addIndex`
return without a fault. -/
theorem positioning_safe (h : Heap) (l : linkedList) (ps : List Nat) (index : Nat)
    (hl : IsList h l ps) (hi : index < l.size) (hb : l.size < 2 ^ 32) :
    (∃ c n, ps[index]? = some c ∧ h.read c = some n ∧
      (∀ fuel, index ≤ fuel →
        positionLoop h index fuel 0 (ll_getIterator (some l)) =
          some (index, some ⟨some c⟩)) ∧
      (∀ fuel x, index ≤ fuel →
        positionLoop (h ++ [x]) index fuel 0 (ll_getIterator (some l)) =
          some (index, some ⟨some c⟩)) ∧
      advance h index (ll_getIterator (some l)) = some (some ⟨some c⟩)) ∧
    (∃ r, ll_get h (some l) index = some r) ∧
    (∃ r, ll_remove h (some l) index = some r) ∧
    (∀ object size, ∃ r, ll_addIndex h (some l) object size index = some r) := by
  have hi' : index < ps.length := hl.size_eq ▸ hi
  have hib : index < 2 ^ 32 := by omega
  have hadv := advance_to_index hl.shape hi'
  obtain ⟨n, hn⟩ := hl.shape.chain.live ps[index] (List.getElem_mem hi')
  refine ⟨⟨ps[index], n, List.getElem?_eq_getElem hi', hn, ?_, ?_, hadv⟩, ?_, ?_, ?_⟩
  · intro fuel hf
    rw [positionLoop_eq_advance h hib index 0 fuel _ (by omega) hf, hadv]
    rfl
  · intro fuel x hf
    have hs : Shape (h ++ [x]) l ps :=
      ⟨hl.shape.chain.append_frame [x], hl.shape.head_eq, hl.shape.tail_eq⟩
    rw [positionLoop_eq_advance _ hib index 0 fuel _ (by omega) hf, advance_to_index hs hi']
    rfl
  · exact ⟨_, ll_get_ok hl hi'⟩
  · obtain ⟨h', l', e, -⟩ := ll_remove_ok hl hi'
    exact ⟨_, e⟩
  · intro object size
    by_cases hc : object = none ∨ size = 0
    · refine ⟨_, ll_addIndex_fail h l object size index ?_⟩
      rcases hc with hc | hc
      · exact Or.inl hc
      · exact Or.inr (Or.inl hc)
    · push_neg at hc
      obtain ⟨obj, rfl⟩ := Option.ne_none_iff_exists'.mp hc.1
      obtain ⟨h', l', e, -⟩ := ll_addIndex_ok hl obj hc.2 hi'
      exact ⟨_, e⟩

/-- C31 at index 1 of the two-element list. -/
theorem positioning_safe_witness :
    (∃ c n, ([0, 1] : List Nat)[1]? = some c ∧ demoHeap.read c = some n ∧
      (∀ fuel, 1 ≤ fuel →
        positionLoop demoHeap 1 fuel 0 (ll_getIterator (some demoList)) =
          some (1, some ⟨some c⟩)) ∧
      (∀ fuel x, 1 ≤ fuel →
        positionLoop (demoHeap ++ [x]) 1 fuel 0 (ll_getIterator (some demoList)) =
          some (1, some ⟨some c⟩)) ∧
      advance demoHeap 1 (ll_getIterator (some demoList)) = some (some ⟨some c⟩)) ∧
    (∃ r, ll_get demoHeap (some demoList) 1 = some r) ∧
    (∃ r, ll_remove demoHeap (some demoList) 1 = some r) ∧
    (∀ object size, ∃ r, ll_addIndex demoHeap (some demoList) object size 1 = some r) :=
  positioning_safe demoHeap demoList [0, 1] 1 (by decide) (by decide) (by decide)

/-- C32 (amended): on a well-formed list whose count is below `2^32 - 1`, for every
payload with a positive length and every index `i` with `i <= count`, `ll_addIndex` at
`i` returns true, the `ll_remove` at `i` that follows returns true, and the list is then
the list it was: the same head, tail and size over the same chain of nodes, well formed,
with the original payload sequence (for an empty list: head and tail absent, size 0). -/
theorem insert_then_remove (h : Heap) (l : linkedList) (ps : List Nat) (obj : List Nat)
    (size index : Nat) (hl : IsList h l ps) (hfit : l.size < 2 ^ 32 - 1) (hsz : 0 < size)
    (hi : index ≤ l.size) :
    ∃ h1 l1, ll_addIndex h (some l) (some obj) size index = some ⟨true, h1, some l1⟩ ∧
      ∃ h2 l2, ll_remove h1 (some l1) index = some ⟨true, h2, some l2⟩ ∧
        l2 = l ∧ IsList h2 l2 ps ∧ payloads h2 ps = payloads h ps ∧
        ll_size (some l2) = ll_size (some l) ∧
        (l.size = 0 → l2 = ⟨none, none, 0⟩) := by
  have hi' : index ≤ ps.length := hl.size_eq ▸ hi
  obtain ⟨h1, l1, e1, s1, z1, len1, c1, -⟩ :=
    ll_addIndex_le_ok hl obj (Nat.pos_iff_ne_zero.mp hsz) hi'
  have hz1 : l1.size = l.size + 1 := by rw [z1, Nat.mod_eq_of_lt (by omega)]
  have hlen1 : (ps.take index ++ h.length :: ps.drop index).length = ps.length + 1 := by
    simp [List.length_take]
    omega
  have hl1 : IsList h1 l1 (ps.take index ++ h.length :: ps.drop index) :=
    ⟨s1, by rw [hz1, hlen1, hl.size_eq]⟩
  obtain ⟨h2, l2, e2, s2, z2, -, -, c2, -⟩ :=
    ll_remove_ok hl1 (show index < _ by rw [hlen1]; omega)
  rw [eraseIdx_insert ps h.length hi'] at s2 c2
  have hz2 : l2.size = l.size := by rw [z2, hz1, Nat.add_sub_cancel]
  have hl2 : l2 = l := by
    obtain ⟨hd, tl, sz⟩ := l
    obtain ⟨hd2, tl2, sz2⟩ := l2
    have e3 := s2.head_eq
    have e4 := s2.tail_eq
    have e5 := hl.shape.head_eq
    have e6 := hl.shape.tail_eq
    simp only at e3 e4 e5 e6 hz2
    rw [e3, e4, e5, e6, hz2]
  refine ⟨h1, l1, e1, h2, l2, e2, hl2, ⟨s2, by rw [hz2, hl.size_eq]⟩, ?_, ?_, ?_⟩
  · refine payloads_eq_of_cargo fun p hp => ?_
    rw [c2 p hp, c1 p (hl.shape.chain.lt_length p hp)]
  · rw [hl2]
  · intro hz
    have hnil : ps = [] := List.length_eq_zero.mp (by rw [← hl.size_eq, hz])
    rw [hl2]
    obtain ⟨hd, tl, sz⟩ := l
    have e5 := hl.shape.head_eq
    have e6 := hl.shape.tail_eq
    simp only at e5 e6 hz
    rw [e5, e6, hz, hnil]
    rfl

/-- C32 (amended) for an insertion in the middle of the two-element list. -/
theorem insert_then_remove_witness :
    ∃ h1 l1, ll_addIndex demoHeap (some demoList) (some [7, 8, 9]) 2 1 =
        some ⟨true, h1, some l1⟩ ∧
      ∃ h2 l2, ll_remove h1 (some l1) 1 = some ⟨true, h2, some l2⟩ ∧
        l2 = demoList ∧ IsList h2 l2 [0, 1] ∧ payloads h2 [0, 1] = payloads demoHeap [0, 1] ∧
        ll_size (some l2) = ll_size (some demoList) ∧
        (demoList.size = 0 → l2 = ⟨none, none, 0⟩) :=
  insert_then_remove demoHeap demoList [0, 1] [7, 8, 9] 2 1 (by decide) (by decide)
    (by decide) (by decide)

/-- C32 as stated fails on the well-formed list of `2^32 - 1` nodes: `ll_addIndex` at
index 0 returns true, the size field wraps to 0, and the `ll_remove` at index 0 that
follows returns false and leaves the `2^32` nodes in place. -/
theorem ll_remove_after_ll_addIndex_wraps :
    IsList (chainHeap 4294967295) (chainList 4294967295) (List.range 4294967295) ∧
    ∃ h1 l1, ll_addIndex (chainHeap 4294967295) (some (chainList 4294967295)) (some [0]) 1 0 =
        some ⟨true, h1, some l1⟩ ∧
      ll_remove h1 (some l1) 0 = some ⟨false, h1, some l1⟩ ∧
      ll_size (some l1) ≠ ll_size (some (chainList 4294967295)) := by
  refine ⟨chain_isList _, ?_⟩
  obtain ⟨h1, l1, e1, -, z1, -⟩ :=
    ll_addIndex_ok (chain_isList 4294967295) [0] (show (1 : Nat) ≠ 0 by decide)
      (show 0 < (List.range 4294967295).length by rw [List.length_range]; decide)
  have h0 : l1.size = 0 := by
    rw [z1]
    rfl
  refine ⟨h1, l1, e1, ll_remove_fail h1 l1 (by omega), ?_⟩
  show l1.size ≠ _
  rw [h0]
  exact Nat.succ_ne_zero _ |>.symm

/-- C33: on a well-formed list whose size field is a 32-bit value, `ll_add`,
`ll_addIndex` and `ll_remove` return; a successful `ll_add` or `ll_addIndex` sets the
size to `(old size + 1) mod 2^32`, which is `old size + 1` exactly when the old size is
below `2^32 - 1`; a successful `ll_remove` sets it to `old size - 1`, the old size being
positive; and with the size field at `2^32 - 1`, `ll_add` of a valid payload returns
true and leaves size 0 with head and tail present. -/
theorem size_arithmetic (h : Heap) (l : linkedList) (ps : List Nat) (hl : IsList h l ps)
    (hb : l.size < 2 ^ 32) :
    (∀ object size, ∃ r, ll_add h (some l) object size = some r ∧
      (r.ret = true → ∃ l', r.list = some l' ∧ l'.size = (l.size + 1) % 2 ^ 32 ∧
        (l'.size = l.size + 1 ↔ l.size < 2 ^ 32 - 1))) ∧
    (∀ object size index, ∃ r, ll_addIndex h (some l) object size index = some r ∧
      (r.ret = true → ∃ l', r.list = some l' ∧ l'.size = (l.size + 1) % 2 ^ 32 ∧
        (l'.size = l.size + 1 ↔ l.size < 2 ^ 32 - 1))) ∧
    (∀ index, ∃ r, ll_remove h (some l) index = some r ∧
      (r.ret = true → ∃ l', r.list = some l' ∧ 0 < l.size ∧ l'.size = l.size - 1)) ∧
    (l.size = 2 ^ 32 - 1 → ∀ obj size, 0 < size →
      ∃ h' l', ll_add h (some l) (some obj) size = some ⟨true, h', some l'⟩ ∧
        l'.size = 0 ∧ l'.head ≠ none ∧ l'.tail ≠ none) := by
  have hmod : ∀ z, z = (l.size + 1) % 2 ^ 32 → (z = l.size + 1 ↔ l.size < 2 ^ 32 - 1) := by
    intro z hz
    by_cases hfit : l.size < 2 ^ 32 - 1
    · rw [hz, Nat.mod_eq_of_lt (by omega)]
      exact ⟨fun _ => hfit, fun _ => rfl⟩
    · have hmax : l.size + 1 = 2 ^ 32 := by omega
      rw [hz, hmax]
      simp only [Nat.mod_self]
      constructor
      · intro hc
        omega
      · intro hc
        exact absurd hc hfit
  refine ⟨?_, ?_, ?_, ?_⟩
  · intro object size
    by_cases hc : object = none ∨ size = 0
    · exact ⟨_, ll_add_fail h (some l) object size (Or.inr hc), fun hr => by cases hr⟩
    · push_neg at hc
      obtain ⟨obj, rfl⟩ := Option.ne_none_iff_exists'.mp hc.1
      obtain ⟨h', l', e, -, hz, -⟩ := ll_add_ok hl obj hc.2
      exact ⟨_, e, fun _ => ⟨l', rfl, hz, hmod _ hz⟩⟩
  · intro object size index
    by_cases hc : object = none ∨ size = 0 ∨ l.size < index
    · exact ⟨_, ll_addIndex_fail h l object size index hc, fun hr => by cases hr⟩
    · push_neg at hc
      obtain ⟨obj, rfl⟩ := Option.ne_none_iff_exists'.mp hc.1
      obtain ⟨h', l', e, -, hz, -⟩ :=
        ll_addIndex_le_ok hl obj hc.2.1 (show index ≤ ps.length from hl.size_eq ▸ hc.2.2)
      exact ⟨_, e, fun _ => ⟨l', rfl, hz, hmod _ hz⟩⟩
  · intro index
    by_cases hi : index < l.size
    · obtain ⟨h', l', e, -, hz, -⟩ :=
        ll_remove_ok hl (show index < ps.length from hl.size_eq ▸ hi)
      exact ⟨_, e, fun _ => ⟨l', rfl, by omega, hz⟩⟩
    · exact ⟨_, ll_remove_fail h l (Nat.le_of_not_lt hi), fun hr => by cases hr⟩
  · intro hmax obj size hsz
    obtain ⟨h', l', e, hs, hz, -⟩ := ll_add_ok hl obj (Nat.pos_iff_ne_zero.mp hsz)
    have hne : ps ++ [h.length] ≠ [] := by simp
    obtain ⟨hd, tl, -, -, e1, e2, -⟩ := hs.chain.end_nodes hne
    refine ⟨h', l', e, ?_, ?_, ?_⟩
    · rw [hz, hmax]
      rfl
    · rw [hs.head_eq, e1]
      simp
    · rw [hs.tail_eq, e2]
      simp

/-- C33 on the well-formed list of `2^32 - 1` nodes, whose size field is `2^32 - 1`. -/
theorem size_arithmetic_witness :
    (∀ object size, ∃ r,
      ll_add (chainHeap 4294967295) (some (chainList 4294967295)) object size = some r ∧
      (r.ret = true → ∃ l', r.list = some l' ∧
        l'.size = ((chainList 4294967295).size + 1) % 2 ^ 32 ∧
        (l'.size = (chainList 4294967295).size + 1 ↔
          (chainList 4294967295).size < 2 ^ 32 - 1))) ∧
    (∀ object size index, ∃ r,
      ll_addIndex (chainHeap 4294967295) (some (chainList 4294967295)) object size index =
        some r ∧
      (r.ret = true → ∃ l', r.list = some l' ∧
        l'.size = ((chainList 4294967295).size + 1) % 2 ^ 32 ∧
        (l'.size = (chainList 4294967295).size + 1 ↔
          (chainList 4294967295).size < 2 ^ 32 - 1))) ∧
    (∀ index, ∃ r,
      ll_remove (chainHeap 4294967295) (some (chainList 4294967295)) index = some r ∧
      (r.ret = true → ∃ l', r.list = some l' ∧ 0 < (chainList 4294967295).size ∧
        l'.size = (chainList 4294967295).size - 1)) ∧
    ((chainList 4294967295).size = 2 ^ 32 - 1 → ∀ obj size, 0 < size →
      ∃ h' l', ll_add (chainHeap 4294967295) (some (chainList 4294967295)) (some obj) size =
          some ⟨true, h', some l'⟩ ∧
        l'.size = 0 ∧ l'.head ≠ none ∧ l'.tail ≠ none) :=
  size_arithmetic (chainHeap 4294967295) (chainList 4294967295) (List.range 4294967295)
    (chain_isList 4294967295) (show (4294967295 : Nat) < 2 ^ 32 by decide)

end LinkedList
